import Mathlib

/-! The program `macapp`: a verification development.

`macapp` (a single Go file, `main.go`) packages a compiled binary into a
minimal macOS application bundle.  This file embeds the program in Lean:

* Go strings and byte slices are lists of bytes (`List Nat`, every byte below 256);
* the standard-library functions the program calls (`xml.EscapeText`,
  `strings.Replace`, `filepath.Ext/Base/Dir/Clean/Join`) are modelled after
  their Go implementations for Unix-like systems (separator `/`, no volume names);
* the operating system is an explicit record of operations over a state,
  so that `run` and `main` are ordinary state-passing functions.
-/

namespace Macapp

/-! ## Bytes and strings -/

/-- The bytes of an ASCII source literal (for ASCII text the code points are the UTF-8 bytes). -/
def bytes (s : String) : List Nat := s.toList.map Char.toNat

/-! ## `unicode/utf8` -/

/-- The constant `utf8.RuneError` (U+FFFD). -/
def RuneError : Nat := 0xFFFD

/-- The table `first` of `unicode/utf8` together with `acceptRanges`: for a leading byte
of a multi-byte sequence, the sequence length and the accepted range of the second byte.
`none` stands for the entries `xx` (invalid leading byte). -/
def first (p0 : Nat) : Option (Nat × Nat × Nat) :=
  if 0xC2 ≤ p0 ∧ p0 ≤ 0xDF then some (2, 0x80, 0xBF)
  else if p0 = 0xE0 then some (3, 0xA0, 0xBF)
  else if 0xE1 ≤ p0 ∧ p0 ≤ 0xEC then some (3, 0x80, 0xBF)
  else if p0 = 0xED then some (3, 0x80, 0x9F)
  else if 0xEE ≤ p0 ∧ p0 ≤ 0xEF then some (3, 0x80, 0xBF)
  else if p0 = 0xF0 then some (4, 0x90, 0xBF)
  else if 0xF1 ≤ p0 ∧ p0 ≤ 0xF3 then some (4, 0x80, 0xBF)
  else if p0 = 0xF4 then some (4, 0x80, 0x8F)
  else none

/-- The function `utf8.DecodeRune`: the first rune of `p` and its width in bytes.
An encoding error gives `(RuneError, 1)`, the empty input `(RuneError, 0)`.
The masks and shifts of the Go code are written as `%` and `*`
(the bit fields are disjoint, so `|` is `+`). -/
def decodeRune (p : List Nat) : Nat × Nat :=
  match p with
  | [] => (RuneError, 0)
  | p0 :: rest =>
    if p0 < 0x80 then (p0, 1) else
    match first p0 with
    | none => (RuneError, 1)
    | some (sz, lo, hi) =>
      if rest.length + 1 < sz then (RuneError, 1) else
      match rest with
      | [] => (RuneError, 1)
      | b1 :: rest1 =>
        if b1 < lo ∨ hi < b1 then (RuneError, 1) else
        if sz ≤ 2 then ((p0 % 32) * 64 + b1 % 64, 2) else
        match rest1 with
        | [] => (RuneError, 1)
        | b2 :: rest2 =>
          if b2 < 0x80 ∨ 0xBF < b2 then (RuneError, 1) else
          if sz ≤ 3 then ((p0 % 16) * 4096 + (b1 % 64) * 64 + b2 % 64, 3) else
          match rest2 with
          | [] => (RuneError, 1)
          | b3 :: _ =>
            if b3 < 0x80 ∨ 0xBF < b3 then (RuneError, 1) else
            ((p0 % 8) * 262144 + (b1 % 64) * 4096 + (b2 % 64) * 64 + b3 % 64, 4)

/-- The UTF-8 encoding of a code point (`utf8.EncodeRune` on a valid rune). -/
def encodeRune (r : Nat) : List Nat :=
  if r < 0x80 then [r]
  else if r < 0x800 then [0xC0 + r / 64, 0x80 + r % 64]
  else if r < 0x10000 then [0xE0 + r / 4096, 0x80 + (r / 64) % 64, 0x80 + r % 64]
  else [0xF0 + r / 262144, 0x80 + (r / 4096) % 64, 0x80 + (r / 64) % 64, 0x80 + r % 64]

/-- The UTF-8 encoding of a sequence of code points. -/
def utf8 : List Nat → List Nat
  | [] => []
  | c :: cs => encodeRune c ++ utf8 cs

/-! ## `encoding/xml`: `EscapeText` -/

/-- The function `isInCharacterRange` of `encoding/xml`: the `Char` production of XML 1.0. -/
def isInCharacterRange (r : Nat) : Bool :=
  r == 0x09 || r == 0x0A || r == 0x0D ||
  (0x20 ≤ r && r ≤ 0xD7FF) || (0xE000 ≤ r && r ≤ 0xFFFD) || (0x10000 ≤ r && r ≤ 0x10FFFF)

def escQuot : List Nat := bytes "&#34;"
def escApos : List Nat := bytes "&#39;"
def escAmp : List Nat := bytes "&amp;"
def escLT : List Nat := bytes "&lt;"
def escGT : List Nat := bytes "&gt;"
def escTab : List Nat := bytes "&#x9;"
def escNL : List Nat := bytes "&#xA;"
def escCR : List Nat := bytes "&#xD;"
/-- The UTF-8 bytes of U+FFFD, the replacement character. -/
def escFFFD : List Nat := [0xEF, 0xBF, 0xBD]

/-- The `switch` of `escapeText`: the replacement written for the rune `r` decoded with
width `width`, or `none` when the rune is copied unchanged. -/
def escOf (r width : Nat) : Option (List Nat) :=
  if r = 34 then some escQuot
  else if r = 39 then some escApos
  else if r = 38 then some escAmp
  else if r = 60 then some escLT
  else if r = 62 then some escGT
  else if r = 9 then some escTab
  else if r = 10 then some escNL
  else if r = 13 then some escCR
  else if !isInCharacterRange r || (r == 0xFFFD && width == 1) then some escFFFD
  else none

/-- The loop of `escapeText`: decode one rune, write its replacement or the rune's own
bytes, continue after it.  (The Go code delays the copy of unescaped runs through the
index `last`; the bytes written are the same.)  `fuel` bounds the iterations; every
iteration on a non-empty input consumes at least one byte. -/
def escapeTextLoop : Nat → List Nat → List Nat
  | 0, _ => []
  | _ + 1, [] => []
  | fuel + 1, c :: t =>
    let rw := decodeRune (c :: t)
    (match escOf rw.1 rw.2 with
      | some esc => esc
      | none => (c :: t).take rw.2) ++ escapeTextLoop fuel ((c :: t).drop rw.2)

/-- The function `xml.EscapeText` writing to a `bytes.Buffer` (whose writes never fail). -/
def EscapeText (s : List Nat) : List Nat := escapeTextLoop s.length s

/-- `escapeXML` of `main.go`. -/
def escapeXML (str : List Nat) : List Nat := EscapeText str

/-! ## XML unescaping (the reader's side, used to state the round trip) -/

/-- Value of a hexadecimal digit. -/
def hexVal (c : Nat) : Option Nat :=
  if 48 ≤ c ∧ c ≤ 57 then some (c - 48)
  else if 65 ≤ c ∧ c ≤ 70 then some (c - 55)
  else if 97 ≤ c ∧ c ≤ 102 then some (c - 87)
  else none

/-- Value of a decimal digit. -/
def decVal (c : Nat) : Option Nat :=
  if 48 ≤ c ∧ c ≤ 57 then some (c - 48) else none

/-- Value of a non-empty digit string in the given base. -/
def parseNum (base : Nat) (digit : Nat → Option Nat) : List Nat → Option Nat
  | [] => none
  | ds => ds.foldl (fun acc d => acc.bind fun a => (digit d).map fun v => a * base + v) (some 0)

/-- The text a reference `&body;` stands for: the five predefined entities of XML 1.0 and
decimal or hexadecimal character references to legal characters. -/
def decodeRef (body : List Nat) : Option (List Nat) :=
  if body = bytes "amp" then some [38]
  else if body = bytes "lt" then some [60]
  else if body = bytes "gt" then some [62]
  else if body = bytes "quot" then some [34]
  else if body = bytes "apos" then some [39]
  else match body with
    | 35 :: 120 :: ds =>
      (parseNum 16 hexVal ds).bind fun r => if isInCharacterRange r then some (encodeRune r) else none
    | 35 :: ds =>
      (parseNum 10 decVal ds).bind fun r => if isInCharacterRange r then some (encodeRune r) else none
    | _ => none

/-- Standard XML unescaping of character data, as a parser performs it: `ref` holds the
reversed body of a reference being read.  A raw `<` is not character data; a raw carriage
return is normalised to a line feed (XML 1.0, 2.11); a reference is replaced by its value. -/
def unescapeGo : Option (List Nat) → List Nat → Option (List Nat)
  | none, [] => some []
  | some _, [] => none
  | none, 13 :: 10 :: t => (unescapeGo none t).map (10 :: ·)
  | none, c :: t =>
    if c = 38 then unescapeGo (some []) t
    else if c = 60 then none
    else if c = 13 then (unescapeGo none t).map (10 :: ·)
    else (unescapeGo none t).map (c :: ·)
  | some acc, c :: t =>
    if c = 59 then
      (decodeRef acc.reverse).bind fun v => (unescapeGo none t).map (v ++ ·)
    else unescapeGo (some (c :: acc)) t

/-- Standard XML unescaping of character data. -/
def unescapeXML (s : List Nat) : Option (List Nat) := unescapeGo none s

/-! ## `strings.Replace` and the `Info.plist` template -/

/-- The constant `infoPlist` of `main.go`. -/
def infoPlist : List Nat := bytes "<?xml version=\"1.0\" encoding=\"UTF-8\"?>
<!DOCTYPE plist PUBLIC \"-//Apple Computer//DTD PLIST 1.0//EN\" \"http://www.apple.com/DTDs/PropertyList-1.0.dtd\">
<plist version=\"1.0\">
  <dict>
    <key>CFBundleGetInfoString</key>
    <string>\x7b\x7b.AppName\x7d\x7d</string>
    <key>CFBundleExecutable</key>
    <string>\x7b\x7b.AppName\x7d\x7d</string>
    <key>CFBundleIdentifier</key>
    <string>com.example.www</string>
    <key>CFBundleName</key>
    <string>\x7b\x7b.AppName\x7d\x7d</string>
    <key>CFBundleIconFile</key>
    <string>icon.icns</string>
    <key>CFBundleShortVersionString</key>
    <string>0.01</string>
    <key>CFBundleInfoDictionaryVersion</key>
    <string>6.0</string>
    <key>CFBundlePackageType</key>
    <string>APPL</string>
    <key>IFMajorVersion</key>
    <integer>0</integer>
    <key>IFMinorVersion</key>
    <integer>1</integer>
    <key>NSHighResolutionCapable</key>
    <true />
  </dict>
</plist>
"

/-- The placeholder replaced in `run`. -/
def placeholder : List Nat := bytes "\x7b\x7b.AppName\x7d\x7d"

/-- The replacement loop of `strings.Replace` for a non-empty `old` and `n = -1`: scan
from the left; where `old` starts, write `new` and skip `old` (`skip` counts the bytes of
`old` still to pass over), otherwise copy the byte. -/
def replaceGo (old new : List Nat) : Nat → List Nat → List Nat
  | _, [] => []
  | skip + 1, _ :: t => replaceGo old new skip t
  | 0, c :: t =>
    if old.isPrefixOf (c :: t) then new ++ replaceGo old new (old.length - 1) t
    else c :: replaceGo old new 0 t

/-- The case of an empty `old` in `strings.Replace`: `new` is written after every rune. -/
def replaceEmpty (new : List Nat) : Nat → List Nat → List Nat
  | 0, _ => []
  | _ + 1, [] => []
  | fuel + 1, c :: t =>
    (c :: t).take (decodeRune (c :: t)).2 ++ new ++
      replaceEmpty new fuel ((c :: t).drop (decodeRune (c :: t)).2)

/-- The call `strings.Replace(s, old, new, -1)`: every non-overlapping instance of `old`
in `s`, from the left, is replaced by `new`. -/
def Replace (s old new : List Nat) : List Nat :=
  if old = [] then new ++ replaceEmpty new s.length s else replaceGo old new 0 s

/-- The document `w` that `run` writes to `Contents/Info.plist`:
`strings.Replace(infoPlist, "{{.AppName}}", escapeXML(appName), -1)`. -/
def genInfoPlist (appName : List Nat) : List Nat :=
  Replace infoPlist placeholder (escapeXML appName)

/-! ## Reading a property list: markup and character data -/

/-- The scanner: `inTag` tells whether the bytes read belong to a tag, `cur` is the item
being read (reversed), `done` the finished items (latest first).  `<` ends character data
and opens a tag, `>` ends a tag. -/
def scanGo : Bool → List Nat → List (List Nat) → List Nat → List (List Nat)
  | _, cur, done, [] => (cur.reverse :: done).reverse
  | true, cur, done, c :: t =>
    if c = 62 then scanGo false [] (cur.reverse :: done) t else scanGo true (c :: cur) done t
  | false, cur, done, c :: t =>
    if c = 60 then scanGo true [] (cur.reverse :: done) t else scanGo false (c :: cur) done t

/-- The items of a document in order: character data and tags alternate, starting with the
(possibly empty) character data before the first tag; item `2k+1` is the `k`-th tag. -/
def tokens (doc : List Nat) : List (List Nat) := scanGo false [] [] doc

/-- The state of the scanner after the input (used to scan a document piece by piece). -/
def scanEnd : Bool → List Nat → List (List Nat) → List Nat → Bool × List Nat × List (List Nat)
  | b, cur, done, [] => (b, cur, done)
  | true, cur, done, c :: t =>
    if c = 62 then scanEnd false [] (cur.reverse :: done) t else scanEnd true (c :: cur) done t
  | false, cur, done, c :: t =>
    if c = 60 then scanEnd true [] (cur.reverse :: done) t else scanEnd false (c :: cur) done t

/-- Search of the items from a tag position on, two at a time (a tag and the character
data after it): the tag that follows `<key>k</key>` and the character data after that tag. -/
def plistValueGo (k : List Nat) : List (List Nat) → Option (List Nat × List Nat)
  | tag :: text :: rest =>
    match rest with
    | close :: _ :: vtag :: v :: _ =>
      if tag = bytes "key" then
        if text = k then
          if close = bytes "/key" then some (vtag, v) else plistValueGo k rest
        else plistValueGo k rest
      else plistValueGo k rest
    | _ => none
  | _ => none

/-- The value of a key in a property-list document: the tag of the element that follows
`<key>k</key>` and the character data after that tag (for `<string>v</string>` the pair
`(string, v)`). -/
def plistValue (k doc : List Nat) : Option (List Nat × List Nat) :=
  plistValueGo k (tokens doc).tail

/-- The template up to the first placeholder. -/
def seg0 : List Nat := bytes "<?xml version=\"1.0\" encoding=\"UTF-8\"?>
<!DOCTYPE plist PUBLIC \"-//Apple Computer//DTD PLIST 1.0//EN\" \"http://www.apple.com/DTDs/PropertyList-1.0.dtd\">
<plist version=\"1.0\">
  <dict>
    <key>CFBundleGetInfoString</key>
    <string>"

/-- The template between the first and the second placeholder. -/
def seg1 : List Nat := bytes "</string>
    <key>CFBundleExecutable</key>
    <string>"

/-- The template between the second and the third placeholder. -/
def seg2 : List Nat := bytes "</string>
    <key>CFBundleIdentifier</key>
    <string>com.example.www</string>
    <key>CFBundleName</key>
    <string>"

/-- The template after the third placeholder. -/
def seg3 : List Nat := bytes "</string>
    <key>CFBundleIconFile</key>
    <string>icon.icns</string>
    <key>CFBundleShortVersionString</key>
    <string>0.01</string>
    <key>CFBundleInfoDictionaryVersion</key>
    <string>6.0</string>
    <key>CFBundlePackageType</key>
    <string>APPL</string>
    <key>IFMajorVersion</key>
    <integer>0</integer>
    <key>IFMinorVersion</key>
    <integer>1</integer>
    <key>NSHighResolutionCapable</key>
    <true />
  </dict>
</plist>
"

/-- The items of the template before its first placeholder. -/
def items0 : List (List Nat) := (scanEnd false [] [] seg0).2.2.reverse
/-- The items between the first and the second placeholder. -/
def items1 : List (List Nat) := (scanEnd true [] [] seg1.tail).2.2.reverse
/-- The items between the second and the third placeholder. -/
def items2 : List (List Nat) := (scanEnd true [] [] seg2.tail).2.2.reverse
/-- The items after the third placeholder. -/
def items3 : List (List Nat) := scanGo true [] [] seg3.tail

/-- The items of the template with `e` as the character data at its three placeholders. -/
def itemsWith (e : List Nat) : List (List Nat) :=
  items0 ++ e :: (items1 ++ e :: (items2 ++ e :: items3))

/-- The tags of a document in order (the items at the odd positions). -/
def tagsOf : List (List Nat) → List (List Nat)
  | _ :: tag :: rest => tag :: tagsOf rest
  | _ => []

/-- The keys of a property list in order: the character data after each `<key>` tag, read
from a tag position on. -/
def keysOf : List (List Nat) → List (List Nat)
  | tag :: text :: rest => if tag = bytes "key" then text :: keysOf rest else keysOf rest
  | _ => []

/-! ## `path/filepath` on a Unix-like system (separator `/`, no volume names) -/

/-- The function `filepath.Ext`, scanning backwards from the end of the path: `before` is
the part not yet scanned (reversed), `after` the part already passed. -/
def extGo : List Nat → List Nat → List Nat
  | [], _ => []
  | c :: before, after =>
    if c = 47 then [] else if c = 46 then c :: after else extGo before (c :: after)

/-- The function `filepath.Ext`: the suffix beginning at the final dot of the final element
of the path, empty if there is no dot. -/
def Ext (path : List Nat) : List Nat := extGo path.reverse []

/-- The function `filepath.Base`: the last element of the path, after removing trailing
separators; `.` for the empty path, `/` for a path of separators only. -/
def Base (path : List Nat) : List Nat :=
  if path = [] then [46]
  else
    let last := ((path.reverse.dropWhile (· = 47)).takeWhile (· ≠ 47)).reverse
    if last = [] then [47] else last

/-- The inner loop of the `..` case of `filepath.Clean` after the first `out.w--`:
`x` is the byte at index `out.w`, the list is the buffer below it (reversed). -/
def backtrackGo (dotdot : Nat) : Nat → List Nat → List Nat
  | _, [] => []
  | x, y :: r => if (y :: r).length > dotdot ∧ x ≠ 47 then backtrackGo dotdot y r else y :: r

/-- The `..` case of `filepath.Clean` when it can backtrack: remove the buffer's last
element up to and including the separator before it, not going below `dotdot`. -/
def backtrack (dotdot : Nat) : List Nat → List Nat
  | [] => []
  | x :: r => backtrackGo dotdot x r

/-- The main loop of `filepath.Clean`.  `out` is the output buffer reversed (its length is
`out.w`), the list argument is the unread part of the path (`path[r:]`), `dotdot` the
index where `..` must stop.  `fuel` bounds the iterations; each consumes a byte. -/
def cleanLoop (rooted : Bool) : Nat → List Nat → List Nat → Nat → List Nat
  | 0, _, out, _ => out
  | _ + 1, [], out, _ => out
  | fuel + 1, c :: rest, out, dotdot =>
    if c = 47 then
      -- empty path element
      cleanLoop rooted fuel rest out dotdot
    else if c = 46 ∧ (rest = [] ∨ rest.head? = some 47) then
      -- . element
      cleanLoop rooted fuel rest out dotdot
    else if c = 46 ∧ rest.head? = some 46 ∧ (rest.tail = [] ∨ rest.tail.head? = some 47) then
      -- .. element: remove to last separator
      if out.length > dotdot then
        cleanLoop rooted fuel rest.tail (backtrack dotdot out) dotdot
      else if rooted = false then
        let out1 := if out.length > 0 then 47 :: out else out
        cleanLoop rooted fuel rest.tail (46 :: 46 :: out1) (out1.length + 2)
      else cleanLoop rooted fuel rest.tail out dotdot
    else
      -- real path element: add slash if needed, copy element
      let out1 :=
        if (rooted = true ∧ out.length ≠ 1) ∨ (rooted = false ∧ out.length ≠ 0) then 47 :: out
        else out
      cleanLoop rooted fuel ((c :: rest).dropWhile (· ≠ 47))
        (((c :: rest).takeWhile (· ≠ 47)).reverse ++ out1) dotdot

/-- The function `filepath.Clean`: the shortest path name equivalent to `path` by purely
lexical processing. -/
def Clean (path : List Nat) : List Nat :=
  if path = [] then [46]
  else
    let out :=
      if path.head? = some 47 then cleanLoop true path.length path.tail [47] 1
      else cleanLoop false path.length path [] 0
    if out = [] then [46] else out.reverse

/-- The function `filepath.Dir`: all but the last element of the path, cleaned. -/
def Dir (path : List Nat) : List Nat :=
  Clean (path.reverse.dropWhile (· ≠ 47)).reverse

/-- The function `strings.Join(elems, "/")`. -/
def joinSep : List (List Nat) → List Nat
  | [] => []
  | [e] => e
  | e :: es => e ++ 47 :: joinSep es

/-- The function `filepath.Join`: the elements from the first non-empty one on, joined with
separators and cleaned; the empty string if all elements are empty. -/
def Join : List (List Nat) → List Nat
  | [] => []
  | e :: es => if e = [] then Join es else Clean (joinSep (e :: es))

/-! ## The operating system as seen by the program -/

/-- Error numbers returned by system calls. -/
inductive Errno
  | ENOENT
  | ENOTDIR
  | EISDIR
  | EEXIST
  | EACCES
  | EBADF
  | other (code : Nat)
deriving DecidableEq, Repr

/-- The flags of `os.OpenFile` that the program uses. -/
inductive OpenFlag
  | O_WRONLY
  | O_CREATE
  | O_TRUNC
deriving DecidableEq, Repr

/-- The operations `run` performs, over a state `σ` with file handles `H`.  Every operation
returns the new state together with its error (or result); the Go functions are
`os.RemoveAll`, `os.MkdirAll`, `ioutil.WriteFile`, `os.Open`, `os.OpenFile`, `io.Copy`
(destination first), `(*os.File).Sync` and `(*os.File).Close`. -/
structure OS (σ : Type) (H : Type) where
  RemoveAll : List Nat → σ → Option Errno × σ
  MkdirAll : List Nat → Nat → σ → Option Errno × σ
  WriteFile : List Nat → List Nat → Nat → σ → Option Errno × σ
  Open : List Nat → σ → Except Errno H × σ
  OpenFile : List Nat → List OpenFlag → Nat → σ → Except Errno H × σ
  Copy : H → H → σ → Option Errno × σ
  Sync : H → σ → Option Errno × σ
  Close : H → σ → Option Errno × σ

/-- The constant `perm` of `run`. -/
def perm : Nat := 0o755
/-- The constant `ext` of `run`. -/
def ext : List Nat := bytes ".app"
/-- The constant `contents` of `run`. -/
def contents : List Nat := bytes "Contents"
/-- The constant `macOS` of `run`. -/
def macOS : List Nat := bytes "MacOS"
/-- The constant `resources` of `run`. -/
def resources : List Nat := bytes "Resources"

/-- The function `run` of `main.go`: the returned error (`none` for `nil`) and the final
state.  The deferred `Close` calls run when the function returns, the destination first. -/
def run {σ H : Type} (os : OS σ H) (dir appName bin : List Nat) (s : σ) : Option Errno × σ :=
  let appPath := Join [dir, appName ++ ext]
  -- Delete .app if it already exists.
  match os.RemoveAll appPath s with
  | (some err, s) => (some err, s)
  | (none, s) =>
  -- Create directories.
  match os.MkdirAll (Join [appPath, contents, macOS]) perm s with
  | (some err, s) => (some err, s)
  | (none, s) =>
  match os.MkdirAll (Join [appPath, contents, resources]) perm s with
  | (some err, s) => (some err, s)
  | (none, s) =>
  -- Write the Info.plist file.
  let w := Replace infoPlist placeholder (escapeXML appName)
  match os.WriteFile (Join [appPath, contents, bytes "Info.plist"]) w 0o644 s with
  | (some err, s) => (some err, s)
  | (none, s) =>
  -- Copy the binary file.
  match os.Open bin s with
  | (.error err, s) => (some err, s)
  | (.ok fin, s) =>
  match os.OpenFile (Join [appPath, contents, macOS, appName])
      [OpenFlag.O_WRONLY, OpenFlag.O_CREATE, OpenFlag.O_TRUNC] perm s with
  | (.error err, s) => (some err, (os.Close fin s).2)
  | (.ok out, s) =>
  match os.Copy out fin s with
  | (some err, s) => (some err, (os.Close fin (os.Close out s).2).2)
  | (none, s) =>
  match os.Sync out s with
  | (some err, s) => (some err, (os.Close fin (os.Close out s).2).2)
  | (none, s) => (none, (os.Close fin (os.Close out s).2).2)

/-- What `main` writes to standard error. -/
inductive Message
  | pathNotSpecified
  | usage
  | binaryNotSpecified
  | mustEndWithApp
  | error (err : Errno)
deriving DecidableEq, Repr

/-- How `main` ends: the process exit status with the messages written to standard error,
or a run-time panic (a slice bound out of range). -/
inductive Outcome
  | exit (status : Nat) (stderr : List Message)
  | panic
deriving DecidableEq, Repr

/-- The function `main` of `main.go` after `flag.Parse()`: `output` is the value of the
flag `-o` (empty by default) and `args` are the positional arguments (`flag.Arg(0)` is the
first of them, or empty). -/
def main {σ H : Type} (os : OS σ H) (output : List Nat) (args : List (List Nat)) (s : σ) :
    Outcome × σ :=
  if output = [] then
    (Outcome.exit 1 [Message.pathNotSpecified, Message.usage], s)
  else
    let bin := args.headD []
    if bin = [] then
      (Outcome.exit 1 [Message.binaryNotSpecified], s)
    else if Ext output ≠ bytes ".app" then
      (Outcome.exit 1 [Message.mustEndWithApp], s)
    else
      let appName := Base output
      if appName.length < 4 then (Outcome.panic, s)
      else
        let appName := appName.take (appName.length - 4)
        let dir := Dir output
        match run os dir appName bin s with
        | (some err, s) => (Outcome.exit 1 [Message.error err], s)
        | (none, s) => (Outcome.exit 0 [], s)

/-! ## Recording the calls made -/

/-- A call to the operating system with its arguments. -/
inductive Call (H : Type)
  | RemoveAll (path : List Nat)
  | MkdirAll (path : List Nat) (perm : Nat)
  | WriteFile (path data : List Nat) (perm : Nat)
  | Open (path : List Nat)
  | OpenFile (path : List Nat) (flag : List OpenFlag) (perm : Nat)
  | Copy (dst src : H)
  | Sync (f : H)
  | Close (f : H)

/-- A recorded call: the call, the error it returned (`none` for success) and the state in
which it was made. -/
structure Event (σ H : Type) where
  call : Call H
  err : Option Errno
  pre : σ

/-- The error of a result. -/
def errOf {α : Type} : Except Errno α → Option Errno
  | .error e => some e
  | .ok _ => none

/-- The operating system `os` instrumented to record every call, in order, in a log. -/
def traced {σ H : Type} (os : OS σ H) : OS (σ × List (Event σ H)) H where
  RemoveAll p s :=
    let r := os.RemoveAll p s.1
    (r.1, (r.2, s.2 ++ [⟨Call.RemoveAll p, r.1, s.1⟩]))
  MkdirAll p m s :=
    let r := os.MkdirAll p m s.1
    (r.1, (r.2, s.2 ++ [⟨Call.MkdirAll p m, r.1, s.1⟩]))
  WriteFile p d m s :=
    let r := os.WriteFile p d m s.1
    (r.1, (r.2, s.2 ++ [⟨Call.WriteFile p d m, r.1, s.1⟩]))
  Open p s :=
    let r := os.Open p s.1
    (r.1, (r.2, s.2 ++ [⟨Call.Open p, errOf r.1, s.1⟩]))
  OpenFile p f m s :=
    let r := os.OpenFile p f m s.1
    (r.1, (r.2, s.2 ++ [⟨Call.OpenFile p f m, errOf r.1, s.1⟩]))
  Copy dst src s :=
    let r := os.Copy dst src s.1
    (r.1, (r.2, s.2 ++ [⟨Call.Copy dst src, r.1, s.1⟩]))
  Sync f s :=
    let r := os.Sync f s.1
    (r.1, (r.2, s.2 ++ [⟨Call.Sync f, r.1, s.1⟩]))
  Close f s :=
    let r := os.Close f s.1
    (r.1, (r.2, s.2 ++ [⟨Call.Close f, r.1, s.1⟩]))

/-- The log of the calls `run` makes from the state `s`. -/
def runLog {σ H : Type} (os : OS σ H) (dir appName bin : List Nat) (s : σ) :
    List (Event σ H) :=
  (run (traced os) dir appName bin (s, [])).2.2

/-- The log of the calls `main` makes from the state `s`. -/
def mainLog {σ H : Type} (os : OS σ H) (output : List Nat) (args : List (List Nat)) (s : σ) :
    List (Event σ H) :=
  (main (traced os) output args (s, [])).2.2

/-- A call without its file handles. -/
inductive Kind
  | RemoveAll (path : List Nat)
  | MkdirAll (path : List Nat) (perm : Nat)
  | WriteFile (path data : List Nat) (perm : Nat)
  | Open (path : List Nat)
  | OpenFile (path : List Nat) (flag : List OpenFlag) (perm : Nat)
  | Copy
  | Sync
  | Close
deriving DecidableEq

/-- The kind of a call. -/
def Call.kind {H : Type} : Call H → Kind
  | .RemoveAll p => Kind.RemoveAll p
  | .MkdirAll p m => Kind.MkdirAll p m
  | .WriteFile p d m => Kind.WriteFile p d m
  | .Open p => Kind.Open p
  | .OpenFile p f m => Kind.OpenFile p f m
  | .Copy _ _ => Kind.Copy
  | .Sync _ => Kind.Sync
  | .Close _ => Kind.Close

/-- The steps of a log: its events other than the deferred `Close` calls. -/
def stepEvents {σ H : Type} (log : List (Event σ H)) : List (Event σ H) :=
  log.filter (fun e => decide (e.call.kind ≠ Kind.Close))

/-- The path of the bundle, `appPath` in `run`. -/
def appPathOf (dir appName : List Nat) : List Nat := Join [dir, appName ++ ext]

/-- The eight steps of `run` in order, with their arguments. -/
def plan (dir appName bin : List Nat) : List Kind :=
  [Kind.RemoveAll (appPathOf dir appName),
   Kind.MkdirAll (Join [appPathOf dir appName, contents, macOS]) 0o755,
   Kind.MkdirAll (Join [appPathOf dir appName, contents, resources]) 0o755,
   Kind.WriteFile (Join [appPathOf dir appName, contents, bytes "Info.plist"])
     (genInfoPlist appName) 0o644,
   Kind.Open bin,
   Kind.OpenFile (Join [appPathOf dir appName, contents, macOS, appName])
     [OpenFlag.O_WRONLY, OpenFlag.O_CREATE, OpenFlag.O_TRUNC] 0o755,
   Kind.Copy,
   Kind.Sync]

/-! ## Paths as sequences of elements -/

/-- The non-empty elements of a path, separated by `/`; `cur` is the element being read
(reversed). -/
def compsGo : List Nat → List Nat → List (List Nat)
  | cur, [] => if cur = [] then [] else [cur.reverse]
  | cur, c :: t =>
    if c = 47 then (if cur = [] then compsGo [] t else cur.reverse :: compsGo [] t)
    else compsGo (c :: cur) t

/-- The non-empty elements of a path. -/
def comps (path : List Nat) : List (List Nat) := compsGo [] path

/-- Lexical normalisation of a sequence of elements on a stack (top first): `.` is dropped,
`..` removes the element before it, or is kept at the start of a path that is not rooted,
or is dropped at the start of a rooted path. -/
def normGo (rooted : Bool) : List (List Nat) → List (List Nat) → List (List Nat)
  | st, [] => st
  | st, c :: cs =>
    if c = [46] then normGo rooted st cs
    else if c = [46, 46] then
      match st with
      | top :: st1 =>
        if top = [46, 46] then
          (if rooted then normGo rooted st cs else normGo rooted ([46, 46] :: st) cs)
        else normGo rooted st1 cs
      | [] => if rooted then normGo rooted [] cs else normGo rooted [[46, 46]] cs
    else normGo rooted (c :: st) cs

/-- The output buffer of `Clean`, reversed, for a stack of elements (top first). -/
def renderR (rooted : Bool) : List (List Nat) → List Nat
  | [] => if rooted then [47] else []
  | c :: st => c.reverse ++ (if st = [] then (if rooted then [47] else []) else 47 :: renderR rooted st)

/-- The path written for a stack of elements: `.` if the buffer is empty. -/
def render (rooted : Bool) (st : List (List Nat)) : List Nat :=
  if renderR rooted st = [] then [46] else (renderR rooted st).reverse

/-- Whether a path is rooted (starts with a separator). -/
def isRooted (path : List Nat) : Bool := path.head? = some 47

/-! ## A file system

A deterministic model of the file system the program runs on: a tree of directories and
regular files addressed by absolute paths, with names compared byte by byte (a
case-sensitive file system), without symbolic or hard links, used by a single
process that is allowed every operation (no permission checks), and whose calls fail only
for the reasons the state gives (a missing file, a file where a directory is needed, a
directory where a file is needed).  The paths that `run` builds with `filepath.Join` are
clean, so the absolute path they name is computed from their elements (`resolve`); the
source path is passed to `os.Open` as it was given, and is looked up element by element
(`lookup`).  Names are arbitrary byte strings: limits on their length and bytes that a
system refuses in a name are not modelled. -/

/-- An absolute path: the names from the root down. -/
abbrev FSKey := List (List Nat)

/-- A directory or a regular file, with its permission bits. -/
inductive Node
  | dir (mode : Nat)
  | file (mode : Nat) (data : List Nat)
deriving DecidableEq, Repr

/-- The state of the file system: the node at each absolute path, the working directory
and the file mode creation mask of the process. -/
structure FS where
  nodes : FSKey → Option Node
  cwd : FSKey
  umask : Nat

/-- An open file: the path it was opened at and the access mode.  Each handle of `run` is
used for one sequential transfer from the start of the file, so offsets are not kept. -/
structure Handle where
  key : FSKey
  readable : Bool
  writable : Bool
deriving DecidableEq, Repr

/-- Walking the elements of a path from a position (a stack of names, deepest first):
`.` stays, `..` goes to the parent (the root is its own parent), a name goes down. -/
def walk : List (List Nat) → List (List Nat) → List (List Nat)
  | st, [] => st
  | st, c :: cs =>
    if c = [46] then walk st cs
    else if c = [46, 46] then walk st.tail cs
    else walk (c :: st) cs

/-- The absolute path a path string names in a process with working directory `cwd`. -/
def resolve (cwd : FSKey) (path : List Nat) : FSKey :=
  (walk (if isRooted path then [] else cwd.reverse) (comps path)).reverse

/-- The mode of a node created with permission bits `perm` under the mask `umask`. -/
def applyUmask (perm umask : Nat) : Nat := perm - (perm &&& umask)

/-- The node map with the node at `k` replaced. -/
def setNode (nodes : FSKey → Option Node) (k : FSKey) (v : Option Node) : FSKey → Option Node :=
  fun q => if q = k then v else nodes q

/-- Make each path of the list a directory, in order: an existing directory is kept, a
missing one is created, a regular file in the way is an error. -/
def ensureDirs (mode : Nat) : (FSKey → Option Node) → List FSKey →
    Option Errno × (FSKey → Option Node)
  | nodes, [] => (none, nodes)
  | nodes, k :: ks =>
    match nodes k with
    | some (Node.file _ _) => (some Errno.ENOTDIR, nodes)
    | some (Node.dir _) => ensureDirs mode nodes ks
    | none => ensureDirs mode (setNode nodes k (some (Node.dir mode))) ks

/-- Open the file at `k` for writing, creating it with mode `mode` or truncating it. -/
def createTrunc (nodes : FSKey → Option Node) (k : FSKey) (mode : Nat) :
    Except Errno (FSKey → Option Node) :=
  match nodes k with
  | some (Node.dir _) => .error Errno.EISDIR
  | some (Node.file m _) => .ok (setNode nodes k (some (Node.file m [])))
  | none =>
    if k = [] then .error Errno.ENOENT
    else
      match nodes k.dropLast with
      | some (Node.dir _) => .ok (setNode nodes k (some (Node.file mode [])))
      | some (Node.file _ _) => .error Errno.ENOTDIR
      | none => .error Errno.ENOENT

/-- The function `os.RemoveAll`: the path and everything below it is removed; a path that
does not exist is not an error. -/
def FS.RemoveAll (path : List Nat) (fs : FS) : Option Errno × FS :=
  let k := resolve fs.cwd path
  (none, { fs with nodes := fun q => if k.isPrefixOf q then none else fs.nodes q })

/-- The function `os.MkdirAll`: the directory and all its missing parents are created with
the permission bits `perm` (before the mask); on a well-formed tree this is what the
recursion of the Go function does. -/
def FS.MkdirAll (path : List Nat) (perm : Nat) (fs : FS) : Option Errno × FS :=
  let r := ensureDirs (applyUmask perm fs.umask) fs.nodes (resolve fs.cwd path).inits
  (r.1, { fs with nodes := r.2 })

/-- The function `ioutil.WriteFile`: create or truncate the file, write the data. -/
def FS.WriteFile (path data : List Nat) (perm : Nat) (fs : FS) : Option Errno × FS :=
  match createTrunc fs.nodes (resolve fs.cwd path) (applyUmask perm fs.umask) with
  | .error e => (some e, fs)
  | .ok nodes =>
    match nodes (resolve fs.cwd path) with
    | some (Node.file m _) =>
      (none, { fs with nodes := setNode nodes (resolve fs.cwd path) (some (Node.file m data)) })
    | _ => (some Errno.EBADF, fs)

/-- Looking up the elements of a path from a position (a stack of names, deepest first),
as the system does for `open`: each element is looked up in a directory, so the position
must exist (`ENOENT` otherwise) and be a directory (`ENOTDIR` otherwise) before the element
is followed. -/
def lookup (nodes : FSKey → Option Node) :
    List (List Nat) → List (List Nat) → Except Errno (List (List Nat))
  | st, [] => .ok st
  | st, c :: cs =>
    match nodes st.reverse with
    | none => .error Errno.ENOENT
    | some (Node.file _ _) => .error Errno.ENOTDIR
    | some (Node.dir _) =>
      if c = [46] then lookup nodes st cs
      else if c = [46, 46] then lookup nodes st.tail cs
      else lookup nodes (c :: st) cs

/-- The function `os.Open`: open an existing file or directory for reading.  The empty
path names nothing; a path that ends in a separator names a directory only. -/
def FS.Open (path : List Nat) (fs : FS) : Except Errno Handle × FS :=
  if path = [] then (.error Errno.ENOENT, fs)
  else
    match lookup fs.nodes (if isRooted path then [] else fs.cwd.reverse) (comps path) with
    | .error e => (.error e, fs)
    | .ok st =>
      match fs.nodes st.reverse with
      | none => (.error Errno.ENOENT, fs)
      | some (Node.dir _) => (.ok ⟨st.reverse, true, false⟩, fs)
      | some (Node.file _ _) =>
        if path.getLast? = some 47 then (.error Errno.ENOTDIR, fs)
        else (.ok ⟨st.reverse, true, false⟩, fs)

/-- The function `os.OpenFile` for the flags `O_WRONLY`, `O_CREATE` and `O_TRUNC`. -/
def FS.OpenFile (path : List Nat) (flag : List OpenFlag) (perm : Nat) (fs : FS) :
    Except Errno Handle × FS :=
  let k := resolve fs.cwd path
  let wr := decide (OpenFlag.O_WRONLY ∈ flag)
  match fs.nodes k with
  | some (Node.dir _) =>
    if wr then (.error Errno.EISDIR, fs) else (.ok ⟨k, true, false⟩, fs)
  | some (Node.file m _) =>
    if wr ∧ OpenFlag.O_TRUNC ∈ flag then
      (.ok ⟨k, false, true⟩, { fs with nodes := setNode fs.nodes k (some (Node.file m [])) })
    else (.ok ⟨k, !wr, wr⟩, fs)
  | none =>
    if OpenFlag.O_CREATE ∈ flag then
      match createTrunc fs.nodes k (applyUmask perm fs.umask) with
      | .error e => (.error e, fs)
      | .ok nodes => (.ok ⟨k, !wr, wr⟩, { fs with nodes := nodes })
    else (.error Errno.ENOENT, fs)

/-- The function `io.Copy(dst, src)`: the content of the source file, read to its end, is
written at the start of the destination file. -/
def FS.Copy (dst src : Handle) (fs : FS) : Option Errno × FS :=
  if src.readable = false ∨ dst.writable = false then (some Errno.EBADF, fs)
  else
    match fs.nodes src.key with
    | some (Node.file _ data) =>
      match fs.nodes dst.key with
      | some (Node.file m old) =>
        let new := Node.file m (data ++ old.drop data.length)
        (none, { fs with nodes := setNode fs.nodes dst.key (some new) })
      | _ => (some Errno.EBADF, fs)
    | some (Node.dir _) => (some Errno.EISDIR, fs)
    | none => (some Errno.EBADF, fs)

/-- The method `Sync`: the model keeps no unwritten data. -/
def FS.Sync (_ : Handle) (fs : FS) : Option Errno × FS := (none, fs)

/-- The method `Close`. -/
def FS.Close (_ : Handle) (fs : FS) : Option Errno × FS := (none, fs)

/-- The file system as the operating system of the program. -/
def posix : OS FS Handle where
  RemoveAll := FS.RemoveAll
  MkdirAll := FS.MkdirAll
  WriteFile := FS.WriteFile
  Open := FS.Open
  OpenFile := FS.OpenFile
  Copy := FS.Copy
  Sync := FS.Sync
  Close := FS.Close

/-- A small file system: the root directory, the directory `/tmp` and the file `/tmp/bin`
with ten bytes; the working directory is `/tmp`, the mask `022`. -/
def fsDemo : FS where
  nodes := fun q =>
    if q = [] then some (Node.dir 0o755)
    else if q = [bytes "tmp"] then some (Node.dir 0o777)
    else if q = [bytes "tmp", bytes "bin"] then some (Node.file 0o755 [1, 2, 3, 4, 5, 6, 7, 8, 9, 10])
    else none
  cwd := [bytes "tmp"]
  umask := 0o022

/-! ## The paths and states of `run` on the file system -/

/-- The absolute path of the bundle directory. -/
def appKey (cwd : FSKey) (dir appName : List Nat) : FSKey :=
  resolve cwd (appPathOf dir appName)

/-- The absolute path of `Contents`. -/
def contentsKey (cwd : FSKey) (dir appName : List Nat) : FSKey :=
  appKey cwd dir appName ++ [contents]

/-- The absolute path of `Contents/MacOS`. -/
def macKey (cwd : FSKey) (dir appName : List Nat) : FSKey :=
  appKey cwd dir appName ++ [contents, macOS]

/-- The absolute path of `Contents/Resources`. -/
def resKey (cwd : FSKey) (dir appName : List Nat) : FSKey :=
  appKey cwd dir appName ++ [contents, resources]

/-- The absolute path of `Contents/Info.plist`. -/
def plistKey (cwd : FSKey) (dir appName : List Nat) : FSKey :=
  appKey cwd dir appName ++ [contents, bytes "Info.plist"]

/-- The absolute path of the installed executable, the path `run` passes to `os.OpenFile`. -/
def exeKey (cwd : FSKey) (dir appName : List Nat) : FSKey :=
  resolve cwd (Join [appPathOf dir appName, contents, macOS, appName])

/-- The first four steps of `run` on the file system: remove the bundle, create the two
directories, write `Info.plist`. -/
def prep (dir appName : List Nat) (fs : FS) : Option Errno × FS :=
  match FS.RemoveAll (appPathOf dir appName) fs with
  | (some err, s) => (some err, s)
  | (none, s) =>
  match FS.MkdirAll (Join [appPathOf dir appName, contents, macOS]) perm s with
  | (some err, s) => (some err, s)
  | (none, s) =>
  match FS.MkdirAll (Join [appPathOf dir appName, contents, resources]) perm s with
  | (some err, s) => (some err, s)
  | (none, s) =>
  match FS.WriteFile (Join [appPathOf dir appName, contents, bytes "Info.plist"])
      (genInfoPlist appName) 0o644 s with
  | (some err, s) => (some err, s)
  | (none, s) => (none, s)

/-- The last four steps of `run` on the file system: open the source, create the
destination, copy, sync (and close). -/
def install (dir appName bin : List Nat) (s : FS) : Option Errno × FS :=
  match FS.Open bin s with
  | (.error err, s) => (some err, s)
  | (.ok fin, s) =>
  match FS.OpenFile (Join [appPathOf dir appName, contents, macOS, appName])
      [OpenFlag.O_WRONLY, OpenFlag.O_CREATE, OpenFlag.O_TRUNC] perm s with
  | (.error err, s) => (some err, (FS.Close fin s).2)
  | (.ok out, s) =>
  match FS.Copy out fin s with
  | (some err, s) => (some err, (FS.Close fin (FS.Close out s).2).2)
  | (none, s) =>
  match FS.Sync out s with
  | (some err, s) => (some err, (FS.Close fin (FS.Close out s).2).2)
  | (none, s) => (none, (FS.Close fin (FS.Close out s).2).2)

/-- The nodes of a freshly prepared bundle: the four directories and `Info.plist`. -/
def skeleton (cwd : FSKey) (umask : Nat) (dir appName : List Nat) (q : FSKey) : Option Node :=
  if q = appKey cwd dir appName ∨ q = contentsKey cwd dir appName ∨ q = macKey cwd dir appName ∨
      q = resKey cwd dir appName then some (Node.dir (applyUmask 0o755 umask))
  else if q = plistKey cwd dir appName then
    some (Node.file (applyUmask 0o644 umask) (genInfoPlist appName))
  else none

/-- Whether a node is a regular file. -/
def isFile : Option Node → Bool
  | some (Node.file _ _) => true
  | _ => false

/-- The state with the node at `k` replaced. -/
def FS.put (s : FS) (k : FSKey) (v : Option Node) : FS :=
  { s with nodes := setNode s.nodes k v }

/-- The condition under which `os.OpenFile` can create or truncate the destination, with
the mode `mE` the destination then has. -/
def CanCreate (s : FS) (E : FSKey) (mE : Nat) : Prop :=
  (∃ d, s.nodes E = some (Node.file mE d)) ∨
    (s.nodes E = none ∧ E ≠ [] ∧ (∃ m, s.nodes E.dropLast = some (Node.dir m)) ∧
      mE = applyUmask 0o755 s.umask)

/-! ## Auxiliary definitions for the proofs -/

/-- The references `escapeText` writes. -/
def escRefs : List (List Nat) :=
  [escQuot, escApos, escAmp, escLT, escGT, escTab, escNL, escCR]

/-- Checker: no raw `<`, `>`, `"`, apostrophe, and every `&` starts one of `escRefs`. -/
def safeText : List Nat → Bool
  | [] => true
  | c :: t =>
    (c != 60 && c != 62 && c != 34 && c != 39) &&
    (c != 38 || escRefs.any (fun r => r.isPrefixOf (c :: t))) && safeText t

/-- One chunk written by the loop. -/
def chunkOf (s : List Nat) : List Nat :=
  match escOf (decodeRune s).1 (decodeRune s).2 with
  | some esc => esc
  | none => s.take (decodeRune s).2

/-- A stack of `Clean`: real elements on top of leading `..` elements. -/
def GoodStack (rooted : Bool) (reals dds : List (List Nat)) : Prop :=
  (∀ c ∈ reals, c ≠ [] ∧ (∀ x ∈ c, x ≠ 47) ∧ c ≠ [46, 46] ∧ c ≠ [46]) ∧
    (∀ c ∈ dds, c = [46, 46]) ∧
    (rooted = true → dds = [])

/-- The nodes after removing everything below `A`. -/
def nodes1 (A : FSKey) (n : FSKey → Option Node) : FSKey → Option Node :=
  fun q => if A.isPrefixOf q = true then none else n q

/-- The nodes after creating the missing directories among the prefixes of `K`. -/
def nodesMk (mode : Nat) (K : FSKey) (n : FSKey → Option Node) : FSKey → Option Node :=
  fun q => if q ∈ K.inits ∧ n q = none then some (Node.dir mode) else n q

/-! ## Properties of `decodeRune` -/

theorem first_some {p0 sz lo hi : Nat} (h : first p0 = some (sz, lo, hi)) :
    0xC2 ≤ p0 ∧ p0 ≤ 0xF4 ∧ 0x80 ≤ lo ∧ hi ≤ 0xBF ∧ 2 ≤ sz ∧ sz ≤ 4 := by
  unfold first at h
  split_ifs at h <;> simp at h <;> omega

/-- What `decodeRune` returns on a non-empty input: an ASCII byte, an encoding error of
width 1, or a multi-byte sequence all of whose bytes are at least `0x80`. -/
theorem decodeRune_cases (c : Nat) (t : List Nat) :
    ((decodeRune (c :: t)) = (c, 1) ∧ c < 0x80) ∨
    ((decodeRune (c :: t)) = (RuneError, 1) ∧ 0x80 ≤ c) ∨
    (2 ≤ (decodeRune (c :: t)).2 ∧ (decodeRune (c :: t)).2 ≤ (c :: t).length ∧
      ∀ b ∈ (c :: t).take (decodeRune (c :: t)).2, 0x80 ≤ b) := by
  unfold decodeRune
  simp only []
  repeat' split
  all_goals first
    | (left; refine ⟨rfl, ?_⟩; assumption)
    | (right; left; refine ⟨rfl, ?_⟩; omega)
    | (have hfs := @first_some c _ _ _ (by assumption); right; right
       simp only [List.take, List.length_cons, List.mem_cons, List.not_mem_nil, or_false,
         forall_eq_or_imp, forall_eq]
       omega)

theorem decodeRune_width (c : Nat) (t : List Nat) :
    1 ≤ (decodeRune (c :: t)).2 ∧ (decodeRune (c :: t)).2 ≤ (c :: t).length := by
  rcases decodeRune_cases c t with h | h | h
  · rw [h.1]; simp
  · rw [h.1]; simp
  · omega

/-! ## The escaper writes no markup -/

theorem escRefs_eq : escRefs =
    [[38, 35, 51, 52, 59], [38, 35, 51, 57, 59], [38, 97, 109, 112, 59], [38, 108, 116, 59],
     [38, 103, 116, 59], [38, 35, 120, 57, 59], [38, 35, 120, 65, 59], [38, 35, 120, 68, 59]] := by
  decide

theorem safeText_raw (l rest : List Nat)
    (hl : ∀ b ∈ l, b ≠ 60 ∧ b ≠ 62 ∧ b ≠ 34 ∧ b ≠ 39 ∧ b ≠ 38)
    (hr : safeText rest = true) : safeText (l ++ rest) = true := by
  induction l with
  | nil => simpa using hr
  | cons b l ih =>
    have hb := hl b (by simp)
    have := ih (fun x hx => hl x (by simp [hx]))
    simp [safeText, hb, this]

theorem safeText_ref (e rest : List Nat) (he : e ∈ escRefs)
    (hr : safeText rest = true) : safeText (e ++ rest) = true := by
  rw [escRefs_eq] at he
  simp only [List.mem_cons, List.not_mem_nil, or_false] at he
  rcases he with h | h | h | h | h | h | h | h <;> subst h <;>
    simp [safeText, escRefs_eq, hr]

theorem escOf_some {r w : Nat} {e : List Nat} (h : escOf r w = some e) :
    e ∈ escRefs ∨ e = escFFFD := by
  unfold escOf at h
  split_ifs at h <;> simp at h <;> subst h <;> simp [escRefs]

theorem escOf_none {r w : Nat} (h : escOf r w = none) :
    r ≠ 34 ∧ r ≠ 39 ∧ r ≠ 38 ∧ r ≠ 60 ∧ r ≠ 62 ∧ r ≠ 9 ∧ r ≠ 10 ∧ r ≠ 13 ∧
      isInCharacterRange r = true ∧ ¬ (r = 0xFFFD ∧ w = 1) := by
  unfold escOf at h
  split_ifs at h with h1 h2 h3 h4 h5 h6 h7 h8 h9
  simp only [Bool.or_eq_true, Bool.not_eq_true', Bool.and_eq_true, beq_iff_eq, not_or,
    Bool.not_eq_false, not_and] at h9
  refine ⟨h1, h2, h3, h4, h5, h6, h7, h8, h9.1, fun hh => h9.2 hh.1 hh.2⟩

theorem escapeTextLoop_succ (fuel c : Nat) (t : List Nat) :
    escapeTextLoop (fuel + 1) (c :: t) =
      chunkOf (c :: t) ++ escapeTextLoop fuel ((c :: t).drop (decodeRune (c :: t)).2) := rfl

theorem safeText_chunk (c : Nat) (t rest : List Nat) (hr : safeText rest = true) :
    safeText (chunkOf (c :: t) ++ rest) = true := by
  unfold chunkOf
  split
  · rename_i esc he
    rcases escOf_some he with h | h
    · exact safeText_ref _ _ h hr
    · subst h
      exact safeText_raw _ _ (by simp [escFFFD]) hr
  · rename_i he
    have hn := escOf_none he
    apply safeText_raw _ _ _ hr
    rcases decodeRune_cases c t with h | h | h
    · rw [h.1] at hn ⊢
      intro b hb
      simp at hb
      subst hb
      simp only [ne_eq] at hn
      omega
    · rw [h.1] at hn
      simp [RuneError] at hn
    · intro b hb
      have := h.2.2 b hb
      omega

theorem safeText_escapeTextLoop (fuel : Nat) (s : List Nat) :
    safeText (escapeTextLoop fuel s) = true := by
  induction fuel generalizing s with
  | zero => simp [escapeTextLoop, safeText]
  | succ n ih =>
    cases s with
    | nil => simp [escapeTextLoop, safeText]
    | cons c t =>
      rw [escapeTextLoop_succ]
      exact safeText_chunk _ _ _ (ih _)

theorem safeText_spec (l : List Nat) (h : safeText l = true) :
    (∀ b ∈ l, b ≠ 60 ∧ b ≠ 62 ∧ b ≠ 34 ∧ b ≠ 39) ∧
    (∀ pre post, l = pre ++ 38 :: post → ∃ r ∈ escRefs, r <+: 38 :: post) := by
  induction l with
  | nil =>
    refine ⟨by simp, ?_⟩
    intro pre post hp
    simp at hp
  | cons c t ih =>
    simp only [safeText, Bool.and_eq_true, bne_iff_ne, ne_eq, Bool.or_eq_true, List.any_eq_true,
      List.isPrefixOf_iff_prefix] at h
    obtain ⟨⟨hc, hamp⟩, ht⟩ := h
    have iht := ih ht
    refine ⟨?_, ?_⟩
    · intro b hb
      rcases List.mem_cons.1 hb with hb | hb
      · subst hb; exact ⟨hc.1.1.1, hc.1.1.2, hc.1.2, hc.2⟩
      · exact iht.1 b hb
    · intro pre post hp
      cases pre with
      | nil =>
        simp only [List.nil_append, List.cons.injEq] at hp
        obtain ⟨h1, h2⟩ := hp
        subst h1 h2
        rcases hamp with hamp | hamp
        · exact absurd rfl hamp
        · exact hamp
      | cons p pre =>
        simp only [List.cons_append, List.cons.injEq] at hp
        exact iht.2 pre post hp.2

/-! ## Encoding then decoding a legal character -/

theorem decodeRune_encodeRune (c : Nat) (rest : List Nat) (hc : isInCharacterRange c = true) :
    decodeRune (encodeRune c ++ rest) = (c, (encodeRune c).length) := by
  simp only [isInCharacterRange, Bool.or_eq_true, beq_iff_eq, Bool.and_eq_true,
    decide_eq_true_eq] at hc
  unfold encodeRune
  split_ifs with h1 h2 h3
  · simp [decodeRune, h1]
  · have e1 : first (0xC0 + c / 64) = some (2, 0x80, 0xBF) := by
      unfold first
      rw [if_pos (by omega)]
    have n1 : ¬ (0xC0 + c / 64 < 0x80) := by omega
    simp only [decodeRune, List.cons_append, List.nil_append, n1, if_false, e1]
    simp
    rw [if_neg (by omega), if_neg (by omega)]
    simp only [Prod.mk.injEq, and_true]
    omega
  · have n1 : ¬ (0xE0 + c / 4096 < 0x80) := by omega
    have e1 : ∃ lo hi, first (0xE0 + c / 4096) = some (3, lo, hi) ∧ lo ≤ 0x80 + c / 64 % 64 ∧
        0x80 + c / 64 % 64 ≤ hi := by
      unfold first
      by_cases k0 : c / 4096 = 0
      · refine ⟨0xA0, 0xBF, ?_, ?_, ?_⟩
        · rw [if_neg (by omega), if_pos (by omega)]
        · omega
        · omega
      · by_cases k1 : c / 4096 = 13
        · refine ⟨0x80, 0x9F, ?_, ?_, ?_⟩
          · rw [if_neg (by omega), if_neg (by omega), if_neg (by omega), if_pos (by omega)]
          · omega
          · omega
        · by_cases k2 : c / 4096 ≤ 12
          · refine ⟨0x80, 0xBF, ?_, ?_, ?_⟩
            · rw [if_neg (by omega), if_neg (by omega), if_pos (by omega)]
            · omega
            · omega
          · refine ⟨0x80, 0xBF, ?_, ?_, ?_⟩
            · rw [if_neg (by omega), if_neg (by omega), if_neg (by omega), if_neg (by omega),
                if_pos (by omega)]
            · omega
            · omega
    obtain ⟨lo, hi, e1, e2, e3⟩ := e1
    simp only [decodeRune, List.cons_append, List.nil_append, n1, if_false, e1]
    simp
    rw [if_neg (by omega), if_neg (by omega), if_neg (by omega)]
    simp only [Prod.mk.injEq, and_true]
    omega
  · have n1 : ¬ (0xF0 + c / 262144 < 0x80) := by omega
    have e1 : ∃ lo hi, first (0xF0 + c / 262144) = some (4, lo, hi) ∧
        lo ≤ 0x80 + c / 4096 % 64 ∧ 0x80 + c / 4096 % 64 ≤ hi := by
      unfold first
      by_cases k0 : c / 262144 = 0
      · refine ⟨0x90, 0xBF, ?_, ?_, ?_⟩
        · rw [if_neg (by omega), if_neg (by omega), if_neg (by omega), if_neg (by omega),
            if_neg (by omega), if_pos (by omega)]
        · omega
        · omega
      · by_cases k1 : c / 262144 = 4
        · refine ⟨0x80, 0x8F, ?_, ?_, ?_⟩
          · rw [if_neg (by omega), if_neg (by omega), if_neg (by omega), if_neg (by omega),
              if_neg (by omega), if_neg (by omega), if_neg (by omega), if_pos (by omega)]
          · omega
          · omega
        · refine ⟨0x80, 0xBF, ?_, ?_, ?_⟩
          · rw [if_neg (by omega), if_neg (by omega), if_neg (by omega), if_neg (by omega),
              if_neg (by omega), if_neg (by omega), if_pos (by omega)]
          · omega
          · omega
    obtain ⟨lo, hi, e1, e2, e3⟩ := e1
    simp only [decodeRune, List.cons_append, List.nil_append, n1, if_false, e1]
    simp
    rw [if_neg (by omega), if_neg (by omega), if_neg (by omega), if_neg (by omega)]
    simp only [Prod.mk.injEq, and_true]
    omega

/-! ## The round trip through the escaper and an XML reader -/

theorem escapeTextLoop_ne (fuel : Nat) (s : List Nat) (hs : s ≠ []) :
    escapeTextLoop (fuel + 1) s =
      chunkOf s ++ escapeTextLoop fuel (s.drop (decodeRune s).2) := by
  cases s with
  | nil => exact absurd rfl hs
  | cons c t => rfl

theorem encodeRune_ne (c : Nat) : encodeRune c ≠ [] := by
  unfold encodeRune
  split_ifs <;> simp

theorem unescapeGo_raw (l out : List Nat) (hl : ∀ b ∈ l, b ≠ 38 ∧ b ≠ 60 ∧ b ≠ 13) :
    unescapeGo none (l ++ out) = (unescapeGo none out).map (l ++ ·) := by
  induction l with
  | nil => simp
  | cons b l ih =>
    have hb := hl b (by simp)
    have := ih (fun x hx => hl x (by simp [hx]))
    rw [List.cons_append, unescapeGo]
    · simp [hb, this, Option.map_map, Function.comp_def]
    · intro t h
      exact absurd h hb.2.2

theorem unescapeGo_ref (c : Nat) (e out : List Nat) (he : escOf c (encodeRune c).length = some e)
    (hc : isInCharacterRange c = true) :
    unescapeGo none (e ++ out) = (unescapeGo none out).map (encodeRune c ++ ·) := by
  unfold escOf at he
  split_ifs at he with h1 h2 h3 h4 h5 h6 h7 h8 h9
  all_goals try (simp only [Option.some.injEq] at he; subst he)
  · subst h1
    simp [escQuot, bytes, unescapeGo, decodeRef, parseNum, decVal, isInCharacterRange,
      encodeRune]
  · subst h2
    simp [escApos, bytes, unescapeGo, decodeRef, parseNum, decVal, isInCharacterRange,
      encodeRune]
  · subst h3
    simp [escAmp, bytes, unescapeGo, decodeRef, encodeRune]
  · subst h4
    simp [escLT, bytes, unescapeGo, decodeRef, encodeRune]
  · subst h5
    simp [escGT, bytes, unescapeGo, decodeRef, encodeRune]
  · subst h6
    simp [escTab, bytes, unescapeGo, decodeRef, parseNum, hexVal, isInCharacterRange,
      encodeRune]
  · subst h7
    simp [escNL, bytes, unescapeGo, decodeRef, parseNum, hexVal, isInCharacterRange,
      encodeRune]
  · subst h8
    simp [escCR, bytes, unescapeGo, decodeRef, parseNum, hexVal, isInCharacterRange,
      encodeRune]
  · exfalso
    simp only [hc, Bool.not_true, Bool.false_or, Bool.and_eq_true, beq_iff_eq] at h9
    obtain ⟨h9a, h9b⟩ := h9
    subst h9a
    simp [encodeRune] at h9b

theorem unescapeGo_chunk (c : Nat) (rest out : List Nat) (hc : isInCharacterRange c = true) :
    unescapeGo none (chunkOf (encodeRune c ++ rest) ++ out) =
      (unescapeGo none out).map (encodeRune c ++ ·) := by
  unfold chunkOf
  rw [decodeRune_encodeRune c rest hc]
  simp only []
  split
  · rename_i esc he
    exact unescapeGo_ref c esc out he hc
  · rename_i he
    have hn := escOf_none he
    rw [List.take_left]
    apply unescapeGo_raw
    intro b hb
    unfold encodeRune at hb
    split_ifs at hb with k1 k2 k3
    · simp only [List.mem_singleton] at hb
      subst hb
      exact ⟨hn.2.2.1, hn.2.2.2.1, hn.2.2.2.2.2.2.2.1⟩
    all_goals
      simp only [List.mem_cons, List.mem_singleton, List.not_mem_nil, or_false] at hb
      omega

/-- Escaping a sequence of legal XML characters and unescaping it gives the input back. -/
theorem unescapeGo_escapeTextLoop (cs : List Nat) (hcs : ∀ c ∈ cs, isInCharacterRange c = true)
    (fuel : Nat) (hf : (utf8 cs).length ≤ fuel) :
    unescapeGo none (escapeTextLoop fuel (utf8 cs)) = some (utf8 cs) := by
  induction cs generalizing fuel with
  | nil =>
    cases fuel <;> simp [utf8, escapeTextLoop, unescapeGo]
  | cons c cs ih =>
    have hc := hcs c (by simp)
    have hne := encodeRune_ne c
    have hlen : 0 < (encodeRune c).length := List.length_pos.2 hne
    simp only [utf8, List.length_append] at hf ⊢
    obtain ⟨n, rfl⟩ : ∃ n, fuel = n + 1 := ⟨fuel - 1, by omega⟩
    rw [escapeTextLoop_ne _ _ (by simp [hne]), decodeRune_encodeRune c _ hc]
    simp only []
    rw [List.drop_left, unescapeGo_chunk c _ _ hc, ih (fun x hx => hcs x (by simp [hx])) n (by omega)]
    simp

/-! ## The generated document -/

set_option maxRecDepth 4000 in
theorem infoPlist_eq_segs :
    infoPlist = seg0 ++ (placeholder ++ (seg1 ++ (placeholder ++ (seg2 ++ (placeholder ++ seg3))))) := by
  decide!

theorem placeholder_eq : placeholder = 123 :: [123, 46, 65, 112, 112, 78, 97, 109, 101, 125, 125] := by
  decide

set_option maxRecDepth 4000 in
theorem segs_no_brace : (∀ b ∈ seg0, b ≠ 123) ∧ (∀ b ∈ seg1, b ≠ 123) ∧ (∀ b ∈ seg2, b ≠ 123) ∧
    (∀ b ∈ seg3, b ≠ 123) := by
  decide!

theorem replaceGo_skip (old new l rest : List Nat) :
    replaceGo old new l.length (l ++ rest) = replaceGo old new 0 rest := by
  induction l with
  | nil => simp
  | cons b l ih => simpa [replaceGo] using ih

theorem replaceGo_nomatch (o : Nat) (old new seg rest : List Nat) (h : ∀ b ∈ seg, b ≠ o) :
    replaceGo (o :: old) new 0 (seg ++ rest) = seg ++ replaceGo (o :: old) new 0 rest := by
  induction seg with
  | nil => simp
  | cons b seg ih =>
    have hb : b ≠ o := h b (by simp)
    have hb2 : o ≠ b := fun e => hb e.symm
    have := ih (fun x hx => h x (by simp [hx]))
    simp [replaceGo, List.isPrefixOf, hb2, this]

theorem replaceGo_match (o : Nat) (old new rest : List Nat) :
    replaceGo (o :: old) new 0 ((o :: old) ++ rest) = new ++ replaceGo (o :: old) new 0 rest := by
  have hp : (o :: old).isPrefixOf (o :: (old ++ rest)) = true := by
    rw [List.isPrefixOf_iff_prefix]
    exact ⟨rest, rfl⟩
  rw [List.cons_append, replaceGo, if_pos hp]
  simp only [List.length_cons, Nat.add_sub_cancel]
  rw [replaceGo_skip]

/-- The document written by `run`: the template with each of its three placeholders
replaced by the escaped application name. -/
theorem genInfoPlist_eq (appName : List Nat) :
    genInfoPlist appName =
      seg0 ++ (escapeXML appName ++ (seg1 ++ (escapeXML appName ++ (seg2 ++
        (escapeXML appName ++ seg3))))) := by
  unfold genInfoPlist Replace
  rw [if_neg (by decide), infoPlist_eq_segs, placeholder_eq]
  rw [replaceGo_nomatch _ _ _ _ _ segs_no_brace.1, replaceGo_match,
    replaceGo_nomatch _ _ _ _ _ segs_no_brace.2.1, replaceGo_match,
    replaceGo_nomatch _ _ _ _ _ segs_no_brace.2.2.1, replaceGo_match]
  have := replaceGo_nomatch 123 [123, 46, 65, 112, 112, 78, 97, 109, 101, 125, 125]
    (escapeXML appName) seg3 [] segs_no_brace.2.2.2
  simp only [List.append_nil] at this
  rw [this]
  simp [replaceGo]

/-! ## The items of the generated document -/

theorem scanGo_append (a rest : List Nat) (b : Bool) (cur : List Nat) (done : List (List Nat)) :
    scanGo b cur done (a ++ rest) =
      scanGo (scanEnd b cur done a).1 (scanEnd b cur done a).2.1 (scanEnd b cur done a).2.2 rest := by
  induction a generalizing b cur done with
  | nil => cases b <;> simp [scanEnd]
  | cons c a ih =>
    cases b
    · by_cases h : c = 60 <;> simp [scanGo, scanEnd, h, ih]
    · by_cases h : c = 62 <;> simp [scanGo, scanEnd, h, ih]

theorem scanGo_base (l : List Nat) (b : Bool) (cur : List Nat) (done base : List (List Nat)) :
    scanGo b cur (done ++ base) l = base.reverse ++ scanGo b cur done l := by
  induction l generalizing b cur done with
  | nil => cases b <;> simp [scanGo]
  | cons c l ih =>
    cases b
    · by_cases h : c = 60
      · simp only [scanGo, h, if_true]
        rw [← List.cons_append, ih]
      · simp only [scanGo, h, if_false]
        rw [ih]
    · by_cases h : c = 62
      · simp only [scanGo, h, if_true]
        rw [← List.cons_append, ih]
      · simp only [scanGo, h, if_false]
        rw [ih]

theorem scanGo_text (e rest : List Nat) (cur : List Nat) (done : List (List Nat))
    (he : ∀ b ∈ e, b ≠ 60) :
    scanGo false cur done (e ++ rest) = scanGo false (e.reverse ++ cur) done rest := by
  induction e generalizing cur with
  | nil => simp
  | cons c e ih =>
    have hc : c ≠ 60 := he c (by simp)
    have := ih (c :: cur) (fun x hx => he x (by simp [hx]))
    simp only [List.cons_append, scanGo, hc, if_false]
    simpa using this

/-- Scanning character data `e` followed by a piece that starts with `<`. -/
theorem scanGo_text_lt (e piece : List Nat) (done : List (List Nat)) (he : ∀ b ∈ e, b ≠ 60) :
    scanGo false [] done (e ++ 60 :: piece) = done.reverse ++ e :: scanGo true [] [] piece := by
  rw [scanGo_text _ _ _ _ he]
  simp only [List.append_nil, scanGo, if_true, List.reverse_reverse]
  have := scanGo_base piece true [] [] (e :: done)
  simp only [List.nil_append] at this
  rw [this]
  simp

set_option maxRecDepth 4000 in
theorem segs_scan :
    ((scanEnd false [] [] seg0).1 = false ∧ (scanEnd false [] [] seg0).2.1 = []) ∧
    (seg1 = 60 :: seg1.tail ∧ (scanEnd true [] [] seg1.tail).1 = false ∧
      (scanEnd true [] [] seg1.tail).2.1 = []) ∧
    (seg2 = 60 :: seg2.tail ∧ (scanEnd true [] [] seg2.tail).1 = false ∧
      (scanEnd true [] [] seg2.tail).2.1 = []) ∧
    seg3 = 60 :: seg3.tail := by
  decide!

/-- The items of the template with character data `e` in place of the placeholders. -/
theorem tokens_segs (e : List Nat) (he : ∀ b ∈ e, b ≠ 60) :
    tokens (seg0 ++ (e ++ (seg1 ++ (e ++ (seg2 ++ (e ++ seg3)))))) = itemsWith e := by
  obtain ⟨⟨a1, a2⟩, ⟨b0, b1, b2⟩, ⟨c0, c1, c2⟩, d0⟩ := segs_scan
  unfold tokens itemsWith items0 items1 items2 items3
  rw [scanGo_append, a1, a2]
  have h1 : seg1 ++ (e ++ (seg2 ++ (e ++ seg3))) =
      60 :: (seg1.tail ++ (e ++ (seg2 ++ (e ++ seg3)))) := by
    conv_lhs => rw [b0]
    rfl
  have h2 : seg2 ++ (e ++ seg3) = 60 :: (seg2.tail ++ (e ++ seg3)) := by
    conv_lhs => rw [c0]
    rfl
  rw [h1, scanGo_text_lt _ _ _ he, scanGo_append, b1, b2, h2, scanGo_text_lt _ _ _ he,
    scanGo_append, c1, c2]
  have h3 : e ++ seg3 = e ++ 60 :: seg3.tail := by
    conv_lhs => rw [d0]
  rw [h3, scanGo_text_lt _ _ _ he]

theorem escapeXML_safe (s : List Nat) : safeText (escapeXML s) = true :=
  safeText_escapeTextLoop _ _

theorem escapeXML_no_lt (s : List Nat) : ∀ b ∈ escapeXML s, b ≠ 60 :=
  fun b hb => ((safeText_spec _ (escapeXML_safe s)).1 b hb).1

theorem tokens_genInfoPlist (appName : List Nat) :
    tokens (genInfoPlist appName) = itemsWith (escapeXML appName) := by
  rw [genInfoPlist_eq, tokens_segs _ (escapeXML_no_lt appName)]

set_option maxRecDepth 4000 in
theorem tokens_infoPlist : tokens infoPlist = itemsWith placeholder := by
  rw [infoPlist_eq_segs, tokens_segs _ (by decide)]

set_option maxRecDepth 4000 in
theorem items_ne_placeholder : (∀ it ∈ items0, it ≠ placeholder) ∧
    (∀ it ∈ items1, it ≠ placeholder) ∧ (∀ it ∈ items2, it ≠ placeholder) ∧
    (∀ it ∈ items3, it ≠ placeholder) := by
  decide!

theorem map_subst_id (e : List Nat) (l : List (List Nat)) (h : ∀ it ∈ l, it ≠ placeholder) :
    l.map (fun it => if it = placeholder then e else it) = l := by
  induction l with
  | nil => rfl
  | cons a l ih =>
    have ha := h a (by simp)
    simp only [List.map_cons, ha, if_false]
    rw [ih (fun x hx => h x (by simp [hx]))]

theorem itemsWith_map (e : List Nat) :
    (itemsWith placeholder).map (fun it => if it = placeholder then e else it) = itemsWith e := by
  obtain ⟨h0, h1, h2, h3⟩ := items_ne_placeholder
  unfold itemsWith
  simp only [List.map_append, List.map_cons, if_true, map_subst_id e _ h0, map_subst_id e _ h1,
    map_subst_id e _ h2, map_subst_id e _ h3]

set_option maxRecDepth 4000 in
theorem tagsOf_itemsWith (e : List Nat) : tagsOf (itemsWith e) = tagsOf (itemsWith placeholder) :=
  rfl

set_option maxRecDepth 4000 in
theorem keysOf_itemsWith (e : List Nat) :
    keysOf (itemsWith e).tail = keysOf (itemsWith placeholder).tail := rfl

set_option maxRecDepth 4000 in
theorem plistValueGo_itemsWith (e : List Nat) :
    plistValueGo (bytes "CFBundleGetInfoString") (itemsWith e).tail = some (bytes "string", e) ∧
    plistValueGo (bytes "CFBundleExecutable") (itemsWith e).tail = some (bytes "string", e) ∧
    plistValueGo (bytes "CFBundleName") (itemsWith e).tail = some (bytes "string", e) ∧
    plistValueGo (bytes "CFBundleIdentifier") (itemsWith e).tail =
      some (bytes "string", bytes "com.example.www") ∧
    plistValueGo (bytes "CFBundleIconFile") (itemsWith e).tail =
      some (bytes "string", bytes "icon.icns") ∧
    plistValueGo (bytes "CFBundleShortVersionString") (itemsWith e).tail =
      some (bytes "string", bytes "0.01") ∧
    plistValueGo (bytes "CFBundleInfoDictionaryVersion") (itemsWith e).tail =
      some (bytes "string", bytes "6.0") ∧
    plistValueGo (bytes "CFBundlePackageType") (itemsWith e).tail =
      some (bytes "string", bytes "APPL") ∧
    plistValueGo (bytes "IFMajorVersion") (itemsWith e).tail = some (bytes "integer", bytes "0") ∧
    plistValueGo (bytes "IFMinorVersion") (itemsWith e).tail = some (bytes "integer", bytes "1") ∧
    (plistValueGo (bytes "NSHighResolutionCapable") (itemsWith e).tail).map Prod.fst =
      some (bytes "true /") :=
  ⟨rfl, rfl, rfl, rfl, rfl, rfl, rfl, rfl, rfl, rfl, rfl⟩

set_option maxRecDepth 4000 in
theorem keysOf_infoPlist : keysOf (tokens infoPlist).tail =
    [bytes "CFBundleGetInfoString", bytes "CFBundleExecutable", bytes "CFBundleIdentifier",
     bytes "CFBundleName", bytes "CFBundleIconFile", bytes "CFBundleShortVersionString",
     bytes "CFBundleInfoDictionaryVersion", bytes "CFBundlePackageType", bytes "IFMajorVersion",
     bytes "IFMinorVersion", bytes "NSHighResolutionCapable"] := by
  decide!

/-! ## The order of the calls of `run` -/

/-- The possible runs: for each step that can fail, the result and the log. -/
theorem run_traced_cases {σ H : Type} (os : OS σ H) (dir appName bin : List Nat) (s : σ) :
    (run (traced os) dir appName bin (s, [])).1 = (run os dir appName bin s).1 ∧
    (run (traced os) dir appName bin (s, [])).2.1 = (run os dir appName bin s).2 ∧
    1 ≤ (stepEvents (runLog os dir appName bin s)).length ∧
    (stepEvents (runLog os dir appName bin s)).length ≤ 8 ∧
    ((run os dir appName bin s).1 = none →
      (stepEvents (runLog os dir appName bin s)).length = 8) ∧
    (stepEvents (runLog os dir appName bin s)).map (fun e => e.call.kind) =
      (plan dir appName bin).take (stepEvents (runLog os dir appName bin s)).length ∧
    (∀ e ∈ (stepEvents (runLog os dir appName bin s)).dropLast, e.err = none) ∧
    (stepEvents (runLog os dir appName bin s)).getLast?.map (fun e => e.err) =
      some (run os dir appName bin s).1 := by
  unfold runLog
  simp only [run, traced, plan, appPathOf, genInfoPlist, perm]
  rcases h1 : os.RemoveAll (Join [dir, appName ++ ext]) s with ⟨_ | e1, s1⟩
  swap
  · simp [stepEvents, Call.kind]
  simp only []
  rcases h2 : os.MkdirAll (Join [Join [dir, appName ++ ext], contents, macOS]) 493 s1
    with ⟨_ | e2, s2⟩
  swap
  · simp [stepEvents, Call.kind]
  simp only []
  rcases h3 : os.MkdirAll (Join [Join [dir, appName ++ ext], contents, resources]) 493 s2
    with ⟨_ | e3, s3⟩
  swap
  · simp [stepEvents, Call.kind]
  simp only []
  rcases h4 : os.WriteFile (Join [Join [dir, appName ++ ext], contents, bytes "Info.plist"])
    (Replace infoPlist placeholder (escapeXML appName)) 420 s3 with ⟨_ | e4, s4⟩
  swap
  · simp [stepEvents, Call.kind]
  simp only []
  rcases h5 : os.Open bin s4 with ⟨e5 | fin, s5⟩
  · simp [stepEvents, Call.kind, errOf]
  simp only []
  rcases h6 : os.OpenFile (Join [Join [dir, appName ++ ext], contents, macOS, appName])
    [OpenFlag.O_WRONLY, OpenFlag.O_CREATE, OpenFlag.O_TRUNC] 493 s5 with ⟨e6 | out, s6⟩
  · simp [stepEvents, Call.kind, errOf]
  simp only []
  rcases h7 : os.Copy out fin s6 with ⟨_ | e7, s7⟩
  swap
  · simp [stepEvents, Call.kind, errOf]
  simp only []
  rcases h8 : os.Sync out s7 with ⟨_ | e8, s8⟩
  · simp [stepEvents, Call.kind, errOf]
  · simp [stepEvents, Call.kind, errOf]

/-! ## Elements of a path -/

theorem compsGo_append_elem (e rest cur : List Nat) (he : ∀ x ∈ e, x ≠ 47) :
    compsGo cur (e ++ rest) = compsGo (e.reverse ++ cur) rest := by
  induction e generalizing cur with
  | nil => simp
  | cons c e ih =>
    have hc : c ≠ 47 := he c (by simp)
    have := ih (c :: cur) (fun x hx => he x (by simp [hx]))
    simp only [List.cons_append, compsGo, hc, if_false]
    simpa using this

theorem comps_sep (t : List Nat) : comps (47 :: t) = comps t := by
  simp [comps, compsGo]

/-- An element followed by the end of the path or by a separator is the first element. -/
theorem comps_elem (e rest : List Nat) (hne : e ≠ []) (he : ∀ x ∈ e, x ≠ 47)
    (hrest : rest = [] ∨ rest.head? = some 47) : comps (e ++ rest) = e :: comps rest := by
  unfold comps
  rw [compsGo_append_elem _ _ _ he]
  have hr : e.reverse ++ [] ≠ [] := by simpa using hne
  rcases hrest with h | h
  · subst h
    simp [compsGo, hne]
  · cases rest with
    | nil => simp at h
    | cons c r =>
      simp only [List.head?_cons, Option.some.injEq] at h
      subst h
      simp [compsGo, hne]

theorem comps_nil : comps [] = [] := by simp [comps, compsGo]

/-- The elements of a path are non-empty and contain no separator. -/
theorem compsGo_elems (path cur : List Nat) (hcur : ∀ x ∈ cur, x ≠ 47) :
    ∀ c ∈ compsGo cur path, c ≠ [] ∧ ∀ x ∈ c, x ≠ 47 := by
  induction path generalizing cur with
  | nil =>
    intro c hc
    by_cases h : cur = []
    · simp [compsGo, h] at hc
    · simp only [compsGo, h, if_false, List.mem_singleton] at hc
      subst hc
      exact ⟨by simpa using h, fun x hx => hcur x (by simpa using hx)⟩
  | cons a path ih =>
    intro c hc
    by_cases ha : a = 47
    · by_cases h : cur = []
      · simp only [compsGo, ha, h, if_true] at hc
        exact ih [] (by simp) c hc
      · simp only [compsGo, ha, h, if_true, if_false, List.mem_cons] at hc
        rcases hc with hc | hc
        · subst hc
          exact ⟨by simpa using h, fun x hx => hcur x (by simpa using hx)⟩
        · exact ih [] (by simp) c hc
    · simp only [compsGo, ha, if_false] at hc
      refine ih (a :: cur) ?_ c hc
      intro x hx
      rcases List.mem_cons.1 hx with h | h
      · subst h; exact ha
      · exact hcur x h

theorem comps_elems (path : List Nat) : ∀ c ∈ comps path, c ≠ [] ∧ ∀ x ∈ c, x ≠ 47 :=
  compsGo_elems path [] (by simp)

theorem compsGo_append_sep (a b cur : List Nat) :
    compsGo cur (a ++ 47 :: b) = compsGo cur a ++ comps b := by
  induction a generalizing cur with
  | nil =>
    by_cases h : cur = [] <;> simp [compsGo, comps, h]
  | cons c a ih =>
    by_cases hc : c = 47
    · by_cases h : cur = [] <;> simp [compsGo, hc, h, ih]
    · simp [compsGo, hc, ih]

/-- The elements of two paths joined by a separator. -/
theorem comps_append_sep (a b : List Nat) : comps (a ++ 47 :: b) = comps a ++ comps b :=
  compsGo_append_sep a b []

/-! ## `Clean` computes the normal form -/

theorem renderR_cons_length (rooted : Bool) (c : List Nat) (st : List (List Nat)) :
    c.length + (renderR rooted st).length ≤ (renderR rooted (c :: st)).length := by
  cases st with
  | nil => simp [renderR]
  | cons d st => simp [renderR]

theorem renderR_true_pos (st : List (List Nat)) : 1 ≤ (renderR true st).length := by
  cases st with
  | nil => simp [renderR]
  | cons d st =>
    simp only [renderR, if_true, List.length_append, List.length_reverse]
    split_ifs
    · simp
    · simp only [List.length_cons]; omega

theorem renderR_append_length (rooted : Bool) (reals dds : List (List Nat)) :
    (renderR rooted dds).length ≤ (renderR rooted (reals ++ dds)).length := by
  induction reals with
  | nil => simp
  | cons r reals ih =>
    have := renderR_cons_length rooted r (reals ++ dds)
    simp only [List.cons_append]
    omega

theorem renderR_eq_nil (st : List (List Nat)) (h : ∀ c ∈ st, c ≠ []) :
    renderR false st = [] ↔ st = [] := by
  cases st with
  | nil => simp [renderR]
  | cons c st =>
    have hc := h c (by simp)
    simp [renderR, hc]

theorem renderR_true_length (st : List (List Nat)) (h : ∀ c ∈ st, c ≠ []) :
    (renderR true st).length = 1 ↔ st = [] := by
  cases st with
  | nil => simp [renderR]
  | cons c st =>
    have hc := h c (by simp)
    have hl : 0 < c.length := List.length_pos.2 hc
    have := renderR_cons_length true c st
    have h1 := renderR_true_pos st
    constructor
    · intro h2
      omega
    · intro h2
      exact absurd h2 (by simp)

theorem backtrackGo_pop (dotdot : Nat) (T F : List Nat) (hT : dotdot ≤ T.length)
    (hfin : ∀ x, x ≠ 47 → backtrackGo dotdot x T = F) :
    ∀ (xs : List Nat) (x : Nat), x ≠ 47 → (∀ y ∈ xs, y ≠ 47) →
      backtrackGo dotdot x (xs ++ T) = F := by
  intro xs
  induction xs with
  | nil => intro x hx _; simpa using hfin x hx
  | cons y ys ih =>
    intro x hx hys
    have hy : y ≠ 47 := hys y (by simp)
    have hlen : (y :: (ys ++ T)).length > dotdot := by
      simp only [List.length_cons, List.length_append]
      omega
    rw [List.cons_append, backtrackGo, if_pos ⟨hlen, hx⟩]
    exact ih y hy (fun z hz => hys z (by simp [hz]))

/-- Backtracking over a real element removes it together with its separator. -/
theorem backtrack_renderR (rooted : Bool) (dotdot : Nat) (r : List Nat) (st : List (List Nat))
    (hr : r ≠ []) (hr47 : ∀ x ∈ r, x ≠ 47) (hdd : dotdot ≤ (renderR rooted st).length)
    (hst : st = [] → (renderR rooted st).length = dotdot) :
    backtrack dotdot (renderR rooted (r :: st)) = renderR rooted st := by
  have hrev : r.reverse ≠ [] := by simpa using hr
  obtain ⟨x, xs, hx⟩ := List.exists_cons_of_ne_nil hrev
  have hx47 : x ≠ 47 := hr47 x (by
    have : x ∈ r.reverse := by rw [hx]; simp
    simpa using this)
  have hxs47 : ∀ y ∈ xs, y ≠ 47 := fun y hy => hr47 y (by
    have : y ∈ r.reverse := by rw [hx]; simp [hy]
    simpa using this)
  simp only [renderR, hx, List.cons_append, backtrack]
  by_cases hnil : st = []
  · subst hnil
    have hlen := hst rfl
    simp only [if_true]
    apply backtrackGo_pop dotdot _ _ (by simp only [renderR] at hlen; omega) _ xs x hx47 hxs47
    intro z hz
    simp only [renderR] at hlen ⊢
    cases hb : (if rooted = true then [47] else []) with
    | nil => simp [backtrackGo]
    | cons y T =>
      rw [hb] at hlen
      rw [backtrackGo, if_neg (fun h => by omega)]
  · simp only [hnil, if_false]
    apply backtrackGo_pop dotdot _ _ (by simp; omega) _ xs x hx47 hxs47
    intro z hz
    have hlen : (47 :: renderR rooted st).length > dotdot := by simp; omega
    rw [backtrackGo, if_pos ⟨hlen, hz⟩]
    cases hb : renderR rooted st with
    | nil => simp [backtrackGo]
    | cons y T => simp [backtrackGo]

theorem span_elem (l : List Nat) :
    (∀ x ∈ l.takeWhile (· ≠ 47), x ≠ 47) ∧
    l.takeWhile (· ≠ 47) ++ l.dropWhile (· ≠ 47) = l ∧
    (l.dropWhile (· ≠ 47) = [] ∨ (l.dropWhile (· ≠ 47)).head? = some 47) ∧
    (l.dropWhile (· ≠ 47)).length ≤ l.length := by
  induction l with
  | nil => simp
  | cons a l ih =>
    by_cases ha : a = 47
    · simp [ha]
    · simp only [ne_eq] at ih ⊢
      obtain ⟨h1, h2, h3, h4⟩ := ih
      simp only [List.takeWhile_cons, List.dropWhile_cons, ha, not_false_eq_true,
        decide_True, if_true]
      refine ⟨?_, by simp [h2], h3, by simp only [List.length_cons]; omega⟩
      intro x hx
      rcases List.mem_cons.1 hx with h | h
      · subst h; exact ha
      · exact h1 x h

theorem normGo_dotdot_real (rooted : Bool) (r : List Nat) (st cs : List (List Nat))
    (hr : r ≠ [46, 46]) :
    normGo rooted (r :: st) ([46, 46] :: cs) = normGo rooted st cs := by
  simp [normGo, hr]

theorem normGo_dotdot_dds (dds cs : List (List Nat)) (hd : ∀ c ∈ dds, c = [46, 46]) :
    normGo false dds ([46, 46] :: cs) = normGo false ([46, 46] :: dds) cs := by
  cases dds with
  | nil => simp [normGo]
  | cons d dds =>
    have := hd d (by simp)
    subst this
    simp [normGo]

theorem normGo_real (rooted : Bool) (c : List Nat) (st cs : List (List Nat))
    (h1 : c ≠ [46]) (h2 : c ≠ [46, 46]) :
    normGo rooted st (c :: cs) = normGo rooted (c :: st) cs := by
  simp [normGo, h1, h2]

/-- The loop of `Clean` computes the normal form of the elements of the path: if the
buffer holds the stack `reals ++ dds`, the loop ends with the buffer of the stack that
normalisation reaches from it. -/
theorem cleanLoop_spec (rooted : Bool) (fuel : Nat) :
    ∀ (path : List Nat) (reals dds : List (List Nat)), path.length ≤ fuel →
      GoodStack rooted reals dds →
      cleanLoop rooted fuel path (renderR rooted (reals ++ dds)) (renderR rooted dds).length =
        renderR rooted (normGo rooted (reals ++ dds) (comps path)) := by
  induction fuel with
  | zero =>
    intro path reals dds hlen _
    have : path = [] := List.length_eq_zero.1 (by omega)
    subst this
    simp [cleanLoop, comps_nil, normGo]
  | succ n ih =>
    intro path reals dds hlen hgood
    cases path with
    | nil => simp [cleanLoop, comps_nil, normGo]
    | cons c rest =>
      have hlen' : rest.length ≤ n := by simpa using hlen
      rw [cleanLoop]
      by_cases h1 : c = 47
      · rw [if_pos h1, h1, comps_sep]
        exact ih rest reals dds hlen' hgood
      rw [if_neg h1]
      by_cases h2 : c = 46 ∧ (rest = [] ∨ rest.head? = some 47)
      · rw [if_pos h2]
        have hc : comps (c :: rest) = [46] :: comps rest := by
          rw [h2.1]
          exact comps_elem [46] rest (by simp) (by simp) h2.2
        rw [hc, ih rest reals dds hlen' hgood]
        simp [normGo]
      rw [if_neg h2]
      by_cases h3 : c = 46 ∧ rest.head? = some 46 ∧ (rest.tail = [] ∨ rest.tail.head? = some 47)
      · rw [if_pos h3]
        obtain ⟨hc46, hhead, htail⟩ := h3
        cases rest with
        | nil => simp at hhead
        | cons c2 rest2 =>
          simp only [List.head?_cons, Option.some.injEq] at hhead
          simp only [List.tail_cons] at htail ⊢
          subst hc46 hhead
          have hc : comps (46 :: 46 :: rest2) = [46, 46] :: comps rest2 :=
            comps_elem [46, 46] rest2 (by simp) (by simp) htail
          have hlen2 : rest2.length ≤ n := by
            simp only [List.length_cons] at hlen'
            omega
          rw [hc]
          cases reals with
          | cons r reals' =>
            -- a real element on top: backtrack over it
            have hr := hgood.1 r (by simp)
            have hgood' : GoodStack rooted reals' dds :=
              ⟨fun x hx => hgood.1 x (by simp [hx]), hgood.2.1, hgood.2.2⟩
            have hlt : (renderR rooted (r :: reals' ++ dds)).length >
                (renderR rooted dds).length := by
              have a1 := renderR_cons_length rooted r (reals' ++ dds)
              have a2 := renderR_append_length rooted reals' dds
              have a3 : 0 < r.length := List.length_pos.2 hr.1
              simp only [List.cons_append]
              omega
            rw [if_pos hlt]
            simp only [List.cons_append]
            rw [backtrack_renderR rooted _ r (reals' ++ dds) hr.1 hr.2.1
              (renderR_append_length rooted reals' dds), normGo_dotdot_real _ _ _ _ hr.2.2.1]
            · exact ih rest2 reals' dds hlen2 hgood'
            · intro hnil
              have : dds = [] := (List.append_eq_nil.1 hnil).2
              rw [hnil, this]
          | nil =>
            simp only [List.nil_append]
            rw [if_neg (by omega)]
            cases rooted with
            | true =>
              have hd : dds = [] := hgood.2.2 rfl
              subst hd
              simp only [Bool.true_eq_false, if_false]
              have := ih rest2 [] [] hlen2 hgood
              simp only [List.nil_append] at this
              rw [this]
              simp [normGo]
            | false =>
              simp only [if_true]
              have hgood' : GoodStack false [] ([46, 46] :: dds) := by
                refine ⟨by simp, ?_, by simp⟩
                intro x hx
                rcases List.mem_cons.1 hx with h | h
                · exact h
                · exact hgood.2.1 x h
              have hne : ∀ c ∈ dds, c ≠ [] := fun c hc => by
                rw [hgood.2.1 c hc]; simp
              have hpos : (renderR false dds).length > 0 ↔ dds ≠ [] := by
                constructor
                · intro h hd
                  subst hd
                  simp [renderR] at h
                · intro hd
                  exact List.length_pos.2 (mt (renderR_eq_nil dds hne).1 hd)
              have hout : (46 :: 46 :: if (renderR false dds).length > 0 then
                  47 :: renderR false dds else renderR false dds) =
                  renderR false ([46, 46] :: dds) := by
                by_cases hd : dds = []
                · subst hd
                  simp [renderR]
                · have := hpos.2 hd
                  simp [renderR, hd, this]
              have hdd : (if (renderR false dds).length > 0 then
                  47 :: renderR false dds else renderR false dds).length + 2 =
                  (renderR false ([46, 46] :: dds)).length := by
                rw [← hout]
                simp
              rw [hout, hdd, normGo_dotdot_dds dds _ hgood.2.1]
              have := ih rest2 [] ([46, 46] :: dds) hlen2 hgood'
              simpa using this
      rw [if_neg h3]
      -- a real element
      obtain ⟨e1, e2, e3, e4⟩ := span_elem (c :: rest)
      have hene : (c :: rest).takeWhile (· ≠ 47) ≠ [] := by
        simp [List.takeWhile_cons, h1]
      have e4' : ((c :: rest).dropWhile (· ≠ 47)).length ≤ n := by
        have : (c :: rest).dropWhile (· ≠ 47) = rest.dropWhile (· ≠ 47) := by
          simp [List.dropWhile_cons, h1]
        rw [this]
        have := (span_elem rest).2.2.2
        omega
      have hn1 : (c :: rest).takeWhile (· ≠ 47) ≠ [46] := by
        intro h
        rw [h] at e2
        simp only [List.cons_append, List.nil_append, List.cons.injEq] at e2
        apply h2
        refine ⟨e2.1.symm, ?_⟩
        rw [← e2.2]
        exact e3
      have hn2 : (c :: rest).takeWhile (· ≠ 47) ≠ [46, 46] := by
        intro h
        rw [h] at e2
        simp only [List.cons_append, List.nil_append, List.cons.injEq] at e2
        apply h3
        refine ⟨e2.1.symm, ?_, ?_⟩
        · rw [← e2.2]; simp
        · rw [← e2.2]; simpa using e3
      have hc : comps (c :: rest) =
          (c :: rest).takeWhile (· ≠ 47) :: comps ((c :: rest).dropWhile (· ≠ 47)) := by
        conv_lhs => rw [← e2]
        exact comps_elem _ _ hene e1 e3
      have hgood' : GoodStack rooted ((c :: rest).takeWhile (· ≠ 47) :: reals) dds := by
        refine ⟨?_, hgood.2.1, hgood.2.2⟩
        intro x hx
        rcases List.mem_cons.1 hx with h | h
        · subst h; exact ⟨hene, e1, hn2, hn1⟩
        · exact hgood.1 x h
      have hne : ∀ c ∈ reals ++ dds, c ≠ [] := by
        intro x hx
        rcases List.mem_append.1 hx with h | h
        · exact (hgood.1 x h).1
        · rw [hgood.2.1 x h]; simp
      have hout : ((c :: rest).takeWhile (· ≠ 47)).reverse ++
          (if (rooted = true ∧ (renderR rooted (reals ++ dds)).length ≠ 1) ∨
              (rooted = false ∧ (renderR rooted (reals ++ dds)).length ≠ 0)
            then 47 :: renderR rooted (reals ++ dds) else renderR rooted (reals ++ dds)) =
          renderR rooted ((c :: rest).takeWhile (· ≠ 47) :: (reals ++ dds)) := by
        cases rooted with
        | true =>
          have := renderR_true_length (reals ++ dds) hne
          by_cases hs : reals ++ dds = []
          · simp [renderR, hs]
          · have h' : (renderR true (reals ++ dds)).length ≠ 1 := fun h => hs (this.1 h)
            simp [renderR, hs, h']
        | false =>
          have := renderR_eq_nil (reals ++ dds) hne
          by_cases hs : reals ++ dds = []
          · simp [renderR, hs]
          · have h' : renderR false (reals ++ dds) ≠ [] := fun h => hs (this.1 h)
            simp [renderR, hs, h']
      simp only []
      rw [hout, hc, normGo_real _ _ _ _ hn1 hn2]
      exact ih _ _ dds e4' hgood'

/-- `Clean` writes the normal form of the elements of the path. -/
theorem Clean_eq (path : List Nat) :
    Clean path = render (isRooted path) (normGo (isRooted path) [] (comps path)) := by
  cases path with
  | nil => simp [Clean, isRooted, comps_nil, normGo, render, renderR]
  | cons c t =>
    have hg : ∀ r, GoodStack r [] [] := fun r => ⟨by simp, by simp, by simp⟩
    by_cases hc : c = 47
    · subst hc
      have := cleanLoop_spec true (47 :: t).length t [] [] (by simp) (hg true)
      simp only [List.nil_append, renderR, if_true, List.length_singleton] at this
      simp only [Clean, isRooted, List.head?_cons, if_true, List.tail_cons, render, comps_sep,
        reduceCtorEq, if_false, decide_True]
      rw [this]
    · have := cleanLoop_spec false (c :: t).length (c :: t) [] [] (by simp) (hg false)
      simp only [List.nil_append, renderR, Bool.false_eq_true, if_false, List.length_nil] at this
      have hr : isRooted (c :: t) = false := by simp [isRooted, hc]
      rw [hr]
      simp only [Clean, List.head?_cons, Option.some.injEq, hc, if_false, render,
        reduceCtorEq]
      rw [this]

theorem normGo_append (rooted : Bool) (a b st : List (List Nat)) :
    normGo rooted st (a ++ b) = normGo rooted (normGo rooted st a) b := by
  induction a generalizing st with
  | nil => simp [normGo]
  | cons c a ih =>
    by_cases h1 : c = [46]
    · simp [normGo, h1, ih]
    by_cases h2 : c = [46, 46]
    · subst h2
      cases st with
      | nil => cases rooted <;> simp [normGo, ih]
      | cons top st1 => by_cases ht : top = [46, 46] <;> cases rooted <;> simp [normGo, ht, ih]
    · simp [normGo, h1, h2, ih]

/-- Normalisation keeps a stack of real elements on top of leading `..` elements. -/
theorem normGo_good (rooted : Bool) (cs : List (List Nat))
    (hcs : ∀ c ∈ cs, c ≠ [] ∧ ∀ x ∈ c, x ≠ 47) :
    ∀ reals dds, GoodStack rooted reals dds →
      ∃ reals1 dds1, normGo rooted (reals ++ dds) cs = reals1 ++ dds1 ∧
        GoodStack rooted reals1 dds1 := by
  induction cs with
  | nil => intro reals dds hg; exact ⟨reals, dds, by simp [normGo], hg⟩
  | cons c cs ih =>
    intro reals dds hg
    have hc := hcs c (by simp)
    have ih' := ih (fun x hx => hcs x (by simp [hx]))
    by_cases h1 : c = [46]
    · simp only [normGo, h1, if_true]
      exact ih' reals dds hg
    by_cases h2 : c = [46, 46]
    · subst h2
      cases reals with
      | cons r reals1 =>
        have hr := hg.1 r (by simp)
        rw [List.cons_append, normGo_dotdot_real _ _ _ _ hr.2.2.1]
        exact ih' reals1 dds ⟨fun x hx => hg.1 x (by simp [hx]), hg.2.1, hg.2.2⟩
      | nil =>
        cases rooted with
        | true =>
          have hd : dds = [] := hg.2.2 rfl
          subst hd
          simp only [List.nil_append, normGo, if_true]
          simp only [List.cons.injEq, reduceCtorEq, and_false, if_false]
          exact ih' [] [] hg
        | false =>
          rw [List.nil_append, normGo_dotdot_dds dds _ hg.2.1]
          have := ih' [] ([46, 46] :: dds) ⟨by simp, by
            intro x hx
            rcases List.mem_cons.1 hx with h | h
            · exact h
            · exact hg.2.1 x h, by simp⟩
          simpa using this
    · rw [normGo_real _ _ _ _ h1 h2]
      have := ih' (c :: reals) dds ⟨by
        intro x hx
        rcases List.mem_cons.1 hx with h | h
        · subst h; exact ⟨hc.1, hc.2, h2, h1⟩
        · exact hg.1 x h, hg.2.1, hg.2.2⟩
      simpa using this

theorem GoodStack.elems {rooted : Bool} {reals dds : List (List Nat)}
    (hg : GoodStack rooted reals dds) : ∀ c ∈ reals ++ dds, c ≠ [] ∧ ∀ x ∈ c, x ≠ 47 := by
  intro c hc
  rcases List.mem_append.1 hc with h | h
  · exact ⟨(hg.1 c h).1, (hg.1 c h).2.1⟩
  · rw [hg.2.1 c h]
    simp

theorem comps_single (c : List Nat) (hc : c ≠ []) (h47 : ∀ x ∈ c, x ≠ 47) : comps c = [c] := by
  have := comps_elem c [] hc h47 (Or.inl rfl)
  simpa [comps_nil] using this

/-- The elements of a written buffer are the elements of the stack, bottom first. -/
theorem comps_renderR (rooted : Bool) (st : List (List Nat))
    (hst : ∀ c ∈ st, c ≠ [] ∧ ∀ x ∈ c, x ≠ 47) :
    comps (renderR rooted st).reverse = st.reverse := by
  induction st with
  | nil => cases rooted <;> simp [renderR, comps, compsGo]
  | cons c st ih =>
    have hc := hst c (by simp)
    have ih' := ih (fun x hx => hst x (by simp [hx]))
    by_cases hs : st = []
    · subst hs
      cases rooted
      · simp [renderR, comps_single c hc.1 hc.2]
      · simp only [renderR, if_true, List.reverse_append, List.reverse_reverse,
          List.reverse_cons, List.reverse_nil, List.nil_append, List.singleton_append]
        rw [comps_sep, comps_single c hc.1 hc.2]
    · simp only [renderR, hs, if_false, List.reverse_append, List.reverse_reverse,
        List.reverse_cons, List.append_assoc, List.singleton_append]
      rw [comps_append_sep, comps_single c hc.1 hc.2, ih']

theorem renderR_true_reverse (st : List (List Nat)) :
    ∃ t, (renderR true st).reverse = 47 :: t := by
  induction st with
  | nil => exact ⟨[], by simp [renderR]⟩
  | cons c st ih =>
    by_cases hs : st = []
    · exact ⟨c, by simp [renderR, hs]⟩
    · obtain ⟨t, ht⟩ := ih
      exact ⟨t ++ 47 :: c, by simp [renderR, hs, ht]⟩

theorem renderR_false_head (st : List (List Nat)) (hst : ∀ c ∈ st, c ≠ [] ∧ ∀ x ∈ c, x ≠ 47) :
    (renderR false st).reverse.head? ≠ some 47 := by
  induction st with
  | nil => simp [renderR]
  | cons c st ih =>
    have hc := hst c (by simp)
    have ih' := ih (fun x hx => hst x (by simp [hx]))
    by_cases hs : st = []
    · subst hs
      simp only [renderR, if_true, Bool.false_eq_true, if_false, List.append_nil,
        List.reverse_reverse]
      cases c with
      | nil => exact absurd rfl hc.1
      | cons a c =>
        have := hc.2 a (by simp)
        simpa using this
    · have hne : renderR false st ≠ [] :=
        mt (renderR_eq_nil st (fun x hx => (hst x (by simp [hx])).1)).1 hs
      have hne' : (renderR false st).reverse ≠ [] := by simpa using hne
      obtain ⟨a, t, hat⟩ := List.exists_cons_of_ne_nil hne'
      rw [hat] at ih'
      simp only [renderR, hs, if_false, List.reverse_append, List.reverse_reverse,
        List.reverse_cons, List.append_assoc, hat, List.cons_append, List.head?_cons]
      simpa using ih'

/-- Whether the cleaned path is rooted. -/
theorem isRooted_render (rooted : Bool) (st : List (List Nat))
    (hst : ∀ c ∈ st, c ≠ [] ∧ ∀ x ∈ c, x ≠ 47) : isRooted (render rooted st) = rooted := by
  cases rooted with
  | true =>
    obtain ⟨t, ht⟩ := renderR_true_reverse st
    have hne : renderR true st ≠ [] := by
      intro h
      rw [h] at ht
      simp at ht
    simp [render, hne, ht, isRooted]
  | false =>
    unfold render
    split_ifs with h
    · simp [isRooted]
    · have := renderR_false_head st hst
      simp only [isRooted, decide_eq_false_iff_not]
      exact this

theorem normGo_push_dds (l acc : List (List Nat)) (hl : ∀ c ∈ l, c = [46, 46])
    (hacc : ∀ c ∈ acc, c = [46, 46]) : normGo false acc l = l.reverse ++ acc := by
  induction l generalizing acc with
  | nil => simp [normGo]
  | cons c l ih =>
    have hc := hl c (by simp)
    subst hc
    have hacc' : ∀ x ∈ [46, 46] :: acc, x = [46, 46] := by
      intro x hx
      rcases List.mem_cons.1 hx with h | h
      · exact h
      · exact hacc x h
    rw [normGo_dotdot_dds acc _ hacc, ih _ (fun x hx => hl x (by simp [hx])) hacc']
    simp

theorem normGo_push_reals (rooted : Bool) (l acc : List (List Nat))
    (hl : ∀ c ∈ l, c ≠ [46] ∧ c ≠ [46, 46]) : normGo rooted acc l = l.reverse ++ acc := by
  induction l generalizing acc with
  | nil => simp [normGo]
  | cons c l ih =>
    have hc := hl c (by simp)
    rw [normGo_real _ _ _ _ hc.1 hc.2, ih _ (fun x hx => hl x (by simp [hx]))]
    simp

/-- A normal form is its own normal form. -/
theorem normGo_reverse_good (rooted : Bool) (reals dds : List (List Nat))
    (hg : GoodStack rooted reals dds) :
    normGo rooted [] (reals ++ dds).reverse = reals ++ dds := by
  rw [List.reverse_append, normGo_append]
  have h1 : normGo rooted [] dds.reverse = dds := by
    cases rooted with
    | true =>
      rw [hg.2.2 rfl]
      simp [normGo]
    | false =>
      rw [normGo_push_dds _ _ (fun c hc => hg.2.1 c (by simpa using hc)) (by simp)]
      simp
  rw [h1, normGo_push_reals _ _ _ (fun c hc => by
    have := hg.1 c (by simpa using hc)
    exact ⟨this.2.2.2, this.2.2.1⟩)]
  simp

theorem Clean_ne_nil (path : List Nat) : Clean path ≠ [] := by
  rw [Clean_eq]
  unfold render
  split_ifs with h
  · simp
  · simpa using h

/-- The normal form of a path, as a stack of real elements over leading `..` elements. -/
theorem normGo_comps_good (rooted : Bool) (path : List Nat) :
    ∃ reals dds, normGo rooted [] (comps path) = reals ++ dds ∧ GoodStack rooted reals dds := by
  have := normGo_good rooted (comps path) (comps_elems path) [] [] ⟨by simp, by simp, by simp⟩
  simpa using this

theorem isRooted_Clean (path : List Nat) : isRooted (Clean path) = isRooted path := by
  obtain ⟨reals, dds, hN, hg⟩ := normGo_comps_good (isRooted path) path
  rw [Clean_eq, hN]
  exact isRooted_render _ _ hg.elems

/-- The elements of a cleaned path: those of the normal form, or a single `.`. -/
theorem comps_Clean (path : List Nat) :
    comps (Clean path) = (normGo (isRooted path) [] (comps path)).reverse ∨
    (comps (Clean path) = [[46]] ∧ normGo (isRooted path) [] (comps path) = []) := by
  obtain ⟨reals, dds, hN, hg⟩ := normGo_comps_good (isRooted path) path
  rw [Clean_eq, hN]
  unfold render
  split_ifs with h
  · right
    refine ⟨by simp [comps, compsGo], ?_⟩
    cases hr : isRooted path with
    | true =>
      rw [hr] at h
      have := renderR_true_pos (reals ++ dds)
      rw [h] at this
      simp at this
    | false =>
      rw [hr] at h hg
      exact (renderR_eq_nil _ (fun c hc => (hg.elems c hc).1)).1 h
  · left
    exact comps_renderR _ _ hg.elems

/-- Cleaning does not change the normal form. -/
theorem normGo_comps_Clean (path : List Nat) :
    normGo (isRooted path) [] (comps (Clean path)) = normGo (isRooted path) [] (comps path) := by
  obtain ⟨reals, dds, hN, hg⟩ := normGo_comps_good (isRooted path) path
  rcases comps_Clean path with h | ⟨h1, h2⟩
  · rw [h, hN]
    exact normGo_reverse_good _ _ _ hg
  · rw [h1, h2]
    simp [normGo]

/-- Cleaning `a/b` where `a` is first cleaned itself is cleaning `a/b`. -/
theorem Clean_Clean_append (a b : List Nat) (ha : a ≠ []) :
    Clean (Clean a ++ 47 :: b) = Clean (a ++ 47 :: b) := by
  have hr1 : isRooted (Clean a ++ 47 :: b) = isRooted a := by
    rw [← isRooted_Clean a]
    have := Clean_ne_nil a
    cases hc : Clean a with
    | nil => exact absurd hc this
    | cons x t => simp [isRooted]
  have hr2 : isRooted (a ++ 47 :: b) = isRooted a := by
    cases a with
    | nil => exact absurd rfl ha
    | cons x t => simp [isRooted]
  rw [Clean_eq, Clean_eq (a ++ 47 :: b), hr1, hr2, comps_append_sep, comps_append_sep,
    normGo_append, normGo_append, normGo_comps_Clean]

/-! ## `Ext`, `Base` and `Dir` of a path ending in `.app` -/

theorem extGo_length (before after : List Nat) :
    extGo before after = [] ∨ after.length + 1 ≤ (extGo before after).length := by
  induction before generalizing after with
  | nil => simp [extGo]
  | cons c b ih =>
    unfold extGo
    split_ifs with h1 h2
    · simp
    · simp
    · rcases ih (c :: after) with h | h
      · exact Or.inl h
      · right
        simp only [List.length_cons] at h
        omega

theorem takeWhile_cons_ne (a : Nat) (l : List Nat) (h : a ≠ 47) :
    (a :: l).takeWhile (· ≠ 47) = a :: l.takeWhile (· ≠ 47) := by
  simp [List.takeWhile_cons, h]

theorem dropWhile_cons_ne (a : Nat) (l : List Nat) (h : a ≠ 47) :
    (a :: l).dropWhile (· ≠ 47) = l.dropWhile (· ≠ 47) := by
  simp [List.dropWhile_cons, h]

theorem dropWhile_sep_cons_ne (a : Nat) (l : List Nat) (h : a ≠ 47) :
    (a :: l).dropWhile (· = 47) = a :: l := by
  simp [List.dropWhile_cons, h]

/-- The suffix check of `main` passes only on paths that end in `.app`. -/
theorem Ext_eq_app (path : List Nat) (h : Ext path = bytes ".app") :
    ∃ rest, path.reverse = 112 :: 112 :: 97 :: 46 :: rest := by
  have hb : bytes ".app" = [46, 97, 112, 112] := by decide
  rw [hb] at h
  unfold Ext at h
  rcases hp : path.reverse with _ | ⟨c1, _ | ⟨c2, _ | ⟨c3, _ | ⟨c4, l4⟩⟩⟩⟩
  · rw [hp] at h
    simp [extGo] at h
  · rw [hp] at h
    simp only [extGo] at h
    split_ifs at h
    simp at h
  · rw [hp] at h
    simp only [extGo] at h
    split_ifs at h <;> simp at h
  · rw [hp] at h
    simp only [extGo] at h
    split_ifs at h <;> simp at h
  · rw [hp] at h
    simp only [extGo] at h
    split_ifs at h with a1 a2 a3 a4 a5 a6 a7 a8
    all_goals try (simp at h; done)
    · simp only [List.cons.injEq, and_true] at h
      obtain ⟨h1, h2, h3, h4⟩ := h
      subst h1 h2 h3 h4
      exact ⟨l4, rfl⟩
    · rcases extGo_length l4 [c4, c3, c2, c1] with h' | h'
      · rw [h'] at h
        simp at h
      · rw [h] at h'
        simp at h'

theorem app_suffix_of_Ext (path : List Nat) (h : Ext path = bytes ".app") :
    ∃ pre, path = pre ++ bytes ".app" := by
  obtain ⟨rest, hr⟩ := Ext_eq_app path h
  refine ⟨rest.reverse, ?_⟩
  have : path = (path.reverse).reverse := by simp
  rw [this, hr]
  have hb : bytes ".app" = [46, 97, 112, 112] := by decide
  rw [hb]
  simp

/-- A path that passes the suffix check splits into a directory part, empty or ending in a
separator, and a last element that ends in `.app`; `Base` is that element and `Dir` the
cleaned directory part. -/
theorem split_of_Ext (path : List Nat) (h : Ext path = bytes ".app") :
    ∃ d stem, path = d ++ (stem ++ bytes ".app") ∧ (d = [] ∨ ∃ d1, d = d1 ++ [47]) ∧
      (∀ x ∈ stem, x ≠ 47) ∧ Base path = stem ++ bytes ".app" ∧ Dir path = Clean d := by
  obtain ⟨rest, hr⟩ := Ext_eq_app path h
  have hb : bytes ".app" = [46, 97, 112, 112] := by decide
  obtain ⟨e1, e2, e3, e4⟩ := span_elem rest
  have hpath : path = (rest.dropWhile (· ≠ 47)).reverse ++
      ((rest.takeWhile (· ≠ 47)).reverse ++ [46, 97, 112, 112]) := by
    have : path = (path.reverse).reverse := by simp
    rw [this, hr]
    conv_lhs => rw [← e2]
    simp only [List.reverse_cons, List.reverse_append, List.append_assoc, List.singleton_append,
      List.nil_append, List.cons_append]
  have htw : (path.reverse).takeWhile (· ≠ 47) =
      112 :: 112 :: 97 :: 46 :: rest.takeWhile (· ≠ 47) := by
    rw [hr, takeWhile_cons_ne _ _ (by decide), takeWhile_cons_ne _ _ (by decide),
      takeWhile_cons_ne _ _ (by decide), takeWhile_cons_ne _ _ (by decide)]
  have hdw : (path.reverse).dropWhile (· ≠ 47) = rest.dropWhile (· ≠ 47) := by
    rw [hr, dropWhile_cons_ne _ _ (by decide), dropWhile_cons_ne _ _ (by decide),
      dropWhile_cons_ne _ _ (by decide), dropWhile_cons_ne _ _ (by decide)]
  have hdw2 : (path.reverse).dropWhile (· = 47) = path.reverse := by
    rw [hr, dropWhile_sep_cons_ne _ _ (by decide)]
  generalize rest.takeWhile (· ≠ 47) = tw at *
  generalize rest.dropWhile (· ≠ 47) = dw at *
  refine ⟨dw.reverse, tw.reverse, ?_, ?_, ?_, ?_, ?_⟩
  · rw [hb]; exact hpath
  · rcases e3 with h3 | h3
    · left; simp [h3]
    · right
      cases dw with
      | nil => simp at h3
      | cons a t =>
        simp only [List.head?_cons, Option.some.injEq] at h3
        subst h3
        exact ⟨t.reverse, by simp⟩
  · intro x hx
    exact e1 x (by simpa using hx)
  · have hne : path ≠ [] := by
      intro hp
      rw [hp] at hr
      simp at hr
    unfold Base
    rw [if_neg hne, hdw2, htw, hb]
    simp
  · unfold Dir
    rw [hdw]

/-- Joining the cleaned directory part and the last element gives the cleaned path. -/
theorem Join_Dir_Base (d name : List Nat) (hd : d = [] ∨ ∃ d1, d = d1 ++ [47])
    (hne : name ≠ []) (h47 : ∀ x ∈ name, x ≠ 47) :
    Join [Clean d, name] = Clean (d ++ name) := by
  have hj : Join [Clean d, name] = Clean (Clean d ++ 47 :: name) := by
    simp [Join, joinSep, Clean_ne_nil]
  rw [hj]
  rcases hd with h | ⟨d1, h⟩
  · subst h
    have hr1 : isRooted (Clean [] ++ 47 :: name) = false := by
      have : Clean [] = [46] := by decide
      rw [this]
      simp [isRooted]
    have hr2 : isRooted ([] ++ name) = false := by
      cases name with
      | nil => exact absurd rfl hne
      | cons a t =>
        have := h47 a (by simp)
        simp [isRooted, this]
    have hc : comps (Clean []) = [[46]] := by decide
    rw [Clean_eq, Clean_eq ([] ++ name), hr1, hr2, comps_append_sep, hc]
    simp [normGo]
  · subst h
    by_cases hd1 : d1 = []
    · subst hd1
      have hc : Clean [47] = [47] := by decide
      simp only [List.nil_append, hc, List.singleton_append]
      rw [Clean_eq, Clean_eq (47 :: name)]
      simp [isRooted, comps_sep]
    · have h1 : Clean (d1 ++ [47]) = Clean d1 := by
        rw [Clean_eq, Clean_eq d1]
        have hr : isRooted (d1 ++ [47]) = isRooted d1 := by
          cases d1 with
          | nil => exact absurd rfl hd1
          | cons a t => simp [isRooted]
        rw [hr, comps_append_sep, comps_nil, List.append_nil]
      rw [h1, Clean_Clean_append d1 name hd1]
      simp

/-! ## Resolving the paths of `run` -/

theorem walk_append (st a b : List (List Nat)) : walk st (a ++ b) = walk (walk st a) b := by
  induction a generalizing st with
  | nil => simp [walk]
  | cons c a ih =>
    simp only [List.cons_append, walk]
    split_ifs <;> exact ih _

theorem walk_reals (l st : List (List Nat)) (hl : ∀ c ∈ l, c ≠ [46] ∧ c ≠ [46, 46]) :
    walk st l = l.reverse ++ st := by
  induction l generalizing st with
  | nil => simp [walk]
  | cons c l ih =>
    have hc := hl c (by simp)
    simp only [walk, hc.1, hc.2, if_false]
    rw [ih _ (fun x hx => hl x (by simp [hx]))]
    simp

theorem walk_dds (l st : List (List Nat)) (hl : ∀ c ∈ l, c = [46, 46]) :
    walk st l = st.drop l.length := by
  induction l generalizing st with
  | nil => simp [walk]
  | cons c l ih =>
    have hc := hl c (by simp)
    subst hc
    have e : walk st ([46, 46] :: l) = walk st.tail l := by simp [walk]
    rw [e, ih st.tail (fun x hx => hl x (by simp [hx]))]
    cases st with
    | nil => simp
    | cons a st => simp

/-- Walking a normal form from `base`: drop one name of `base` for each leading `..`, then
go down the real elements. -/
theorem walk_good (rooted : Bool) (reals dds base : List (List Nat))
    (hg : GoodStack rooted reals dds) :
    walk base (reals ++ dds).reverse = reals ++ base.drop dds.length := by
  rw [List.reverse_append, walk_append,
    walk_dds dds.reverse base (fun c hc => hg.2.1 c (by simpa using hc)),
    walk_reals reals.reverse _ (fun c hc => by
      have := hg.1 c (by simpa using hc)
      exact ⟨this.2.2.2, this.2.2.1⟩)]
  simp

/-- Walking the normal form of a path is walking the path. -/
theorem walk_normGo (rooted : Bool) (base : List (List Nat)) (hb : rooted = true → base = [])
    (cs : List (List Nat)) (hcs : ∀ c ∈ cs, c ≠ [] ∧ ∀ x ∈ c, x ≠ 47) :
    ∀ reals dds, GoodStack rooted reals dds →
      walk base (normGo rooted (reals ++ dds) cs).reverse =
        walk (reals ++ base.drop dds.length) cs := by
  induction cs with
  | nil =>
    intro reals dds hg
    simp only [normGo, walk]
    exact walk_good rooted reals dds base hg
  | cons c cs ih =>
    intro reals dds hg
    have hc := hcs c (by simp)
    have ih' := ih (fun x hx => hcs x (by simp [hx]))
    by_cases h1 : c = [46]
    · simp only [normGo, walk, h1, if_true]
      exact ih' reals dds hg
    by_cases h2 : c = [46, 46]
    · subst h2
      have e : ∀ X : List (List Nat), walk X ([46, 46] :: cs) = walk X.tail cs := by
        intro X
        simp [walk]
      rw [e]
      cases reals with
      | cons r reals1 =>
        have hr := hg.1 r (by simp)
        rw [List.cons_append, normGo_dotdot_real _ _ _ _ hr.2.2.1]
        exact ih' reals1 dds ⟨fun x hx => hg.1 x (by simp [hx]), hg.2.1, hg.2.2⟩
      | nil =>
        cases rooted with
        | true =>
          have hd : dds = [] := hg.2.2 rfl
          have hb' : base = [] := hb rfl
          subst hd hb'
          have := ih' [] [] hg
          simp only [List.nil_append, List.length_nil, List.drop_nil] at this ⊢
          simp only [normGo, if_true, List.tail_nil]
          exact this
        | false =>
          have hg' : GoodStack false [] ([46, 46] :: dds) := ⟨by simp, by
            intro x hx
            rcases List.mem_cons.1 hx with h | h
            · exact h
            · exact hg.2.1 x h, by simp⟩
          have := ih' [] ([46, 46] :: dds) hg'
          rw [List.nil_append, normGo_dotdot_dds dds _ hg.2.1]
          simp only [List.nil_append, List.length_cons] at this ⊢
          rw [this, List.tail_drop]
    · rw [normGo_real _ _ _ _ h1 h2]
      have := ih' (c :: reals) dds ⟨by
        intro x hx
        rcases List.mem_cons.1 hx with h | h
        · subst h; exact ⟨hc.1, hc.2, h2, h1⟩
        · exact hg.1 x h, hg.2.1, hg.2.2⟩
      simp only [walk, h1, h2, if_false]
      simpa using this

/-- Cleaning a path does not change what it names. -/
theorem resolve_Clean (cwd : FSKey) (path : List Nat) :
    resolve cwd (Clean path) = resolve cwd path := by
  unfold resolve
  rw [isRooted_Clean]
  congr 1
  have hw := walk_normGo (isRooted path) (if isRooted path then [] else cwd.reverse)
    (by intro h; simp [h]) (comps path) (comps_elems path) [] [] ⟨by simp, by simp, by simp⟩
  simp only [List.nil_append, List.length_nil, List.drop_zero] at hw
  rcases comps_Clean path with h | ⟨h1, h2⟩
  · rw [h, hw]
  · rw [h1, ← hw, h2]
    simp [walk]

/-- What `a/b` names: `b` walked from what `a` names. -/
theorem resolve_append_sep (cwd : FSKey) (a b : List Nat) (ha : a ≠ []) :
    resolve cwd (a ++ 47 :: b) = (walk (resolve cwd a).reverse (comps b)).reverse := by
  have hr : isRooted (a ++ 47 :: b) = isRooted a := by
    cases a with
    | nil => exact absurd rfl ha
    | cons x t => simp [isRooted]
  unfold resolve
  rw [hr, comps_append_sep, walk_append]
  simp

/-! ## `run` on the file system, step by step -/

theorem run_posix (dir appName bin : List Nat) (fs : FS) :
    run posix dir appName bin fs =
      match prep dir appName fs with
      | (some err, s) => (some err, s)
      | (none, s) => install dir appName bin s := by
  simp only [run, prep, install, posix, appPathOf, genInfoPlist]
  rcases FS.RemoveAll (Join [dir, appName ++ ext]) fs with ⟨_ | e1, s1⟩
  swap
  · rfl
  simp only []
  rcases FS.MkdirAll (Join [Join [dir, appName ++ ext], contents, macOS]) perm s1
    with ⟨_ | e2, s2⟩
  swap
  · rfl
  simp only []
  rcases FS.MkdirAll (Join [Join [dir, appName ++ ext], contents, resources]) perm s2
    with ⟨_ | e3, s3⟩
  swap
  · rfl
  simp only []
  rcases FS.WriteFile (Join [Join [dir, appName ++ ext], contents, bytes "Info.plist"])
    (Replace infoPlist placeholder (escapeXML appName)) 0o644 s3 with ⟨_ | e4, s4⟩
  swap
  · rfl
  simp only []
  rcases FS.Open bin s4 with ⟨e5 | fin, s5⟩
  · rfl
  simp only []
  rcases FS.OpenFile (Join [Join [dir, appName ++ ext], contents, macOS, appName])
    [OpenFlag.O_WRONLY, OpenFlag.O_CREATE, OpenFlag.O_TRUNC] perm s5 with ⟨e6 | out, s6⟩
  · rfl
  simp only []
  rcases FS.Copy out fin s6 with ⟨_ | e7, s7⟩
  swap
  · rfl
  simp only []
  rcases FS.Sync out s7 with ⟨_ | e8, s8⟩ <;> rfl

theorem ensureDirs_ok (mode : Nat) (L : List FSKey) :
    ∀ n : FSKey → Option Node, (∀ k ∈ L, isFile (n k) = false) →
      ensureDirs mode n L =
        (none, fun q => if q ∈ L ∧ n q = none then some (Node.dir mode) else n q) := by
  induction L with
  | nil => intro n _; simp [ensureDirs]
  | cons k ks ih =>
    intro n hn
    have hk := hn k (by simp)
    cases hnk : n k with
    | none =>
      simp only [ensureDirs, hnk]
      rw [ih]
      · congr 1
        funext q
        by_cases hq : q = k
        · subst hq
          simp [setNode, hnk]
        · simp [setNode, hq]
      · intro k' hk'
        by_cases hq : k' = k
        · simp [setNode, hq, isFile]
        · simpa [setNode, hq] using hn k' (by simp [hk'])
    | some v =>
      cases v with
      | file m d => simp [hnk, isFile] at hk
      | dir m =>
        simp only [ensureDirs, hnk]
        rw [ih n (fun k' hk' => hn k' (by simp [hk']))]
        congr 1
        funext q
        by_cases hq : q = k
        · subst hq
          simp [hnk]
        · simp [hq]

theorem ensureDirs_err (mode : Nat) (L : List FSKey) :
    ∀ n : FSKey → Option Node, (ensureDirs mode n L).1 = none →
      ∀ k ∈ L, isFile (n k) = false := by
  induction L with
  | nil => intro n _ k hk; simp at hk
  | cons k ks ih =>
    intro n h k' hk'
    cases hnk : n k with
    | none =>
      simp only [ensureDirs, hnk] at h
      rcases List.mem_cons.1 hk' with e | e
      · subst e; simp [hnk, isFile]
      · have := ih _ h k' e
        by_cases hq : k' = k
        · subst hq; simp [hnk, isFile]
        · simpa [setNode, hq] using this
    | some v =>
      cases v with
      | file m d => simp [ensureDirs, hnk] at h
      | dir m =>
        simp only [ensureDirs, hnk] at h
        rcases List.mem_cons.1 hk' with e | e
        · subst e; simp [hnk, isFile]
        · exact ih _ h k' e

/-! ## The keys of `run` -/

theorem appPathOf_ne (dir appName : List Nat) : appPathOf dir appName ≠ [] := by
  unfold appPathOf Join
  have hne : appName ++ ext ≠ [] := by
    have : ext = [46, 97, 112, 112] := by decide
    simp [this]
  split_ifs with h
  · simp only [Join, hne, if_false]
    exact Clean_ne_nil _
  · exact Clean_ne_nil _

theorem resolve_Join (cwd : FSKey) (a : List Nat) (rest : List (List Nat)) (ha : a ≠ []) :
    resolve cwd (Join (a :: rest)) = resolve cwd (joinSep (a :: rest)) := by
  simp only [Join, ha, if_false]
  exact resolve_Clean _ _

theorem resolve_Join_two (cwd : FSKey) (a c1 c2 : List Nat) (ha : a ≠ [])
    (h1 : comps c1 = [c1]) (h2 : comps c2 = [c2])
    (hr : ∀ c ∈ [c1, c2], c ≠ [46] ∧ c ≠ [46, 46]) :
    resolve cwd (Join [a, c1, c2]) = resolve cwd a ++ [c1, c2] := by
  rw [resolve_Join _ _ _ ha]
  have : joinSep [a, c1, c2] = a ++ 47 :: (c1 ++ 47 :: c2) := by simp [joinSep]
  rw [this, resolve_append_sep _ _ _ ha, comps_append_sep, h1, h2]
  have e : [c1] ++ [c2] = [c1, c2] := rfl
  rw [e, walk_reals _ _ hr]
  simp

theorem macKey_eq (cwd : FSKey) (dir appName : List Nat) :
    resolve cwd (Join [appPathOf dir appName, contents, macOS]) = macKey cwd dir appName :=
  resolve_Join_two cwd _ _ _ (appPathOf_ne dir appName) (by decide) (by decide) (by decide)

theorem resKey_eq (cwd : FSKey) (dir appName : List Nat) :
    resolve cwd (Join [appPathOf dir appName, contents, resources]) = resKey cwd dir appName :=
  resolve_Join_two cwd _ _ _ (appPathOf_ne dir appName) (by decide) (by decide) (by decide)

theorem plistKey_eq (cwd : FSKey) (dir appName : List Nat) :
    resolve cwd (Join [appPathOf dir appName, contents, bytes "Info.plist"]) =
      plistKey cwd dir appName :=
  resolve_Join_two cwd _ _ _ (appPathOf_ne dir appName) (by decide) (by decide) (by decide)

/-- The destination path: the application name walked from `Contents/MacOS`. -/
theorem exeKey_eq (cwd : FSKey) (dir appName : List Nat) :
    exeKey cwd dir appName =
      (walk (macOS :: contents :: (appKey cwd dir appName).reverse) (comps appName)).reverse := by
  unfold exeKey
  rw [resolve_Join _ _ _ (appPathOf_ne dir appName)]
  have : joinSep [appPathOf dir appName, contents, macOS, appName] =
      appPathOf dir appName ++ 47 :: (contents ++ 47 :: (macOS ++ 47 :: appName)) := by
    simp [joinSep]
  rw [this, resolve_append_sep _ _ _ (appPathOf_ne dir appName), comps_append_sep,
    comps_append_sep, walk_append, walk_append]
  have h1 : comps contents = [contents] := by decide
  have h2 : comps macOS = [macOS] := by decide
  rw [h1, h2, walk_reals [contents] _ (by decide), walk_reals [macOS] _ (by decide)]
  rfl

/-- For an application name without a separator the destination is the entry of that name
in `Contents/MacOS`, or one of the directories `Contents/MacOS` and `Contents` when the name
is empty, `.` or `..`. -/
theorem exeKey_of_no_sep (cwd : FSKey) (dir appName : List Nat) (h : ∀ x ∈ appName, x ≠ 47) :
    exeKey cwd dir appName = macKey cwd dir appName ++ [appName] ∨
    exeKey cwd dir appName = macKey cwd dir appName ∨
    exeKey cwd dir appName = contentsKey cwd dir appName := by
  rw [exeKey_eq]
  by_cases h0 : appName = []
  · subst h0
    right; left
    simp [comps_nil, walk, macKey]
  rw [comps_single appName h0 h]
  by_cases h1 : appName = [46]
  · right; left
    simp [walk, h1, macKey]
  by_cases h2 : appName = [46, 46]
  · right; right
    simp [walk, h2, contentsKey]
  · left
    simp [walk, h1, h2, macKey]

theorem prefix_two (A q : FSKey) (c1 c2 : List Nat) :
    q <+: A ++ [c1, c2] ↔ q <+: A ∨ q = A ++ [c1] ∨ q = A ++ [c1, c2] := by
  have : A ++ [c1, c2] = (A ++ [c1]) ++ [c2] := by simp
  rw [this, List.prefix_concat_iff, List.prefix_concat_iff]
  constructor
  · rintro (h | h | h)
    · right; right; simpa using h
    · right; left; exact h
    · left; exact h
  · rintro (h | h | h)
    · right; right; exact h
    · right; left; exact h
    · left; simpa using h

theorem prefix_antisymm {A q : FSKey} (h1 : A <+: q) (h2 : q <+: A) : q = A :=
  h2.eq_of_length_le h1.length_le

/-! ## The first four steps on the file system -/

theorem keys_distinct (A : FSKey) :
    A ++ [contents, macOS] ≠ A ++ [contents, resources] ∧
    A ++ [contents, bytes "Info.plist"] ≠ A ++ [contents, macOS] ∧
    A ++ [contents, bytes "Info.plist"] ≠ A ++ [contents, resources] ∧
    A ++ [contents, bytes "Info.plist"] ≠ A ++ [contents] ∧
    A ++ [contents, bytes "Info.plist"] ≠ A ∧
    A ++ [contents, macOS] ≠ A ++ [contents] ∧ A ++ [contents, macOS] ≠ A ∧
    A ++ [contents, resources] ≠ A ++ [contents] ∧ A ++ [contents, resources] ≠ A ∧
    A ++ [contents] ≠ A := by
  have h1 : macOS ≠ resources := by decide
  have h2 : bytes "Info.plist" ≠ macOS := by decide
  have h3 : bytes "Info.plist" ≠ resources := by decide
  refine ⟨?_, ?_, ?_, ?_, ?_, ?_, ?_, ?_, ?_, ?_⟩ <;> intro h
  · simp at h; exact h1 h
  · simp at h; exact h2 h
  · simp at h; exact h3 h
  · simp at h
  · simpa using congrArg List.length h
  · simp at h
  · simpa using congrArg List.length h
  · simp at h
  · simpa using congrArg List.length h
  · simpa using congrArg List.length h

/-- If the first four steps succeed, no proper ancestor of the bundle is a regular file. -/
theorem prep_ok_imp (dir appName : List Nat) (fs : FS) (h : (prep dir appName fs).1 = none) :
    ∀ q, q <+: appKey fs.cwd dir appName → q ≠ appKey fs.cwd dir appName →
      isFile (fs.nodes q) = false := by
  intro q hq hne
  unfold prep at h
  simp only [FS.RemoveAll] at h
  have hm : (FS.MkdirAll (Join [appPathOf dir appName, contents, macOS]) perm
      { fs with nodes := fun q => if (resolve fs.cwd (appPathOf dir appName)).isPrefixOf q = true
          then none else fs.nodes q }).1 = none := by
    rcases hx : FS.MkdirAll (Join [appPathOf dir appName, contents, macOS]) perm
      { fs with nodes := fun q => if (resolve fs.cwd (appPathOf dir appName)).isPrefixOf q = true
          then none else fs.nodes q } with ⟨_ | e, s2⟩
    · rfl
    · rw [hx] at h
      simp at h
  unfold FS.MkdirAll at hm
  simp only [macKey_eq] at hm
  have := ensureDirs_err _ _ _ hm q (by
    rw [List.mem_inits]
    exact hq.trans (List.prefix_append _ _))
  have hnp : (resolve fs.cwd (appPathOf dir appName)).isPrefixOf q = false := by
    rw [Bool.eq_false_iff]
    intro hp
    rw [List.isPrefixOf_iff_prefix] at hp
    exact hne (prefix_antisymm hp hq)
  simpa [hnp] using this

/-- The state after the first four steps, when no proper ancestor of the bundle is a regular
file: the bundle holds exactly its fresh skeleton, missing ancestors are created, and
nothing else changes. -/
theorem prep_of_ok (dir appName : List Nat) (fs : FS)
    (H : ∀ q, q <+: appKey fs.cwd dir appName → q ≠ appKey fs.cwd dir appName →
      isFile (fs.nodes q) = false) :
    (prep dir appName fs).1 = none ∧
    (prep dir appName fs).2.cwd = fs.cwd ∧ (prep dir appName fs).2.umask = fs.umask ∧
    (∀ q, appKey fs.cwd dir appName <+: q →
      (prep dir appName fs).2.nodes q = skeleton fs.cwd fs.umask dir appName q) ∧
    (∀ q, ¬ appKey fs.cwd dir appName <+: q → q <+: appKey fs.cwd dir appName →
      fs.nodes q = none →
      (prep dir appName fs).2.nodes q = some (Node.dir (applyUmask 0o755 fs.umask))) ∧
    (∀ q, ¬ appKey fs.cwd dir appName <+: q →
      ¬ (q <+: appKey fs.cwd dir appName ∧ fs.nodes q = none) →
      (prep dir appName fs).2.nodes q = fs.nodes q) := by
  obtain ⟨k1, k2, k3, k4, k5, k6, k7, k8, k9, k10⟩ := keys_distinct (appKey fs.cwd dir appName)
  -- the three intermediate node maps
  have hA : resolve fs.cwd (appPathOf dir appName) = appKey fs.cwd dir appName := rfl
  generalize hAdef : appKey fs.cwd dir appName = A at *
  have hM : macKey fs.cwd dir appName = A ++ [contents, macOS] := by rw [macKey, hAdef]
  have hR : resKey fs.cwd dir appName = A ++ [contents, resources] := by rw [resKey, hAdef]
  have hP : plistKey fs.cwd dir appName = A ++ [contents, bytes "Info.plist"] := by
    rw [plistKey, hAdef]
  have hC : contentsKey fs.cwd dir appName = A ++ [contents] := by rw [contentsKey, hAdef]
  obtain ⟨n1, e1⟩ : ∃ n, n = nodes1 A fs.nodes := ⟨_, rfl⟩
  obtain ⟨n2, e2⟩ : ∃ n, n = nodesMk (applyUmask 0o755 fs.umask) (A ++ [contents, macOS]) n1 :=
    ⟨_, rfl⟩
  obtain ⟨n3, e3⟩ :
      ∃ n, n = nodesMk (applyUmask 0o755 fs.umask) (A ++ [contents, resources]) n2 := ⟨_, rfl⟩
  have hn1 : ∀ q, n1 q = if A <+: q then none else fs.nodes q := by
    intro q
    simp only [e1, nodes1, List.isPrefixOf_iff_prefix]
  have hn1A : ∀ q, A <+: q → n1 q = none := fun q hq => by rw [hn1, if_pos hq]
  have hn1B : ∀ q, ¬ A <+: q → n1 q = fs.nodes q := fun q hq => by rw [hn1, if_neg hq]
  have hn2 : ∀ q, n2 q = if q <+: A ++ [contents, macOS] ∧ n1 q = none then
      some (Node.dir (applyUmask 0o755 fs.umask)) else n1 q := by
    intro q
    simp only [e2, nodesMk, List.mem_inits]
  have hn3 : ∀ q, n3 q = if q <+: A ++ [contents, resources] ∧ n2 q = none then
      some (Node.dir (applyUmask 0o755 fs.umask)) else n2 q := by
    intro q
    simp only [e3, nodesMk, List.mem_inits]
  -- no file in the way of the directories
  have hf2 : ∀ k ∈ (A ++ [contents, macOS]).inits, isFile (n1 k) = false := by
    intro k hk
    rw [List.mem_inits] at hk
    by_cases hAk : A <+: k
    · rw [hn1A k hAk]; rfl
    · rw [hn1B k hAk]
      rcases (prefix_two A k contents macOS).1 hk with h | h | h
      · exact H k h (fun e => hAk (e ▸ List.prefix_rfl))
      · exact absurd (h ▸ List.prefix_append _ _) hAk
      · exact absurd (h ▸ List.prefix_append _ _) hAk
  have hf3 : ∀ k ∈ (A ++ [contents, resources]).inits, isFile (n2 k) = false := by
    intro k hk
    rw [hn2]
    split_ifs with h
    · rfl
    · rw [List.mem_inits] at hk
      by_cases hAk : A <+: k
      · rw [hn1A k hAk]; rfl
      · rw [hn1B k hAk]
        rcases (prefix_two A k contents resources).1 hk with h | h | h
        · exact H k h (fun e => hAk (e ▸ List.prefix_rfl))
        · exact absurd (h ▸ List.prefix_append _ _) hAk
        · exact absurd (h ▸ List.prefix_append _ _) hAk
  -- the nodes below the bundle after the directories are created
  have hP1 : A <+: A ++ [contents, bytes "Info.plist"] := List.prefix_append _ _
  have hC1 : A <+: A ++ [contents] := List.prefix_append _ _
  have h3P : n3 (A ++ [contents, bytes "Info.plist"]) = none := by
    have a1 : ¬ (A ++ [contents, bytes "Info.plist"] <+: A ++ [contents, macOS]) := by
      intro h
      rcases (prefix_two A _ contents macOS).1 h with h | h | h
      · exact k5 (prefix_antisymm hP1 h)
      · exact k4 h
      · exact k2 h
    have a2 : ¬ (A ++ [contents, bytes "Info.plist"] <+: A ++ [contents, resources]) := by
      intro h
      rcases (prefix_two A _ contents resources).1 h with h | h | h
      · exact k5 (prefix_antisymm hP1 h)
      · exact k4 h
      · exact k3 h
    rw [hn3, if_neg (fun h => a2 h.1), hn2, if_neg (fun h => a1 h.1), hn1A _ hP1]
  have h3C : n3 (A ++ [contents]) = some (Node.dir (applyUmask 0o755 fs.umask)) := by
    have a1 : A ++ [contents] <+: A ++ [contents, macOS] :=
      (prefix_two A _ contents macOS).2 (Or.inr (Or.inl rfl))
    have a2 : n2 (A ++ [contents]) = some (Node.dir (applyUmask 0o755 fs.umask)) := by
      rw [hn2, if_pos ⟨a1, hn1A _ hC1⟩]
    rw [hn3, if_neg (fun h => by rw [a2] at h; simp at h), a2]
  -- run the four steps
  obtain ⟨n4, e4⟩ : ∃ n, n = setNode (setNode n3 (A ++ [contents, bytes "Info.plist"])
    (some (Node.file (applyUmask 0o644 fs.umask) []))) (A ++ [contents, bytes "Info.plist"])
    (some (Node.file (applyUmask 0o644 fs.umask) (genInfoPlist appName))) := ⟨_, rfl⟩
  have s1 : FS.RemoveAll (appPathOf dir appName) fs = (none, { fs with nodes := n1 }) := by
    simp only [FS.RemoveAll, hA, e1]
    rfl
  have s2 : FS.MkdirAll (Join [appPathOf dir appName, contents, macOS]) perm
      { fs with nodes := n1 } = (none, { fs with nodes := n2 }) := by
    simp only [FS.MkdirAll, macKey_eq, hM, perm]
    rw [ensureDirs_ok (applyUmask 0o755 fs.umask) (A ++ [contents, macOS]).inits n1 hf2, e2]
    rfl
  have s3 : FS.MkdirAll (Join [appPathOf dir appName, contents, resources]) perm
      { fs with nodes := n2 } = (none, { fs with nodes := n3 }) := by
    simp only [FS.MkdirAll, resKey_eq, hR, perm]
    rw [ensureDirs_ok (applyUmask 0o755 fs.umask) (A ++ [contents, resources]).inits n2 hf3, e3]
    rfl
  have s4 : FS.WriteFile (Join [appPathOf dir appName, contents, bytes "Info.plist"])
      (genInfoPlist appName) 0o644 { fs with nodes := n3 } = (none, { fs with nodes := n4 }) := by
    have hne : A ++ [contents, bytes "Info.plist"] ≠ [] := by simp
    have hdl : (A ++ [contents, bytes "Info.plist"]).dropLast = A ++ [contents] := by
      have : A ++ [contents, bytes "Info.plist"] = (A ++ [contents]) ++ [bytes "Info.plist"] := by
        simp
      rw [this, List.dropLast_concat]
    have hct : createTrunc n3 (A ++ [contents, bytes "Info.plist"])
        (applyUmask 0o644 fs.umask) = .ok (setNode n3 (A ++ [contents, bytes "Info.plist"])
          (some (Node.file (applyUmask 0o644 fs.umask) []))) := by
      unfold createTrunc
      rw [h3P]
      simp only [hne, if_false, hdl, h3C]
    simp only [FS.WriteFile, plistKey_eq, hP, hct, e4]
    simp [setNode]
  have hprep : prep dir appName fs = (none, { fs with nodes := n4 }) := by
    unfold prep
    rw [s1]
    simp only []
    rw [s2]
    simp only []
    rw [s3]
    simp only []
    rw [s4]
  rw [hprep]
  refine ⟨rfl, rfl, rfl, ?_, ?_, ?_⟩
  · intro q hq
    simp only [e4, setNode, skeleton, hAdef, hM, hR, hP, hC]
    by_cases hqP : q = A ++ [contents, bytes "Info.plist"]
    · subst hqP
      simp [k2, k3, k4, k5]
    · simp only [hqP, if_false]
      rw [hn3, hn2, hn1A q hq]
      by_cases c1 : q = A
      · subst c1
        simp
      by_cases c2 : q = A ++ [contents]
      · subst c2
        have : A ++ [contents] <+: A ++ [contents, macOS] :=
          (prefix_two A _ contents macOS).2 (Or.inr (Or.inl rfl))
        simp [this]
      by_cases c3 : q = A ++ [contents, macOS]
      · subst c3
        simp
      by_cases c4 : q = A ++ [contents, resources]
      · subst c4
        simp
      have a1 : ¬ q <+: A ++ [contents, macOS] := by
        intro h
        rcases (prefix_two A _ contents macOS).1 h with h | h | h
        · exact c1 (prefix_antisymm hq h)
        · exact c2 h
        · exact c3 h
      have a2 : ¬ q <+: A ++ [contents, resources] := by
        intro h
        rcases (prefix_two A _ contents resources).1 h with h | h | h
        · exact c1 (prefix_antisymm hq h)
        · exact c2 h
        · exact c4 h
      simp [a1, a2, c1, c2, c3, c4]
  · intro q hq hqA hnone
    have hqP : q ≠ A ++ [contents, bytes "Info.plist"] := fun e => hq (e ▸ hP1)
    simp only [e4, setNode, hqP, if_false]
    have a1 : q <+: A ++ [contents, macOS] := hqA.trans (List.prefix_append _ _)
    have a2 : n2 q = some (Node.dir (applyUmask 0o755 fs.umask)) := by
      rw [hn2, if_pos ⟨a1, by rw [hn1B q hq, hnone]⟩]
    rw [hn3, if_neg (fun h => by rw [a2] at h; simp at h), a2]
  · intro q hq hcond
    have hqP : q ≠ A ++ [contents, bytes "Info.plist"] := fun e => hq (e ▸ hP1)
    simp only [e4, setNode, hqP, if_false]
    have hpre : ∀ c, q <+: A ++ [contents, c] → q <+: A := by
      intro c h
      rcases (prefix_two A _ contents c).1 h with h | h | h
      · exact h
      · exact absurd (h ▸ List.prefix_append _ _) hq
      · exact absurd (h ▸ List.prefix_append _ _) hq
    have a2 : n2 q = fs.nodes q := by
      rw [hn2, if_neg, hn1B q hq]
      rintro ⟨h1, h2⟩
      rw [hn1B q hq] at h2
      exact hcond ⟨hpre _ h1, h2⟩
    rw [hn3, if_neg, a2]
    rintro ⟨h1, h2⟩
    rw [a2] at h2
    exact hcond ⟨hpre _ h1, h2⟩

/-! ## Opening the source -/

theorem lookup_ok (nodes : FSKey → Option Node) (cs st t : List (List Nat))
    (h : lookup nodes st cs = .ok t) : t = walk st cs := by
  induction cs generalizing st with
  | nil =>
    simp only [lookup, Except.ok.injEq] at h
    rw [walk, h]
  | cons c cs ih =>
    unfold lookup at h
    unfold walk
    split at h
    · simp at h
    · simp at h
    · split_ifs at h ⊢ with h1 h2
      · exact ih _ h
      · exact ih _ h
      · exact ih _ h

/-- A lookup that succeeds keeps succeeding when every directory stays a directory. -/
theorem lookup_mono (n n1 : FSKey → Option Node)
    (hd : ∀ q m, n q = some (Node.dir m) → ∃ m1, n1 q = some (Node.dir m1))
    (cs st t : List (List Nat)) (h : lookup n st cs = .ok t) : lookup n1 st cs = .ok t := by
  induction cs generalizing st with
  | nil => exact h
  | cons c cs ih =>
    unfold lookup at h ⊢
    cases hn : n st.reverse with
    | none => simp [hn] at h
    | some nd =>
      cases nd with
      | file m d => simp [hn] at h
      | dir m =>
        obtain ⟨m1, h1⟩ := hd _ _ hn
        simp only [hn] at h
        simp only [h1]
        split_ifs at h ⊢ with h2 h3
        · exact ih _ h
        · exact ih _ h
        · exact ih _ h

theorem open_state (bin : List Nat) (s : FS) : (FS.Open bin s).2 = s := by
  unfold FS.Open
  by_cases hb : bin = []
  · simp [hb]
  simp only [hb, if_false]
  cases lookup s.nodes (if isRooted bin then [] else s.cwd.reverse) (comps bin) with
  | error e => rfl
  | ok st =>
    simp only []
    cases s.nodes st.reverse with
    | none => rfl
    | some nd =>
      cases nd with
      | dir m => rfl
      | file m d =>
        simp only []
        by_cases ht : bin.getLast? = some 47
        · simp [ht]
        · simp [ht]

/-- What a successful `os.Open` found: the lookup of the elements succeeded, the node at
the path exists, and it is not a regular file named with a trailing separator. -/
theorem open_ok_imp (bin : List Nat) (s : FS) (hd : Handle)
    (h : (FS.Open bin s).1 = .ok hd) :
    bin ≠ [] ∧ hd = ⟨resolve s.cwd bin, true, false⟩ ∧
    lookup s.nodes (if isRooted bin then [] else s.cwd.reverse) (comps bin) =
      .ok (resolve s.cwd bin).reverse ∧
    (∃ nd, s.nodes (resolve s.cwd bin) = some nd) ∧
    (∀ m d, s.nodes (resolve s.cwd bin) = some (Node.file m d) → bin.getLast? ≠ some 47) := by
  unfold FS.Open at h
  by_cases hb : bin = []
  · simp [hb] at h
  simp only [hb, if_false] at h
  cases hl : lookup s.nodes (if isRooted bin then [] else s.cwd.reverse) (comps bin) with
  | error e => simp [hl] at h
  | ok st =>
    have hst := lookup_ok _ _ _ _ hl
    have hr : resolve s.cwd bin = st.reverse := by rw [resolve, hst]
    simp only [hl] at h
    rw [hr, List.reverse_reverse]
    cases hn : s.nodes st.reverse with
    | none => simp [hn] at h
    | some nd =>
      cases nd with
      | dir m =>
        simp only [hn, Except.ok.injEq] at h
        exact ⟨hb, h.symm, rfl, ⟨_, rfl⟩, fun m d hh => by simp at hh⟩
      | file m d =>
        simp only [hn] at h
        by_cases ht : bin.getLast? = some 47
        · simp [ht] at h
        · simp only [ht, if_false, Except.ok.injEq] at h
          exact ⟨hb, h.symm, rfl, ⟨_, rfl⟩, fun _ _ _ => ht⟩

/-- When `os.Open` succeeds. -/
theorem open_of (bin : List Nat) (s : FS) (hb : bin ≠ [])
    (hl : lookup s.nodes (if isRooted bin then [] else s.cwd.reverse) (comps bin) =
      .ok (resolve s.cwd bin).reverse)
    (nd : Node) (hn : s.nodes (resolve s.cwd bin) = some nd)
    (ht : ∀ m d, nd = Node.file m d → bin.getLast? ≠ some 47) :
    (FS.Open bin s).1 = .ok ⟨resolve s.cwd bin, true, false⟩ := by
  unfold FS.Open
  simp only [hb, if_false, hl, List.reverse_reverse, hn]
  cases nd with
  | dir m => rfl
  | file m d => simp [ht m d rfl]

/-- When nothing exists at the path, `os.Open` fails. -/
theorem open_missing (bin : List Nat) (s : FS) (h : s.nodes (resolve s.cwd bin) = none) :
    ∃ e, (FS.Open bin s).1 = .error e := by
  cases ho : (FS.Open bin s).1 with
  | error e => exact ⟨e, rfl⟩
  | ok hd =>
    obtain ⟨_, _, _, ⟨nd, hn⟩, _⟩ := open_ok_imp bin s hd ho
    rw [h] at hn
    simp at hn

/-! ## The last four steps on the file system -/

/-- When nothing exists at the source path, `os.Open` fails and nothing else is done. -/
theorem install_missing (dir appName bin : List Nat) (s : FS)
    (h : s.nodes (resolve s.cwd bin) = none) :
    ∃ e, install dir appName bin s = (some e, s) := by
  obtain ⟨e, he⟩ := open_missing bin s h
  have hopen : FS.Open bin s = (.error e, s) := Prod.ext he (open_state bin s)
  refine ⟨e, ?_⟩
  unfold install
  rw [hopen]

theorem setNode_setNode (n : FSKey → Option Node) (k : FSKey) (v v1 : Option Node) :
    setNode (setNode n k v) k v1 = setNode n k v1 := by
  funext q
  by_cases h : q = k <;> simp [setNode, h]

/-- When the source is a regular file and the destination can be created or truncated, the
last four steps succeed and change only the destination: it keeps its mode if it existed
and gets the content the source has after the truncation. -/
theorem install_of_ok (dir appName bin : List Nat) (s : FS)
    (hO : (FS.Open bin s).1 = .ok ⟨resolve s.cwd bin, true, false⟩)
    (mb : Nat) (db : List Nat) (hB : s.nodes (resolve s.cwd bin) = some (Node.file mb db))
    (mE : Nat) (hE : CanCreate s (exeKey s.cwd dir appName) mE) :
    install dir appName bin s = (none, s.put (exeKey s.cwd dir appName)
      (some (Node.file mE (if resolve s.cwd bin = exeKey s.cwd dir appName then [] else db)))) := by
  have hopen : FS.Open bin s = (.ok ⟨resolve s.cwd bin, true, false⟩, s) :=
    Prod.ext hO (open_state bin s)
  have hfile : FS.OpenFile (Join [appPathOf dir appName, contents, macOS, appName])
      [OpenFlag.O_WRONLY, OpenFlag.O_CREATE, OpenFlag.O_TRUNC] perm s =
      (.ok ⟨exeKey s.cwd dir appName, false, true⟩,
        s.put (exeKey s.cwd dir appName) (some (Node.file mE []))) := by
    unfold FS.OpenFile
    have hk : resolve s.cwd (Join [appPathOf dir appName, contents, macOS, appName]) =
        exeKey s.cwd dir appName := rfl
    simp only [hk]
    rcases hE with ⟨d, h⟩ | ⟨h1, h2, ⟨m, h3⟩, h4⟩
    · rw [h]
      simp [FS.put]
    · rw [h1]
      simp only [List.mem_cons, List.mem_singleton, or_true, true_or, if_true, createTrunc, h1,
        h2, if_false, h3, perm, h4]
      simp [FS.put]
  unfold install
  rw [hopen]
  simp only []
  rw [hfile]
  simp only []
  by_cases hBE : resolve s.cwd bin = exeKey s.cwd dir appName
  · simp [FS.Copy, FS.Sync, FS.Close, FS.put, setNode, hBE, setNode_setNode]
  · simp [FS.Copy, FS.Sync, FS.Close, FS.put, setNode, hBE, hB, setNode_setNode]

/-- If the last four steps succeed, the source was a regular file and the destination could
be created or truncated. -/
theorem install_ok_imp (dir appName bin : List Nat) (s : FS)
    (h : (install dir appName bin s).1 = none) :
    (FS.Open bin s).1 = .ok ⟨resolve s.cwd bin, true, false⟩ ∧
    (∃ mb db, s.nodes (resolve s.cwd bin) = some (Node.file mb db)) ∧
    ∃ mE, CanCreate s (exeKey s.cwd dir appName) mE := by
  have hk : resolve s.cwd (Join [appPathOf dir appName, contents, macOS, appName]) =
      exeKey s.cwd dir appName := rfl
  unfold install at h
  cases ho : (FS.Open bin s).1 with
  | error e =>
    have hopen : FS.Open bin s = (.error e, s) := Prod.ext ho (open_state bin s)
    rw [hopen] at h
    simp at h
  | ok hd =>
  obtain ⟨_, hhd, _, _, _⟩ := open_ok_imp bin s hd ho
  subst hhd
  have hopen : FS.Open bin s = (.ok ⟨resolve s.cwd bin, true, false⟩, s) :=
    Prod.ext ho (open_state bin s)
  rw [hopen] at h
  simp only [] at h
  refine ⟨rfl, ?_⟩
  cases hB : s.nodes (resolve s.cwd bin) with
  | none =>
    obtain ⟨_, _, _, ⟨nd, hn⟩, _⟩ := open_ok_imp bin s _ ho
    rw [hB] at hn
    simp at hn
  | some nb =>
    cases hE : s.nodes (exeKey s.cwd dir appName) with
    | none =>
      simp only [FS.OpenFile, hk, hE, List.mem_cons, List.mem_singleton, or_true, true_or,
        if_true, createTrunc] at h
      by_cases hnil : exeKey s.cwd dir appName = []
      · simp [hnil] at h
      simp only [hnil, if_false] at h
      cases hpar : s.nodes (exeKey s.cwd dir appName).dropLast with
      | none => simp [hpar] at h
      | some np =>
        cases np with
        | file m d => simp [hpar] at h
        | dir m =>
          simp only [hpar] at h
          cases nb with
          | dir mb =>
            have hne : resolve s.cwd bin ≠ exeKey s.cwd dir appName := by
              intro e
              rw [e, hE] at hB
              simp at hB
            simp [FS.Copy, setNode, hne, hB] at h
          | file mb db =>
            exact ⟨⟨mb, db, rfl⟩, applyUmask 0o755 s.umask,
              Or.inr ⟨hE, hnil, ⟨m, hpar⟩, rfl⟩⟩
    | some ne =>
      cases ne with
      | dir m => simp [FS.OpenFile, hk, hE] at h
      | file mE d =>
        simp only [FS.OpenFile, hk, hE, List.mem_cons, List.mem_singleton, or_true, true_or,
          decide_True, and_self, if_true] at h
        cases nb with
        | dir mb =>
          have hne : resolve s.cwd bin ≠ exeKey s.cwd dir appName := by
            intro e
            rw [e, hE] at hB
            simp at hB
          simp [FS.Copy, setNode, hne, hB] at h
        | file mb db =>
          exact ⟨⟨mb, db, rfl⟩, mE, Or.inl ⟨d, hE⟩⟩

/-! ## Successful runs on the file system -/

theorem isFile_false_cases (v : Option Node) (h : isFile v = false) :
    v = none ∨ ∃ m, v = some (Node.dir m) := by
  cases v with
  | none => exact Or.inl rfl
  | some n =>
    cases n with
    | dir m => exact Or.inr ⟨m, rfl⟩
    | file m d => simp [isFile] at h

/-- After the first four steps every proper ancestor of the bundle is a directory. -/
theorem prep_ancestors (dir appName : List Nat) (fs : FS)
    (H : ∀ q, q <+: appKey fs.cwd dir appName → q ≠ appKey fs.cwd dir appName →
      isFile (fs.nodes q) = false) :
    ∀ q, q <+: appKey fs.cwd dir appName → q ≠ appKey fs.cwd dir appName →
      ∃ m, (prep dir appName fs).2.nodes q = some (Node.dir m) := by
  intro q hq hne
  obtain ⟨_, _, _, _, h5, h6⟩ := prep_of_ok dir appName fs H
  have hnp : ¬ appKey fs.cwd dir appName <+: q := fun hp => hne (prefix_antisymm hp hq)
  rcases isFile_false_cases _ (H q hq hne) with h | ⟨m, h⟩
  · exact ⟨_, h5 q hnp hq h⟩
  · refine ⟨m, ?_⟩
    rw [h6 q hnp (fun hh => by rw [h] at hh; simp at hh), h]

/-- A successful run: the first four steps succeed, the source is a regular file when it is
opened, the destination can be created or truncated, and the final state is the prepared
state with the destination written. -/
theorem run_ok (dir appName bin : List Nat) (fs : FS)
    (h : (run posix dir appName bin fs).1 = none) :
    (prep dir appName fs).1 = none ∧
    (FS.Open bin (prep dir appName fs).2).1 = .ok ⟨resolve fs.cwd bin, true, false⟩ ∧
    ∃ mb db mE,
      (prep dir appName fs).2.nodes (resolve fs.cwd bin) = some (Node.file mb db) ∧
      CanCreate (prep dir appName fs).2 (exeKey fs.cwd dir appName) mE ∧
      run posix dir appName bin fs = (none, (prep dir appName fs).2.put (exeKey fs.cwd dir appName)
        (some (Node.file mE
          (if resolve fs.cwd bin = exeKey fs.cwd dir appName then [] else db)))) := by
  rw [run_posix] at h ⊢
  rcases hp : prep dir appName fs with ⟨_ | e, s4⟩
  swap
  · rw [hp] at h
    simp at h
  rw [hp] at h
  simp only [] at h ⊢
  have hp1 : (prep dir appName fs).1 = none := by rw [hp]
  have hcwd : s4.cwd = fs.cwd := by
    have := (prep_of_ok dir appName fs (prep_ok_imp dir appName fs hp1)).2.1
    rw [hp] at this
    exact this
  obtain ⟨hO, ⟨mb, db, hB⟩, mE, hE⟩ := install_ok_imp dir appName bin s4 h
  have := install_of_ok dir appName bin s4 hO mb db hB mE hE
  rw [hcwd] at hB hE hO this
  exact ⟨trivial, hO, mb, db, mE, hB, hE, this⟩

/-- A run from a state in which the first four steps succeed, the source is a regular file
and the destination can be created, succeeds. -/
theorem run_of_ok (dir appName bin : List Nat) (fs : FS)
    (H : ∀ q, q <+: appKey fs.cwd dir appName → q ≠ appKey fs.cwd dir appName →
      isFile (fs.nodes q) = false)
    (hO : (FS.Open bin (prep dir appName fs).2).1 = .ok ⟨resolve fs.cwd bin, true, false⟩)
    (mb : Nat) (db : List Nat)
    (hB : (prep dir appName fs).2.nodes (resolve fs.cwd bin) = some (Node.file mb db))
    (mE : Nat) (hE : CanCreate (prep dir appName fs).2 (exeKey fs.cwd dir appName) mE) :
    run posix dir appName bin fs = (none, (prep dir appName fs).2.put (exeKey fs.cwd dir appName)
      (some (Node.file mE
        (if resolve fs.cwd bin = exeKey fs.cwd dir appName then [] else db)))) := by
  obtain ⟨h1, h2, _⟩ := prep_of_ok dir appName fs H
  rw [run_posix]
  rcases hp : prep dir appName fs with ⟨_ | e, s4⟩
  swap
  · rw [hp] at h1
    simp at h1
  rw [hp] at h2 hB hE hO
  simp only [] at h2 hB hE hO ⊢
  rw [← h2] at hB hE hO ⊢
  exact install_of_ok dir appName bin s4 hO mb db hB mE hE

/-! ## Running twice -/

theorem put_nodes (s : FS) (k : FSKey) (v : Option Node) (q : FSKey) :
    (s.put k v).nodes q = if q = k then v else s.nodes q := rfl

theorem prefix_dropLast {A E : FSKey} (h : A <+: E) (hne : E ≠ A) : A <+: E.dropLast := by
  obtain ⟨t, rfl⟩ := h
  have ht : t ≠ [] := by
    intro e
    subst e
    simp at hne
  rw [List.dropLast_append_of_ne_nil _ ht]
  exact List.prefix_append _ _

theorem skeleton_eq_of_ne_none (cwd : FSKey) (umask : Nat) (dir appName : List Nat) (q : FSKey)
    (h : skeleton cwd umask dir appName q ≠ none) :
    q ∈ [appKey cwd dir appName, contentsKey cwd dir appName, macKey cwd dir appName,
      resKey cwd dir appName, plistKey cwd dir appName] := by
  unfold skeleton at h
  split_ifs at h with h1 h2
  · rcases h1 with h1 | h1 | h1 | h1 <;> simp [h1]
  · simp [h2]
  · exact absurd rfl h

/-- The second of two runs with the same arguments. -/
theorem run_twice (fs : FS) (dir appName bin : List Nat)
    (h : (run posix dir appName bin fs).1 = none) :
    (run posix dir appName bin (run posix dir appName bin fs).2).1 = none ∧
    (∀ q, appKey fs.cwd dir appName <+: q →
      (run posix dir appName bin (run posix dir appName bin fs).2).2.nodes q =
        (run posix dir appName bin fs).2.nodes q) ∧
    (∀ q, appKey fs.cwd dir appName <+: q → (run posix dir appName bin fs).2.nodes q ≠ none →
      q ∈ [appKey fs.cwd dir appName, contentsKey fs.cwd dir appName, macKey fs.cwd dir appName,
        resKey fs.cwd dir appName, plistKey fs.cwd dir appName] ∨
      q = exeKey fs.cwd dir appName) := by
  obtain ⟨hp, hO, mb, db, mE, hB, hE, hrun⟩ := run_ok dir appName bin fs h
  have H := prep_ok_imp dir appName fs hp
  obtain ⟨_, hcwd, humask, hsk, hanc1, hanc2⟩ := prep_of_ok dir appName fs H
  -- what the open of the source found
  have hopen : bin ≠ [] ∧
      lookup (prep dir appName fs).2.nodes (if isRooted bin then [] else fs.cwd.reverse)
        (comps bin) = .ok (resolve fs.cwd bin).reverse ∧
      (∀ m d, (prep dir appName fs).2.nodes (resolve fs.cwd bin) = some (Node.file m d) →
        bin.getLast? ≠ some 47) := by
    obtain ⟨o1, _, o3, _, o5⟩ := open_ok_imp bin (prep dir appName fs).2 _ hO
    rw [hcwd] at o3 o5
    exact ⟨o1, o3, o5⟩
  obtain ⟨hb, hl, htr⟩ := hopen
  clear hO
  have hdirs := prep_ancestors dir appName fs H
  rw [hrun]
  simp only []
  generalize hA : appKey fs.cwd dir appName = A at *
  generalize hEk : exeKey fs.cwd dir appName = E at *
  generalize hBk : resolve fs.cwd bin = B at *
  generalize hs4 : (prep dir appName fs).2 = s4 at *
  generalize hd1 : (if B = E then [] else db) = d1 at *
  -- the state after the first run
  have c1 : (s4.put E (some (Node.file mE d1))).cwd = fs.cwd := hcwd
  have u1 : (s4.put E (some (Node.file mE d1))).umask = fs.umask := humask
  -- the destination is not an ancestor of the bundle
  have hEanc : ∀ m, s4.nodes E ≠ some (Node.dir m) := by
    intro m hm
    rcases hE with ⟨d, hd⟩ | ⟨hn, _⟩
    · rw [hd] at hm; simp at hm
    · rw [hn] at hm; simp at hm
  have H1 : ∀ q, q <+: appKey (s4.put E (some (Node.file mE d1))).cwd dir appName →
      q ≠ appKey (s4.put E (some (Node.file mE d1))).cwd dir appName →
      isFile ((s4.put E (some (Node.file mE d1))).nodes q) = false := by
    rw [c1, hA]
    intro q hq hne
    obtain ⟨m, hm⟩ := hdirs q hq hne
    have hqE : q ≠ E := fun e => hEanc m (e ▸ hm)
    rw [put_nodes, if_neg hqE, hm]
    rfl
  obtain ⟨_, hcwd2, humask2, hsk2, hanc3, hanc4⟩ :=
    prep_of_ok dir appName (s4.put E (some (Node.file mE d1))) H1
  rw [c1] at hsk2 hanc3 hanc4
  rw [u1] at hsk2 hanc3
  rw [hA] at hsk2 hanc3 hanc4
  generalize ht4 : (prep dir appName (s4.put E (some (Node.file mE d1)))).2 = t4 at *
  -- the source in the second run
  have hB2 : ∃ db2, t4.nodes B = some (Node.file (if B = E then mE else mb) db2) ∧
      (B ≠ E → db2 = db) := by
    by_cases hAB : A <+: B
    · by_cases hBE : B = E
      · subst hBE
        refine ⟨db, ?_, fun _ => rfl⟩
        rw [hsk2 B hAB, ← hsk B hAB, hB]
        rcases hE with ⟨d, hd⟩ | ⟨hn, _⟩
        · rw [hB] at hd
          simp only [Option.some.injEq, Node.file.injEq] at hd
          simp [hd.1]
        · rw [hB] at hn; simp at hn
      · refine ⟨db, ?_, fun _ => rfl⟩
        rw [hsk2 B hAB, ← hsk B hAB, hB, if_neg hBE]
    · by_cases hBE : B = E
      · subst hBE
        refine ⟨d1, ?_, fun hh => absurd rfl hh⟩
        rw [hanc4 B hAB (by rw [put_nodes, if_pos rfl]; simp), put_nodes, if_pos rfl, if_pos rfl]
      · refine ⟨db, ?_, fun _ => rfl⟩
        rw [hanc4 B hAB (by rw [put_nodes, if_neg hBE, hB]; simp), put_nodes, if_neg hBE, hB,
          if_neg hBE]
  obtain ⟨db2, hB2, hdb2⟩ := hB2
  -- the destination in the second run
  have hE2 : CanCreate t4 E mE := by
    by_cases hAE : A <+: E
    · have hEA : E ≠ A := by
        intro e
        have := hsk A List.prefix_rfl
        rw [e] at hEanc
        rw [skeleton, if_pos (Or.inl hA.symm)] at this
        exact hEanc _ this
      rcases hE with ⟨d, hd⟩ | ⟨hn, hne, ⟨m, hm⟩, hmE⟩
      · exact Or.inl ⟨d, by rw [hsk2 E hAE, ← hsk E hAE, hd]⟩
      · refine Or.inr ⟨by rw [hsk2 E hAE, ← hsk E hAE, hn], hne, ⟨m, ?_⟩, ?_⟩
        · have hpd := prefix_dropLast hAE hEA
          rw [hsk2 _ hpd, ← hsk _ hpd, hm]
        · rw [hmE, humask2]
          rfl
    · exact Or.inl ⟨d1, by
        rw [hanc4 E hAE (by rw [put_nodes, if_pos rfl]; simp), put_nodes, if_pos rfl]⟩
  -- the open of the source in the second run
  have hdirs2 : ∀ q m, s4.nodes q = some (Node.dir m) → ∃ m1, t4.nodes q = some (Node.dir m1) := by
    intro q m hq
    have hqE : q ≠ E := fun e => hEanc m (e ▸ hq)
    by_cases hAq : A <+: q
    · exact ⟨m, by rw [hsk2 q hAq, ← hsk q hAq, hq]⟩
    · refine ⟨m, ?_⟩
      rw [hanc4 q hAq (by rw [put_nodes, if_neg hqE, hq]; simp), put_nodes, if_neg hqE, hq]
  have hc2 : t4.cwd = fs.cwd := by rw [hcwd2, c1]
  have hO2 : (FS.Open bin t4).1 = .ok ⟨B, true, false⟩ := by
    have := open_of bin t4 hb
      (by rw [hc2, hBk]; exact lookup_mono _ _ hdirs2 _ _ _ hl) _
      (by rw [hc2, hBk]; exact hB2) (fun m d _ => htr mb db hB)
    rwa [hc2, hBk] at this
  have hrun2 := run_of_ok dir appName bin (s4.put E (some (Node.file mE d1))) H1
    (by rw [c1, hBk, ht4]; exact hO2)
    (if B = E then mE else mb) db2 (by rw [c1, hBk, ht4]; exact hB2) mE
    (by rw [c1, hEk, ht4]; exact hE2)
  rw [c1, hEk, hBk, ht4] at hrun2
  rw [hrun2]
  have hd2 : (if B = E then [] else db2) = d1 := by
    rw [← hd1]
    by_cases hBE : B = E
    · simp [hBE]
    · simp [hBE, hdb2 hBE]
  rw [hd2]
  refine ⟨rfl, ?_, ?_⟩
  · intro q hq
    simp only [put_nodes]
    by_cases hqE : q = E
    · simp [hqE]
    · simp only [hqE, if_false]
      rw [hsk2 q hq, hsk q hq]
  · intro q hq hne
    by_cases hqE : q = E
    · exact Or.inr hqE
    · left
      rw [put_nodes, if_neg hqE, hsk q hq] at hne
      have := skeleton_eq_of_ne_none _ _ _ _ _ hne
      rw [hA] at this
      exact this

/-! ## The state in which the source is opened -/

/-- When the first four steps succeed, `os.Open` is called on the source path in the state
they leave. -/
theorem open_event (dir appName bin : List Nat) (fs : FS)
    (h : (prep dir appName fs).1 = none) :
    ∃ ev ∈ runLog posix dir appName bin fs,
      ev.call = Call.Open bin ∧ ev.pre = (prep dir appName fs).2 := by
  unfold runLog
  simp only [run, traced, prep, posix, appPathOf, genInfoPlist, perm] at h ⊢
  rcases h1 : FS.RemoveAll (Join [dir, appName ++ ext]) fs with ⟨_ | e1, s1⟩
  swap
  · rw [h1] at h
    simp at h
  rw [h1] at h
  simp only [] at h ⊢
  rcases h2 : FS.MkdirAll (Join [Join [dir, appName ++ ext], contents, macOS]) 493 s1
    with ⟨_ | e2, s2⟩
  swap
  · rw [h2] at h
    simp at h
  rw [h2] at h
  simp only [] at h ⊢
  rcases h3 : FS.MkdirAll (Join [Join [dir, appName ++ ext], contents, resources]) 493 s2
    with ⟨_ | e3, s3⟩
  swap
  · rw [h3] at h
    simp at h
  rw [h3] at h
  simp only [] at h ⊢
  rcases h4 : FS.WriteFile (Join [Join [dir, appName ++ ext], contents, bytes "Info.plist"])
    (Replace infoPlist placeholder (escapeXML appName)) 420 s3 with ⟨_ | e4, s4⟩
  swap
  · rw [h4] at h
    simp at h
  simp only []
  rcases h5 : FS.Open bin s4 with ⟨e5 | fin, s5⟩
  · simp
  simp only []
  rcases h6 : FS.OpenFile (Join [Join [dir, appName ++ ext], contents, macOS, appName])
    [OpenFlag.O_WRONLY, OpenFlag.O_CREATE, OpenFlag.O_TRUNC] 493 s5 with ⟨e6 | out, s6⟩
  · simp
  simp only []
  rcases h7 : FS.Copy out fin s6 with ⟨_ | e7, s7⟩
  swap
  · simp
  simp only []
  rcases h8 : FS.Sync out s7 with ⟨_ | e8, s8⟩
  · simp
  · simp

/-! ## Modes and keys after a run -/

theorem log_kind_mem_plan {σ H : Type} (os : OS σ H) (dir appName bin : List Nat) (s : σ) :
    ∀ ev ∈ runLog os dir appName bin s,
      ev.call.kind = Kind.Close ∨ ev.call.kind ∈ plan dir appName bin := by
  intro ev hev
  by_cases hc : ev.call.kind = Kind.Close
  · exact Or.inl hc
  · right
    have hmem : ev ∈ stepEvents (runLog os dir appName bin s) := by
      unfold stepEvents
      rw [List.mem_filter]
      exact ⟨hev, by simpa using hc⟩
    have h6 := (run_traced_cases os dir appName bin s).2.2.2.2.2.1
    have : ev.call.kind ∈ (stepEvents (runLog os dir appName bin s)).map (fun e => e.call.kind) :=
      List.mem_map.2 ⟨ev, hmem, rfl⟩
    rw [h6] at this
    exact List.mem_of_mem_take this

theorem skeleton_dirs (cwd : FSKey) (umask : Nat) (dir appName : List Nat) :
    skeleton cwd umask dir appName (appKey cwd dir appName) =
      some (Node.dir (applyUmask 0o755 umask)) ∧
    skeleton cwd umask dir appName (contentsKey cwd dir appName) =
      some (Node.dir (applyUmask 0o755 umask)) ∧
    skeleton cwd umask dir appName (macKey cwd dir appName) =
      some (Node.dir (applyUmask 0o755 umask)) ∧
    skeleton cwd umask dir appName (resKey cwd dir appName) =
      some (Node.dir (applyUmask 0o755 umask)) ∧
    skeleton cwd umask dir appName (plistKey cwd dir appName) =
      some (Node.file (applyUmask 0o644 umask) (genInfoPlist appName)) := by
  obtain ⟨k1, k2, k3, k4, k5, k6, k7, k8, k9, k10⟩ := keys_distinct (appKey cwd dir appName)
  refine ⟨?_, ?_, ?_, ?_, ?_⟩
  · simp [skeleton]
  · simp [skeleton]
  · simp [skeleton]
  · simp [skeleton]
  · simp only [skeleton, plistKey, contentsKey, macKey, resKey]
    rw [if_neg]
    · exact if_pos trivial
    rintro (h | h | h | h)
    · exact k5 h
    · exact k4 h
    · exact k2 h
    · exact k3 h

theorem skeleton_none_below (cwd : FSKey) (umask : Nat) (dir appName x : List Nat) :
    skeleton cwd umask dir appName (macKey cwd dir appName ++ [x]) = none := by
  have hl : ∀ q : FSKey, q.length ≤ (appKey cwd dir appName).length + 2 →
      macKey cwd dir appName ++ [x] ≠ q := by
    intro q hq e
    have := congrArg List.length e
    simp [macKey] at this
    omega
  simp only [skeleton]
  rw [if_neg, if_neg]
  · exact hl _ (by simp [plistKey])
  · rintro (h | h | h | h)
    · exact hl _ (by simp) h
    · exact hl _ (by simp [contentsKey]) h
    · exact hl _ (by simp [macKey]) h
    · exact hl _ (by simp [resKey]) h

theorem prefix_appKey (cwd : FSKey) (dir appName : List Nat) :
    appKey cwd dir appName <+: contentsKey cwd dir appName ∧
    appKey cwd dir appName <+: macKey cwd dir appName ∧
    appKey cwd dir appName <+: resKey cwd dir appName ∧
    appKey cwd dir appName <+: plistKey cwd dir appName ∧
    ∀ x, appKey cwd dir appName <+: macKey cwd dir appName ++ [x] := by
  refine ⟨List.prefix_append _ _, List.prefix_append _ _, List.prefix_append _ _,
    List.prefix_append _ _, fun x => ?_⟩
  unfold macKey
  rw [List.append_assoc]
  exact List.prefix_append _ _

/-- In the prepared state, a destination that can be created or truncated is none of the
directories of the bundle; for an application name without a separator it is the entry of
that name in `Contents/MacOS`, which does not exist yet. -/
theorem dest_of_canCreate (dir appName : List Nat) (fs : FS)
    (H : ∀ q, q <+: appKey fs.cwd dir appName → q ≠ appKey fs.cwd dir appName →
      isFile (fs.nodes q) = false) (mE : Nat)
    (hE : CanCreate (prep dir appName fs).2 (exeKey fs.cwd dir appName) mE) :
    (∀ q m, (prep dir appName fs).2.nodes q = some (Node.dir m) → q ≠ exeKey fs.cwd dir appName) ∧
    ((∀ x ∈ appName, x ≠ 47) →
      exeKey fs.cwd dir appName = macKey fs.cwd dir appName ++ [appName] ∧
      (prep dir appName fs).2.nodes (exeKey fs.cwd dir appName) = none ∧
      mE = applyUmask 0o755 fs.umask) := by
  obtain ⟨_, hcwd, humask, hsk, _, _⟩ := prep_of_ok dir appName fs H
  obtain ⟨p1, p2, p3, p4, p5⟩ := prefix_appKey fs.cwd dir appName
  obtain ⟨d1, d2, d3, d4, d5⟩ := skeleton_dirs fs.cwd fs.umask dir appName
  have hnd : ∀ q m, (prep dir appName fs).2.nodes q = some (Node.dir m) →
      q ≠ exeKey fs.cwd dir appName := by
    intro q m hq e
    rw [e] at hq
    rcases hE with ⟨d, hd⟩ | ⟨hn, _⟩
    · rw [hd] at hq; simp at hq
    · rw [hn] at hq; simp at hq
  refine ⟨hnd, fun hsep => ?_⟩
  have hEk : exeKey fs.cwd dir appName = macKey fs.cwd dir appName ++ [appName] := by
    rcases exeKey_of_no_sep fs.cwd dir appName hsep with h | h | h
    · exact h
    · exact absurd h.symm (hnd _ _ (by rw [hsk _ p2, d3]))
    · exact absurd h.symm (hnd _ _ (by rw [hsk _ p1, d2]))
  have hnone : (prep dir appName fs).2.nodes (exeKey fs.cwd dir appName) = none := by
    rw [hEk, hsk _ (p5 appName), skeleton_none_below]
  refine ⟨hEk, hnone, ?_⟩
  rcases hE with ⟨d, hd⟩ | ⟨_, _, _, hm⟩
  · rw [hnone] at hd; simp at hd
  · rw [hm, humask]

/-! ## The state a run leaves -/

/-- The state that the first four steps leave when they succeed: the four directories of
the bundle and `Info.plist`, with the modes the mask leaves. -/
theorem prep_state (dir appName : List Nat) (fs : FS) (h : (prep dir appName fs).1 = none) :
    (prep dir appName fs).2.nodes (appKey fs.cwd dir appName) =
      some (Node.dir (applyUmask 0o755 fs.umask)) ∧
    (prep dir appName fs).2.nodes (contentsKey fs.cwd dir appName) =
      some (Node.dir (applyUmask 0o755 fs.umask)) ∧
    (prep dir appName fs).2.nodes (macKey fs.cwd dir appName) =
      some (Node.dir (applyUmask 0o755 fs.umask)) ∧
    (prep dir appName fs).2.nodes (resKey fs.cwd dir appName) =
      some (Node.dir (applyUmask 0o755 fs.umask)) ∧
    (prep dir appName fs).2.nodes (plistKey fs.cwd dir appName) =
      some (Node.file (applyUmask 0o644 fs.umask) (genInfoPlist appName)) ∧
    (∀ x, (prep dir appName fs).2.nodes (macKey fs.cwd dir appName ++ [x]) = none) ∧
    (∀ q, q <+: appKey fs.cwd dir appName → fs.nodes q = none →
      (prep dir appName fs).2.nodes q = some (Node.dir (applyUmask 0o755 fs.umask))) := by
  have H := prep_ok_imp dir appName fs h
  obtain ⟨_, _, _, hsk, hanc, _⟩ := prep_of_ok dir appName fs H
  obtain ⟨p1, p2, p3, p4, p5⟩ := prefix_appKey fs.cwd dir appName
  obtain ⟨d1, d2, d3, d4, d5⟩ := skeleton_dirs fs.cwd fs.umask dir appName
  refine ⟨?_, ?_, ?_, ?_, ?_, ?_, ?_⟩
  · rw [hsk _ (List.prefix_refl _), d1]
  · rw [hsk _ p1, d2]
  · rw [hsk _ p2, d3]
  · rw [hsk _ p3, d4]
  · rw [hsk _ p4, d5]
  · intro x
    rw [hsk _ (p5 x), skeleton_none_below]
  · intro q hq hn
    by_cases hA : appKey fs.cwd dir appName <+: q
    · rw [prefix_antisymm hA hq, hsk _ (List.prefix_refl _), d1]
    · exact hanc q hA hq hn

/-- The state that a successful run leaves: the prepared state with the destination
written; the directories are untouched by the last four steps, and for an application name
without a separator the destination is the new entry of that name in `Contents/MacOS`,
created with the mode `0755` less the mask and holding the bytes of the source. -/
theorem run_state (dir appName bin : List Nat) (fs : FS)
    (h : (run posix dir appName bin fs).1 = none) :
    (∀ q m, (prep dir appName fs).2.nodes q = some (Node.dir m) →
      (run posix dir appName bin fs).2.nodes q = some (Node.dir m)) ∧
    (∃ d, (run posix dir appName bin fs).2.nodes (plistKey fs.cwd dir appName) =
      some (Node.file (applyUmask 0o644 fs.umask) d)) ∧
    (∃ mb db mE, (prep dir appName fs).2.nodes (resolve fs.cwd bin) = some (Node.file mb db) ∧
      (run posix dir appName bin fs).2.nodes (exeKey fs.cwd dir appName) =
        some (Node.file mE (if resolve fs.cwd bin = exeKey fs.cwd dir appName then [] else db)) ∧
      ((∀ x ∈ appName, x ≠ 47) →
        exeKey fs.cwd dir appName = macKey fs.cwd dir appName ++ [appName] ∧
        resolve fs.cwd bin ≠ exeKey fs.cwd dir appName ∧
        mE = applyUmask 0o755 fs.umask)) := by
  obtain ⟨hp, hb, mb, db, mE, hB, hE, hrun⟩ := run_ok dir appName bin fs h
  have H := prep_ok_imp dir appName fs hp
  obtain ⟨hnd, hsep⟩ := dest_of_canCreate dir appName fs H mE hE
  obtain ⟨_, _, _, _, s5, _, _⟩ := prep_state dir appName fs hp
  rw [hrun]
  simp only [put_nodes]
  refine ⟨?_, ?_, ?_⟩
  · intro q m hq
    rw [if_neg (hnd q m hq), hq]
  · by_cases hPE : plistKey fs.cwd dir appName = exeKey fs.cwd dir appName
    · rw [if_pos hPE]
      rcases hE with ⟨d, hd⟩ | ⟨hn, _⟩
      · rw [← hPE, s5] at hd
        simp only [Option.some.injEq, Node.file.injEq] at hd
        rw [← hd.1]
        exact ⟨_, rfl⟩
      · rw [← hPE, s5] at hn
        simp at hn
    · rw [if_neg hPE, s5]
      exact ⟨_, rfl⟩
  · refine ⟨mb, db, mE, hB, if_pos trivial, fun hs => ?_⟩
    obtain ⟨e1, e2, e3⟩ := hsep hs
    refine ⟨e1, ?_, e3⟩
    intro e
    rw [e, e2] at hB
    simp at hB

/-- A run whose first four steps succeed and that finds nothing at the source path stops at
the open of the source with its error, in the state the first four steps leave. -/
theorem run_missing (dir appName bin : List Nat) (fs : FS)
    (hp : (prep dir appName fs).1 = none)
    (hB : (prep dir appName fs).2.nodes (resolve fs.cwd bin) = none) :
    ∃ e, run posix dir appName bin fs = (some e, (prep dir appName fs).2) := by
  have hcwd := (prep_of_ok dir appName fs (prep_ok_imp dir appName fs hp)).2.1
  rw [run_posix]
  rcases hq : prep dir appName fs with ⟨_ | e, s4⟩
  · rw [hq] at hcwd hB
    simp only [] at hcwd hB ⊢
    rw [← hcwd] at hB
    exact install_missing dir appName bin s4 hB
  · rw [hq] at hp
    simp at hp

/-- In the state the first four steps leave, the destination of an application name without
a separator is not a regular file. -/
theorem prep_no_exe (dir appName : List Nat) (fs : FS)
    (hp : (prep dir appName fs).1 = none) (hs : ∀ x ∈ appName, x ≠ 47) :
    isFile ((prep dir appName fs).2.nodes (exeKey fs.cwd dir appName)) = false ∧
    (prep dir appName fs).2.nodes (macKey fs.cwd dir appName ++ [appName]) = none := by
  obtain ⟨_, s2, s3, _, _, s6, _⟩ := prep_state dir appName fs hp
  refine ⟨?_, s6 appName⟩
  rcases exeKey_of_no_sep fs.cwd dir appName hs with h | h | h
  · rw [h, s6]
    rfl
  · rw [h, s3]
    rfl
  · rw [h, s2]
    rfl

/-! ## The files that are copied and synced -/

/-- The handles in the calls of `run`: every copy reads from the handle that the open of
the source returned and writes to the handle that the creation of the destination
returned, and every sync is of that destination handle. -/
theorem run_handles {σ H : Type} (os : OS σ H) (dir appName bin : List Nat) (s : σ) :
    ∀ ev ∈ runLog os dir appName bin s,
      (∀ dst src, ev.call = Call.Copy dst src →
        (∃ e0 ∈ runLog os dir appName bin s,
          e0.call = Call.Open bin ∧ (os.Open bin e0.pre).1 = Except.ok src) ∧
        (∃ e1 ∈ runLog os dir appName bin s,
          e1.call = Call.OpenFile (Join [appPathOf dir appName, contents, macOS, appName])
            [OpenFlag.O_WRONLY, OpenFlag.O_CREATE, OpenFlag.O_TRUNC] 0o755 ∧
          (os.OpenFile (Join [appPathOf dir appName, contents, macOS, appName])
            [OpenFlag.O_WRONLY, OpenFlag.O_CREATE, OpenFlag.O_TRUNC] 0o755 e1.pre).1 =
              Except.ok dst)) ∧
      (∀ f, ev.call = Call.Sync f →
        ∃ e1 ∈ runLog os dir appName bin s,
          e1.call = Call.OpenFile (Join [appPathOf dir appName, contents, macOS, appName])
            [OpenFlag.O_WRONLY, OpenFlag.O_CREATE, OpenFlag.O_TRUNC] 0o755 ∧
          (os.OpenFile (Join [appPathOf dir appName, contents, macOS, appName])
            [OpenFlag.O_WRONLY, OpenFlag.O_CREATE, OpenFlag.O_TRUNC] 0o755 e1.pre).1 =
              Except.ok f) := by
  unfold runLog
  simp only [run, traced, appPathOf, genInfoPlist, perm]
  rcases h1 : os.RemoveAll (Join [dir, appName ++ ext]) s with ⟨_ | e1, s1⟩
  swap
  · simp
  simp only []
  rcases h2 : os.MkdirAll (Join [Join [dir, appName ++ ext], contents, macOS]) 493 s1
    with ⟨_ | e2, s2⟩
  swap
  · simp
  simp only []
  rcases h3 : os.MkdirAll (Join [Join [dir, appName ++ ext], contents, resources]) 493 s2
    with ⟨_ | e3, s3⟩
  swap
  · simp
  simp only []
  rcases h4 : os.WriteFile (Join [Join [dir, appName ++ ext], contents, bytes "Info.plist"])
    (Replace infoPlist placeholder (escapeXML appName)) 420 s3 with ⟨_ | e4, s4⟩
  swap
  · simp
  simp only []
  rcases h5 : os.Open bin s4 with ⟨e5 | fin, s5⟩
  · simp
  simp only []
  rcases h6 : os.OpenFile (Join [Join [dir, appName ++ ext], contents, macOS, appName])
    [OpenFlag.O_WRONLY, OpenFlag.O_CREATE, OpenFlag.O_TRUNC] 493 s5 with ⟨e6 | out, s6⟩
  · simp
  simp only []
  rcases h7 : os.Copy out fin s6 with ⟨_ | e7, s7⟩
  swap
  · simp [h5, h6]
  simp only []
  rcases h8 : os.Sync out s7 with ⟨_ | e8, s8⟩
  · simp [h5, h6]
  · simp [h5, h6]

/-! ## Claims about the escaper and the generated `Info.plist` -/

/-- C1 (escaping round trip).  For every application name that is the UTF-8 encoding of
characters legal in XML (which includes `&`, `<`, `>`, the double quote and the apostrophe),
the text `escapeXML appName` that `run` substitutes decodes under XML unescaping to exactly
the name, and each of the three fields of the generated `Info.plist` that receive the name
is a `string` element whose character data unescapes to the name. -/
theorem escapeXML_roundtrip (cs : List Nat) (hcs : ∀ c ∈ cs, isInCharacterRange c = true) :
    unescapeXML (escapeXML (utf8 cs)) = some (utf8 cs) ∧
    ∀ k ∈ [bytes "CFBundleGetInfoString", bytes "CFBundleExecutable", bytes "CFBundleName"],
      ∃ v, plistValue k (genInfoPlist (utf8 cs)) = some (bytes "string", v) ∧
        unescapeXML v = some (utf8 cs) := by
  have hrt : unescapeXML (escapeXML (utf8 cs)) = some (utf8 cs) :=
    unescapeGo_escapeTextLoop cs hcs _ (Nat.le_refl _)
  refine ⟨hrt, ?_⟩
  intro k hk
  refine ⟨escapeXML (utf8 cs), ?_, hrt⟩
  have hv := plistValueGo_itemsWith (escapeXML (utf8 cs))
  unfold plistValue
  rw [tokens_genInfoPlist]
  simp only [List.mem_cons, List.mem_singleton, List.not_mem_nil, or_false] at hk
  rcases hk with h | h | h
  · rw [h]; exact hv.1
  · rw [h]; exact hv.2.1
  · rw [h]; exact hv.2.2.1

/-- Witness of C1: the name `&<>"'a` followed by U+00E9 and U+1F600. -/
theorem escapeXML_roundtrip_witness :
    (∀ c ∈ [38, 60, 62, 34, 39, 97, 0xE9, 0x1F600], isInCharacterRange c = true) ∧
    unescapeXML (escapeXML (utf8 [38, 60, 62, 34, 39, 97, 0xE9, 0x1F600])) =
      some (utf8 [38, 60, 62, 34, 39, 97, 0xE9, 0x1F600]) :=
  ⟨by decide, (escapeXML_roundtrip [38, 60, 62, 34, 39, 97, 0xE9, 0x1F600] (by decide)).1⟩

set_option maxRecDepth 4000 in
/-- C2, counterexample: the value of `CFBundleName` is not a constant; for the names `A`
and `B` the generated documents give it the values `A` and `B`. -/
theorem bundleName_not_constant :
    plistValue (bytes "CFBundleName") (genInfoPlist (bytes "A")) = some (bytes "string", bytes "A") ∧
    plistValue (bytes "CFBundleName") (genInfoPlist (bytes "B")) = some (bytes "string", bytes "B") ∧
    ¬ ∃ v, ∀ appName, plistValue (bytes "CFBundleName") (genInfoPlist appName) = v := by
  have hA : plistValue (bytes "CFBundleName") (genInfoPlist (bytes "A")) =
      some (bytes "string", bytes "A") := by decide!
  have hB : plistValue (bytes "CFBundleName") (genInfoPlist (bytes "B")) =
      some (bytes "string", bytes "B") := by decide!
  refine ⟨hA, hB, ?_⟩
  rintro ⟨v, hv⟩
  have h1 := hv (bytes "A")
  have h2 := hv (bytes "B")
  rw [hA] at h1
  rw [hB] at h2
  rw [← h2] at h1
  revert h1
  decide

/-- C2, amended.  For every application name the generated `Info.plist` is the fixed
template with its three placeholders replaced by the escaped name: the values of
`CFBundleGetInfoString`, `CFBundleExecutable` and `CFBundleName` are the escaped name, and
the value of every other key is a constant. -/
theorem genInfoPlist_fields (appName : List Nat) :
    infoPlist = seg0 ++ (placeholder ++ (seg1 ++ (placeholder ++ (seg2 ++ (placeholder ++ seg3))))) ∧
    genInfoPlist appName = seg0 ++ (escapeXML appName ++ (seg1 ++ (escapeXML appName ++
      (seg2 ++ (escapeXML appName ++ seg3))))) ∧
    ((∀ b ∈ seg0, b ≠ 123) ∧ (∀ b ∈ seg1, b ≠ 123) ∧ (∀ b ∈ seg2, b ≠ 123) ∧
      (∀ b ∈ seg3, b ≠ 123)) ∧
    plistValue (bytes "CFBundleGetInfoString") (genInfoPlist appName) =
      some (bytes "string", escapeXML appName) ∧
    plistValue (bytes "CFBundleExecutable") (genInfoPlist appName) =
      some (bytes "string", escapeXML appName) ∧
    plistValue (bytes "CFBundleName") (genInfoPlist appName) =
      some (bytes "string", escapeXML appName) ∧
    plistValue (bytes "CFBundleIdentifier") (genInfoPlist appName) =
      some (bytes "string", bytes "com.example.www") ∧
    plistValue (bytes "CFBundleIconFile") (genInfoPlist appName) =
      some (bytes "string", bytes "icon.icns") ∧
    plistValue (bytes "CFBundleShortVersionString") (genInfoPlist appName) =
      some (bytes "string", bytes "0.01") ∧
    plistValue (bytes "CFBundleInfoDictionaryVersion") (genInfoPlist appName) =
      some (bytes "string", bytes "6.0") ∧
    plistValue (bytes "CFBundlePackageType") (genInfoPlist appName) =
      some (bytes "string", bytes "APPL") ∧
    plistValue (bytes "IFMajorVersion") (genInfoPlist appName) =
      some (bytes "integer", bytes "0") ∧
    plistValue (bytes "IFMinorVersion") (genInfoPlist appName) =
      some (bytes "integer", bytes "1") ∧
    (plistValue (bytes "NSHighResolutionCapable") (genInfoPlist appName)).map Prod.fst =
      some (bytes "true /") := by
  refine ⟨infoPlist_eq_segs, genInfoPlist_eq appName, segs_no_brace, ?_⟩
  unfold plistValue
  rw [tokens_genInfoPlist]
  exact plistValueGo_itemsWith (escapeXML appName)

/-- C8 (no XML injection).  For every application name, any byte string at all,
`escapeXML appName` contains no raw `<`, `>`, double quote or apostrophe, and every `&` in
it begins one of the references the escaper writes; hence the generated `Info.plist` has the
items of the template with only the placeholder character data replaced, the same tags in
the same order and the same keys. -/
theorem escapeXML_no_injection (appName : List Nat) :
    (∀ b ∈ escapeXML appName, b ≠ 60 ∧ b ≠ 62 ∧ b ≠ 34 ∧ b ≠ 39) ∧
    (∀ pre post, escapeXML appName = pre ++ 38 :: post → ∃ r ∈ escRefs, r <+: 38 :: post) ∧
    tokens (genInfoPlist appName) =
      (tokens infoPlist).map (fun it => if it = placeholder then escapeXML appName else it) ∧
    tagsOf (tokens (genInfoPlist appName)) = tagsOf (tokens infoPlist) ∧
    keysOf (tokens (genInfoPlist appName)).tail = keysOf (tokens infoPlist).tail := by
  have hs := safeText_spec _ (escapeXML_safe appName)
  refine ⟨hs.1, hs.2, ?_, ?_, ?_⟩
  · rw [tokens_genInfoPlist, tokens_infoPlist, itemsWith_map]
  · rw [tokens_genInfoPlist, tokens_infoPlist, tagsOf_itemsWith]
  · rw [tokens_genInfoPlist, tokens_infoPlist, keysOf_itemsWith]

/-! ## Claims about `main` -/

/-- C3 (validation before mutation).  Whenever the value of `-o` is empty, or the positional
argument is missing or empty, or the final element of the value of `-o` does not end in the
suffix `.app`, `main` exits with status 1 without calling `run`: no call to the operating
system is made and the state is unchanged. -/
theorem main_validation {σ H : Type} (os : OS σ H) (output : List Nat)
    (args : List (List Nat)) (s : σ)
    (h : output = [] ∨ args = [] ∨ args.headD [] = [] ∨ ¬ (bytes ".app" <:+ Base output)) :
    ∃ msgs, main os output args s = (Outcome.exit 1 msgs, s) ∧
      main (traced os) output args (s, []) = (Outcome.exit 1 msgs, (s, [])) ∧
      mainLog os output args s = [] := by
  unfold mainLog main
  by_cases h1 : output = []
  · refine ⟨[Message.pathNotSpecified, Message.usage], ?_, ?_, ?_⟩ <;> simp only [if_pos h1]
  by_cases h2 : args.headD [] = []
  · refine ⟨[Message.binaryNotSpecified], ?_, ?_, ?_⟩ <;> simp only [if_neg h1, if_pos h2]
  by_cases h3 : Ext output = bytes ".app"
  · exfalso
    rcases h with h | h | h | h
    · exact h1 h
    · apply h2
      rw [h]
      rfl
    · exact h2 h
    · obtain ⟨d, stem, _, _, _, hbase, _⟩ := split_of_Ext output h3
      apply h
      rw [hbase]
      exact List.suffix_append _ _
  · have h3' : Ext output ≠ bytes ".app" := h3
    refine ⟨[Message.mustEndWithApp], ?_, ?_, ?_⟩ <;>
      simp only [if_neg h1, if_neg h2, if_pos h3']

set_option maxRecDepth 8000 in
/-- Witness of C3: the destination `MyApp.App` with the working file system. -/
theorem main_validation_witness :
    (bytes "MyApp.App" = [] ∨ [bytes "bin"] = [] ∨ [bytes "bin"].headD [] = [] ∨
      ¬ (bytes ".app" <:+ Base (bytes "MyApp.App"))) ∧
    ∃ msgs, main posix (bytes "MyApp.App") [bytes "bin"] fsDemo = (Outcome.exit 1 msgs, fsDemo) ∧
      main (traced posix) (bytes "MyApp.App") [bytes "bin"] (fsDemo, []) =
        (Outcome.exit 1 msgs, (fsDemo, [])) ∧
      mainLog posix (bytes "MyApp.App") [bytes "bin"] fsDemo = [] :=
  ⟨Or.inr (Or.inr (Or.inr (by decide))),
    main_validation posix (bytes "MyApp.App") [bytes "bin"] fsDemo
      (Or.inr (Or.inr (Or.inr (by decide))))⟩

/-- C7 (destination decomposition).  For every value of `-o` that passes the suffix check,
the base name has at least four bytes, so the slice that strips the last four is in range
and `main` does not panic; the application name followed by `.app` is the base name; it
contains no separator; the bundle path that `run` builds from the directory and the
application name is the cleaned value of `-o`; and `main` calls `run` with these values. -/
theorem main_decomposition (output : List Nat) (h : Ext output = bytes ".app") :
    4 ≤ (Base output).length ∧
    (Base output).take ((Base output).length - 4) ++ bytes ".app" = Base output ∧
    (∀ x ∈ (Base output).take ((Base output).length - 4), x ≠ 47) ∧
    Join [Dir output, (Base output).take ((Base output).length - 4) ++ ext] = Clean output ∧
    ∀ {σ H : Type} (os : OS σ H) (args : List (List Nat)) (s : σ),
      (main os output args s).1 ≠ Outcome.panic ∧
      (args.headD [] ≠ [] → (main os output args s).2 =
        (run os (Dir output) ((Base output).take ((Base output).length - 4))
          (args.headD []) s).2) := by
  obtain ⟨d, stem, hout, hd, hstem, hbase, hdir⟩ := split_of_Ext output h
  have hb : bytes ".app" = [46, 97, 112, 112] := by decide
  have hext : ext = bytes ".app" := rfl
  have hlen : (Base output).length = stem.length + 4 := by
    rw [hbase, hb]
    simp
  have htake : (Base output).take ((Base output).length - 4) = stem := by
    rw [hlen, hbase]
    simp
  have hne : output ≠ [] := by
    rw [hout, hb]
    simp
  refine ⟨by omega, by rw [htake, hbase], by rw [htake]; exact hstem, ?_, ?_⟩
  · rw [htake, hext, hdir, hout]
    apply Join_Dir_Base d _ hd
    · rw [hb]; simp
    · intro x hx
      rcases List.mem_append.1 hx with hx | hx
      · exact hstem x hx
      · rw [hb] at hx
        simp only [List.mem_cons, List.mem_singleton, List.not_mem_nil, or_false] at hx
        omega
  · intro σ H os args s
    have hnl : ¬ (Base output).length < 4 := by omega
    have hx : ¬ (Ext output ≠ bytes ".app") := fun hh => hh h
    constructor
    · unfold main
      simp only [if_neg hne, if_neg hx, if_neg hnl]
      split_ifs
      · simp
      · split <;> simp
    · intro hbin
      unfold main
      simp only [if_neg hne, if_neg hx, if_neg hnl, if_neg hbin]
      split <;> simp_all

/-- Witness of C7: the destination `/tmp/out/Demo.app` gives the directory `/tmp/out`, the
application name `Demo` and the executable path `/tmp/out/Demo.app/Contents/MacOS/Demo`. -/
theorem main_decomposition_witness :
    Ext (bytes "/tmp/out/Demo.app") = bytes ".app" ∧
    Dir (bytes "/tmp/out/Demo.app") = bytes "/tmp/out" ∧
    (Base (bytes "/tmp/out/Demo.app")).take ((Base (bytes "/tmp/out/Demo.app")).length - 4) =
      bytes "Demo" ∧
    Join [Join [bytes "/tmp/out", bytes "Demo" ++ ext], contents, macOS, bytes "Demo"] =
      bytes "/tmp/out/Demo.app/Contents/MacOS/Demo" ∧
    Join [Dir (bytes "/tmp/out/Demo.app"),
      (Base (bytes "/tmp/out/Demo.app")).take ((Base (bytes "/tmp/out/Demo.app")).length - 4) ++
        ext] = Clean (bytes "/tmp/out/Demo.app") :=
  ⟨by decide, by decide, by decide, by decide,
    (main_decomposition (bytes "/tmp/out/Demo.app") (by decide)).2.2.2.1⟩

/-! ## Claims about `run` -/

/-- C10 (ordered fail-fast pipeline).  On every operating system and from every state, the
steps `run` performs (its calls other than the deferred `Close`) are an initial part of the
fixed sequence remove bundle, create `Contents/MacOS`, create `Contents/Resources`, write
`Info.plist`, open source, create or truncate destination, copy, sync, with the arguments
of the plan; each step but the last performed succeeded; the error `run` returns is exactly
the error of the last step performed (in particular no step follows a failed one); and
`run` returns success only if all eight steps were performed and succeeded.  The copy reads
from the file that the open of the source returned and writes to the file that the creation
of the destination returned, and the sync is of that destination file.  Recording the calls
changes neither the result nor the final state. -/
theorem run_fail_fast {σ H : Type} (os : OS σ H) (dir appName bin : List Nat) (s : σ) :
    (run (traced os) dir appName bin (s, [])).1 = (run os dir appName bin s).1 ∧
    (run (traced os) dir appName bin (s, [])).2.1 = (run os dir appName bin s).2 ∧
    1 ≤ (stepEvents (runLog os dir appName bin s)).length ∧
    (stepEvents (runLog os dir appName bin s)).length ≤ 8 ∧
    (stepEvents (runLog os dir appName bin s)).map (fun e => e.call.kind) =
      (plan dir appName bin).take (stepEvents (runLog os dir appName bin s)).length ∧
    (∀ e ∈ (stepEvents (runLog os dir appName bin s)).dropLast, e.err = none) ∧
    (stepEvents (runLog os dir appName bin s)).getLast?.map (fun e => e.err) =
      some (run os dir appName bin s).1 ∧
    ((run os dir appName bin s).1 = none →
      (stepEvents (runLog os dir appName bin s)).length = 8 ∧
      ∀ e ∈ stepEvents (runLog os dir appName bin s), e.err = none) ∧
    (∀ ev ∈ runLog os dir appName bin s,
      (∀ dst src, ev.call = Call.Copy dst src →
        (∃ e0 ∈ runLog os dir appName bin s,
          e0.call = Call.Open bin ∧ (os.Open bin e0.pre).1 = Except.ok src) ∧
        (∃ e1 ∈ runLog os dir appName bin s,
          e1.call = Call.OpenFile (Join [appPathOf dir appName, contents, macOS, appName])
            [OpenFlag.O_WRONLY, OpenFlag.O_CREATE, OpenFlag.O_TRUNC] 0o755 ∧
          (os.OpenFile (Join [appPathOf dir appName, contents, macOS, appName])
            [OpenFlag.O_WRONLY, OpenFlag.O_CREATE, OpenFlag.O_TRUNC] 0o755 e1.pre).1 =
              Except.ok dst)) ∧
      (∀ f, ev.call = Call.Sync f →
        ∃ e1 ∈ runLog os dir appName bin s,
          e1.call = Call.OpenFile (Join [appPathOf dir appName, contents, macOS, appName])
            [OpenFlag.O_WRONLY, OpenFlag.O_CREATE, OpenFlag.O_TRUNC] 0o755 ∧
          (os.OpenFile (Join [appPathOf dir appName, contents, macOS, appName])
            [OpenFlag.O_WRONLY, OpenFlag.O_CREATE, OpenFlag.O_TRUNC] 0o755 e1.pre).1 =
              Except.ok f)) := by
  obtain ⟨h1, h2, h3, h4, h5, h6, h7, h8⟩ := run_traced_cases os dir appName bin s
  refine ⟨h1, h2, h3, h4, h6, h7, h8, fun hok => ⟨h5 hok, ?_⟩,
    run_handles os dir appName bin s⟩
  intro e he
  rw [hok] at h8
  generalize stepEvents (runLog os dir appName bin s) = l at *
  rcases List.eq_nil_or_concat l with hl | ⟨l1, a, hl⟩
  · subst hl
    simp at he
  · subst hl
    simp only [List.concat_eq_append, List.getLast?_append, List.getLast?_singleton,
      Option.or_some, Option.map_some', Option.some.injEq] at h8
    simp only [List.concat_eq_append, List.dropLast_concat] at h7
    simp only [List.concat_eq_append, List.mem_append, List.mem_singleton] at he
    rcases he with hm | hm
    · exact h7 e hm
    · rw [hm]
      exact h8

set_option maxRecDepth 8000 in
/-- Witness of C10: a successful run on the working file system performs the eight steps. -/
theorem run_fail_fast_witness :
    (run posix (bytes "/tmp/out") (bytes "Demo") (bytes "bin") fsDemo).1 = none ∧
    (stepEvents (runLog posix (bytes "/tmp/out") (bytes "Demo") (bytes "bin") fsDemo)).length = 8 ∧
    (stepEvents (runLog posix (bytes "/tmp/out") (bytes "Demo") (bytes "bin") fsDemo)).map
      (fun e => e.call.kind) = plan (bytes "/tmp/out") (bytes "Demo") (bytes "bin") := by
  have hok : (run posix (bytes "/tmp/out") (bytes "Demo") (bytes "bin") fsDemo).1 = none := by
    decide!
  have h := run_fail_fast posix (bytes "/tmp/out") (bytes "Demo") (bytes "bin") fsDemo
  have hlen := (h.2.2.2.2.2.2.2.1 hok).1
  refine ⟨hok, hlen, ?_⟩
  have := h.2.2.2.2.1
  rw [hlen] at this
  exact this

/-- C9 (permission bits).  In every run, on every operating system and from every state,
each directory creation `run` requests is for `Contents/MacOS` or `Contents/Resources` of
the bundle with mode `0755`, each creation of a file is for the executable with mode
`0755`, and each file written is `Info.plist` with mode `0644`; `0755` has the execute bit
for owner, group and other and `0644` has none.  On the file system, after a successful
run, the bundle directory, `Contents`, `Contents/MacOS`, `Contents/Resources` and every
ancestor that had to be created are directories of mode `0755` less the mask, `Info.plist`
is a file of mode `0644` less the mask, and for an application name without a separator
the executable is a file of mode `0755` less the mask. -/
theorem run_permissions {σ H : Type} (os : OS σ H) (dir appName bin : List Nat) (s : σ)
    (fs : FS) :
    (∀ ev ∈ runLog os dir appName bin s, ∀ p m, ev.call = Call.MkdirAll p m →
      m = 0o755 ∧ (p = Join [appPathOf dir appName, contents, macOS] ∨
        p = Join [appPathOf dir appName, contents, resources])) ∧
    (∀ ev ∈ runLog os dir appName bin s, ∀ p f m, ev.call = Call.OpenFile p f m →
      m = 0o755 ∧ p = Join [appPathOf dir appName, contents, macOS, appName]) ∧
    (∀ ev ∈ runLog os dir appName bin s, ∀ p d m, ev.call = Call.WriteFile p d m →
      m = 0o644 ∧ p = Join [appPathOf dir appName, contents, bytes "Info.plist"]) ∧
    perm = 0o755 ∧ 0o755 &&& 0o111 = 0o111 ∧ 0o644 &&& 0o111 = 0 ∧
    ((run posix dir appName bin fs).1 = none →
      (∀ q ∈ [appKey fs.cwd dir appName, contentsKey fs.cwd dir appName,
          macKey fs.cwd dir appName, resKey fs.cwd dir appName],
        (run posix dir appName bin fs).2.nodes q =
          some (Node.dir (applyUmask 0o755 fs.umask))) ∧
      (∀ q, q <+: appKey fs.cwd dir appName → fs.nodes q = none →
        (run posix dir appName bin fs).2.nodes q =
          some (Node.dir (applyUmask 0o755 fs.umask))) ∧
      (∃ d, (run posix dir appName bin fs).2.nodes (plistKey fs.cwd dir appName) =
        some (Node.file (applyUmask 0o644 fs.umask) d)) ∧
      ((∀ x ∈ appName, x ≠ 47) →
        ∃ d, (run posix dir appName bin fs).2.nodes (macKey fs.cwd dir appName ++ [appName]) =
          some (Node.file (applyUmask 0o755 fs.umask) d))) := by
  have hk := log_kind_mem_plan os dir appName bin s
  refine ⟨?_, ?_, ?_, rfl, by decide, by decide, ?_⟩
  · intro ev hev p m hc
    have := hk ev hev
    rw [hc] at this
    simp only [Call.kind, plan, List.mem_cons, Kind.MkdirAll.injEq, List.mem_singleton,
      false_or, or_false, List.not_mem_nil, reduceCtorEq] at this
    rcases this with ⟨h1, h2⟩ | ⟨h1, h2⟩
    · exact ⟨h2, Or.inl h1⟩
    · exact ⟨h2, Or.inr h1⟩
  · intro ev hev p f m hc
    have := hk ev hev
    rw [hc] at this
    simp only [Call.kind, plan, List.mem_cons, Kind.OpenFile.injEq, List.mem_singleton,
      false_or, or_false, List.not_mem_nil, reduceCtorEq] at this
    exact ⟨this.2.2, this.1⟩
  · intro ev hev p d m hc
    have := hk ev hev
    rw [hc] at this
    simp only [Call.kind, plan, List.mem_cons, Kind.WriteFile.injEq, List.mem_singleton,
      false_or, or_false, List.not_mem_nil, reduceCtorEq] at this
    exact ⟨this.2.2, this.1⟩
  · intro hok
    obtain ⟨hp, _⟩ := run_ok dir appName bin fs hok
    obtain ⟨s1, s2, s3, s4, _, _, sanc⟩ := prep_state dir appName fs hp
    obtain ⟨hdir, hplist, mb, db, mE, _, hexe, hsep⟩ := run_state dir appName bin fs hok
    refine ⟨?_, fun q hq hn => hdir _ _ (sanc q hq hn), hplist, fun hs => ?_⟩
    · intro q hq
      simp only [List.mem_cons, List.mem_singleton, List.not_mem_nil, or_false] at hq
      rcases hq with rfl | rfl | rfl | rfl
      · exact hdir _ _ s1
      · exact hdir _ _ s2
      · exact hdir _ _ s3
      · exact hdir _ _ s4
    · obtain ⟨e1, _, e3⟩ := hsep hs
      rw [← e1, hexe, e3]
      exact ⟨_, rfl⟩

set_option maxRecDepth 8000 in
/-- Witness of C9: the modes after building `/tmp/out/Demo.app` with the mask `022`. -/
theorem run_permissions_witness :
    (run posix (bytes "/tmp/out") (bytes "Demo") (bytes "bin") fsDemo).1 = none ∧
    (∀ q, q <+: appKey fsDemo.cwd (bytes "/tmp/out") (bytes "Demo") → fsDemo.nodes q = none →
      (run posix (bytes "/tmp/out") (bytes "Demo") (bytes "bin") fsDemo).2.nodes q =
        some (Node.dir (applyUmask 0o755 fsDemo.umask))) ∧
    applyUmask 0o755 fsDemo.umask = 0o755 := by
  have hok : (run posix (bytes "/tmp/out") (bytes "Demo") (bytes "bin") fsDemo).1 = none := by
    decide!
  exact ⟨hok, ((run_permissions posix (bytes "/tmp/out") (bytes "Demo") (bytes "bin") fsDemo
    fsDemo).2.2.2.2.2.2 hok).2.1, by decide⟩

/-- C4 (idempotence of `run`).  For every file system state, whatever the bundle directory
held before, and all arguments for which `run` succeeds, a second run with the same
arguments from the state the first one left succeeds as well, and every path under the
bundle directory holds the same node (kind, mode and bytes) after the second run as after
the first; moreover every node under the bundle directory after a run is one of those the
run itself writes: the bundle directory, `Contents`, `Contents/MacOS`,
`Contents/Resources`, `Info.plist` or the executable. -/
theorem run_idempotent (fs : FS) (dir appName bin : List Nat)
    (h : (run posix dir appName bin fs).1 = none) :
    (run posix dir appName bin (run posix dir appName bin fs).2).1 = none ∧
    (∀ q, appKey fs.cwd dir appName <+: q →
      (run posix dir appName bin (run posix dir appName bin fs).2).2.nodes q =
        (run posix dir appName bin fs).2.nodes q) ∧
    (∀ q, appKey fs.cwd dir appName <+: q → (run posix dir appName bin fs).2.nodes q ≠ none →
      q ∈ [appKey fs.cwd dir appName, contentsKey fs.cwd dir appName, macKey fs.cwd dir appName,
        resKey fs.cwd dir appName, plistKey fs.cwd dir appName] ∨
      q = exeKey fs.cwd dir appName) :=
  run_twice fs dir appName bin h

set_option maxRecDepth 8000 in
/-- Witness of C4: building `/tmp/out/Demo.app` twice. -/
theorem run_idempotent_witness :
    (run posix (bytes "/tmp/out") (bytes "Demo") (bytes "bin") fsDemo).1 = none ∧
    (run posix (bytes "/tmp/out") (bytes "Demo") (bytes "bin")
      (run posix (bytes "/tmp/out") (bytes "Demo") (bytes "bin") fsDemo).2).1 = none := by
  have hok : (run posix (bytes "/tmp/out") (bytes "Demo") (bytes "bin") fsDemo).1 = none := by
    decide!
  exact ⟨hok, (run_idempotent fsDemo (bytes "/tmp/out") (bytes "Demo") (bytes "bin") hok).1⟩

/-- C5 (copy round trip).  Whenever `run` succeeds for an application name without a path
separator (the names `main` passes are the last element of a path and have none), the
source is opened in the state the first four steps leave, it is then a regular file, and
after the run the file `Contents/MacOS/appName` of the bundle holds exactly the bytes the
source held at that moment, whatever their number, with nothing of an earlier destination
file. -/
theorem run_copies (dir appName bin : List Nat) (fs : FS)
    (hok : (run posix dir appName bin fs).1 = none)
    (hsep : ∀ x ∈ appName, x ≠ 47) :
    exeKey fs.cwd dir appName = macKey fs.cwd dir appName ++ [appName] ∧
    ∃ ev ∈ runLog posix dir appName bin fs, ev.call = Call.Open bin ∧
      ∃ mb db mE, ev.pre.nodes (resolve fs.cwd bin) = some (Node.file mb db) ∧
        (run posix dir appName bin fs).2.nodes (macKey fs.cwd dir appName ++ [appName]) =
          some (Node.file mE db) := by
  obtain ⟨hp, _⟩ := run_ok dir appName bin fs hok
  obtain ⟨ev, hev, hcall, hpre⟩ := open_event dir appName bin fs hp
  obtain ⟨_, _, mb, db, mE, hB, hexe, hs⟩ := run_state dir appName bin fs hok
  obtain ⟨hE, hne, _⟩ := hs hsep
  rw [if_neg hne, hE] at hexe
  exact ⟨hE, ev, hev, hcall, mb, db, mE, by rw [hpre]; exact hB, hexe⟩

set_option maxRecDepth 8000 in
/-- Witness of C5: the ten bytes of `/tmp/bin` arrive in
`/tmp/out/Demo.app/Contents/MacOS/Demo`. -/
theorem run_copies_witness :
    (run posix (bytes "/tmp/out") (bytes "Demo") (bytes "bin") fsDemo).1 = none ∧
    (∀ x ∈ bytes "Demo", x ≠ 47) ∧
    (run posix (bytes "/tmp/out") (bytes "Demo") (bytes "bin") fsDemo).2.nodes
      [bytes "tmp", bytes "out", bytes "Demo.app", bytes "Contents", bytes "MacOS",
        bytes "Demo"] = some (Node.file 0o755 [1, 2, 3, 4, 5, 6, 7, 8, 9, 10]) ∧
    ∃ ev ∈ runLog posix (bytes "/tmp/out") (bytes "Demo") (bytes "bin") fsDemo,
      ev.call = Call.Open (bytes "bin") ∧
      ∃ mb db mE, ev.pre.nodes (resolve fsDemo.cwd (bytes "bin")) = some (Node.file mb db) ∧
        (run posix (bytes "/tmp/out") (bytes "Demo") (bytes "bin") fsDemo).2.nodes
          (macKey fsDemo.cwd (bytes "/tmp/out") (bytes "Demo") ++ [bytes "Demo"]) =
            some (Node.file mE db) := by
  have hok : (run posix (bytes "/tmp/out") (bytes "Demo") (bytes "bin") fsDemo).1 = none := by
    decide!
  have hs : ∀ x ∈ bytes "Demo", x ≠ 47 := by decide
  exact ⟨hok, hs, by decide!,
    (run_copies (bytes "/tmp/out") (bytes "Demo") (bytes "bin") fsDemo hok hs).2⟩

set_option maxRecDepth 8000 in
/-- Counterexample to C6 as stated.  First, an invocation that `main` can make, with the
bundle `/tmp/out/Demo.app` and the source path `/tmp/out/Demo.app/Contents`: nothing exists
at the source path before the run nor once the old bundle has been removed, and the
removal, the directory creations and the write of `Info.plist` succeed; but the source path
is then a directory the run itself created, so the open succeeds, the destination is
created, the copy fails with `EISDIR`, and an empty file is left at `Contents/MacOS/Demo`.
Second, for `run` called with the application name `../Info.plist` and a missing source,
the path `Contents/MacOS/../Info.plist` names the `Info.plist` just written, a file. -/
theorem run_missing_binary_stray :
    (fsDemo.nodes (resolve fsDemo.cwd (bytes "/tmp/out/Demo.app/Contents")) = none ∧
      (FS.RemoveAll (appPathOf (bytes "/tmp/out") (bytes "Demo")) fsDemo).2.nodes
        (resolve fsDemo.cwd (bytes "/tmp/out/Demo.app/Contents")) = none ∧
      (prep (bytes "/tmp/out") (bytes "Demo") fsDemo).1 = none ∧
      (run posix (bytes "/tmp/out") (bytes "Demo") (bytes "/tmp/out/Demo.app/Contents")
        fsDemo).1 = some Errno.EISDIR ∧
      exeKey fsDemo.cwd (bytes "/tmp/out") (bytes "Demo") =
        [bytes "tmp", bytes "out", bytes "Demo.app", bytes "Contents", bytes "MacOS",
          bytes "Demo"] ∧
      (run posix (bytes "/tmp/out") (bytes "Demo") (bytes "/tmp/out/Demo.app/Contents")
        fsDemo).2.nodes (exeKey fsDemo.cwd (bytes "/tmp/out") (bytes "Demo")) =
          some (Node.file 0o755 [])) ∧
    ((prep (bytes "/tmp/out") (bytes "../Info.plist") fsDemo).1 = none ∧
      (prep (bytes "/tmp/out") (bytes "../Info.plist") fsDemo).2.nodes
        (resolve fsDemo.cwd (bytes "/nothing")) = none ∧
      (run posix (bytes "/tmp/out") (bytes "../Info.plist") (bytes "/nothing") fsDemo).1 =
        some Errno.ENOENT ∧
      exeKey fsDemo.cwd (bytes "/tmp/out") (bytes "../Info.plist") =
        plistKey fsDemo.cwd (bytes "/tmp/out") (bytes "../Info.plist") ∧
      isFile ((run posix (bytes "/tmp/out") (bytes "../Info.plist") (bytes "/nothing")
        fsDemo).2.nodes (exeKey fsDemo.cwd (bytes "/tmp/out") (bytes "../Info.plist"))) =
          true) := by
  decide!

/-- C6 amended (missing-binary error).  For every file system state in which the removal,
the directory creations and the write of `Info.plist` succeed and in which nothing, neither
file nor directory, exists at the source path when `run` opens it (that is, in the state
these four steps leave), `run` returns an error and leaves that state: `Contents/MacOS` and
`Contents/Resources` are directories and `Contents/Info.plist` is the generated file, and
for an application name without a path separator no file exists at
`Contents/MacOS/appName`. -/
theorem run_missing_binary (dir appName bin : List Nat) (fs : FS)
    (hp : (prep dir appName fs).1 = none)
    (hB : (prep dir appName fs).2.nodes (resolve fs.cwd bin) = none)
    (hs : ∀ x ∈ appName, x ≠ 47) :
    (∃ err, (run posix dir appName bin fs).1 = some err) ∧
    (run posix dir appName bin fs).2 = (prep dir appName fs).2 ∧
    (run posix dir appName bin fs).2.nodes (macKey fs.cwd dir appName) =
      some (Node.dir (applyUmask 0o755 fs.umask)) ∧
    (run posix dir appName bin fs).2.nodes (resKey fs.cwd dir appName) =
      some (Node.dir (applyUmask 0o755 fs.umask)) ∧
    (run posix dir appName bin fs).2.nodes (plistKey fs.cwd dir appName) =
      some (Node.file (applyUmask 0o644 fs.umask) (genInfoPlist appName)) ∧
    exeKey fs.cwd dir appName ∈ [macKey fs.cwd dir appName ++ [appName],
      macKey fs.cwd dir appName, contentsKey fs.cwd dir appName] ∧
    isFile ((run posix dir appName bin fs).2.nodes (exeKey fs.cwd dir appName)) = false ∧
    (run posix dir appName bin fs).2.nodes (macKey fs.cwd dir appName ++ [appName]) = none := by
  obtain ⟨_, _, s3, s4, s5, _, _⟩ := prep_state dir appName fs hp
  obtain ⟨n1, n2⟩ := prep_no_exe dir appName fs hp hs
  obtain ⟨err, herr⟩ := run_missing dir appName bin fs hp hB
  rw [herr]
  refine ⟨⟨err, rfl⟩, rfl, s3, s4, s5, ?_, n1, n2⟩
  simp only [List.mem_cons, List.mem_singleton, List.not_mem_nil, or_false]
  exact exeKey_of_no_sep fs.cwd dir appName hs

set_option maxRecDepth 8000 in
/-- Witness of C6 amended: building `/tmp/out/Demo.app` from the missing source `/nothing`
fails and leaves no executable. -/
theorem run_missing_binary_witness :
    (prep (bytes "/tmp/out") (bytes "Demo") fsDemo).1 = none ∧
    (prep (bytes "/tmp/out") (bytes "Demo") fsDemo).2.nodes
      (resolve fsDemo.cwd (bytes "/nothing")) = none ∧
    (∀ x ∈ bytes "Demo", x ≠ 47) ∧
    (∃ err, (run posix (bytes "/tmp/out") (bytes "Demo") (bytes "/nothing") fsDemo).1 =
      some err) ∧
    (run posix (bytes "/tmp/out") (bytes "Demo") (bytes "/nothing") fsDemo).2.nodes
      (macKey fsDemo.cwd (bytes "/tmp/out") (bytes "Demo") ++ [bytes "Demo"]) = none := by
  have hp : (prep (bytes "/tmp/out") (bytes "Demo") fsDemo).1 = none := by decide!
  have hB : (prep (bytes "/tmp/out") (bytes "Demo") fsDemo).2.nodes
      (resolve fsDemo.cwd (bytes "/nothing")) = none := by decide!
  have hs : ∀ x ∈ bytes "Demo", x ≠ 47 := by decide
  have h := run_missing_binary (bytes "/tmp/out") (bytes "Demo") (bytes "/nothing") fsDemo
    hp hB hs
  exact ⟨hp, hB, hs, h.1, h.2.2.2.2.2.2.2⟩

end Macapp
